import Mathlib

/-!
B-tree page search (`btree_search_analysis/btree_search_demo.c`).

A shallow embedding of the search path of the demo: `get_page`, `_bt_compare`,
`_bt_binsrch`, `_bt_moveright`, `_bt_search` and the fixture built by
`create_sample_tree`.

Conventions of the embedding.

* `int` values are mathematical integers; the subtractions
  `key->scankey - page_key` and `key->scankey - page->high_key` are wrapped to
  32 bits by `wrap32` (two's complement). The counter `move_count` is a
  natural number.
* `OffsetNumber` (`unsigned short`) values are naturals reduced modulo `2^16`
  wherever the program stores into such a variable.
* `BlockNumber` values are naturals; `INVALID_BLOCK` is `0xFFFFFFFF`.
* The `pages` array of a tree is a list whose length is `num_pages`.
* A `NULL` page pointer that the program would dereference is the error
  `SearchError.null_page`; loops that need not terminate take a fuel argument
  and report `SearchError.out_of_fuel` when it is used up.
-/

namespace BTreeSearch

/-! ## Data structures -/

def MAX_KEYS_PER_PAGE : Nat := 7

def MAX_CHILDREN : Nat := 8

def INVALID_BLOCK : Nat := 0xFFFFFFFF

inductive PageType where
  | PAGE_INTERNAL
  | PAGE_LEAF
  deriving DecidableEq, Repr

structure BTPage where
  type : PageType
  blockno : Nat
  right_link : Nat
  num_keys : Int
  keys : List Int
  children : List Nat
  high_key : Int
  has_high_key : Bool
  deriving DecidableEq, Repr

structure BTScanInsert where
  scankey : Int
  nextkey : Bool
  deriving DecidableEq, Repr

structure BTree where
  pages : List BTPage
  root : Nat
  deriving DecidableEq, Repr

/-- The field `num_pages`: the number of entries of the `pages` array. -/
def BTree.num_pages (tree : BTree) : Nat := tree.pages.length

/-- One entry of the parent stack: `bts_blkno` and `bts_offset`; the list tail
plays the role of `bts_parent`. -/
abbrev BTStack := List (Nat × Nat)

/-- The ways a run of the model ends without a result. `null_page`: the
program dereferences the `NULL` page pointer that `get_page` returned (the
program itself has no error value to return). `out_of_fuel`: the iteration
budget of the model is used up. -/
inductive SearchError where
  | null_page
  | out_of_fuel
  deriving DecidableEq, Repr

deriving instance DecidableEq for Except

/-! ## Machine arithmetic -/

/-- Two's-complement reduction of an integer to the range of a 32-bit `int`. -/
def wrap32 (x : Int) : Int := (x + 2147483648) % 4294967296 - 2147483648

/-- Reduction of a natural number to the range of `unsigned short`. -/
def u16 (n : Nat) : Nat := n % 65536

/-- Conversion of an `int` to `unsigned short`. -/
def int_to_u16 (x : Int) : Nat := (x % 65536).toNat

/-! ## Helper functions -/

def create_page (type : PageType) (blockno : Nat) : BTPage :=
  { type := type
    blockno := blockno
    right_link := INVALID_BLOCK
    num_keys := 0
    keys := List.replicate MAX_KEYS_PER_PAGE 0
    children := List.replicate MAX_CHILDREN 0xFFFFFFFF
    high_key := 0
    has_high_key := false }

def get_page (tree : BTree) (blockno : Nat) : Option BTPage :=
  if blockno ≥ tree.num_pages then none else tree.pages.get? blockno

def is_leaf (page : BTPage) : Bool := page.type = PageType.PAGE_LEAF

def is_rightmost (page : BTPage) : Bool := page.right_link = INVALID_BLOCK

def create_stack_node (blkno : Nat) (offset : Nat) (parent : BTStack) : BTStack :=
  (blkno, offset) :: parent

/-! ## Core search algorithm -/

def _bt_compare (key : BTScanInsert) (page : BTPage) (offnum : Nat) : Int :=
  if !is_leaf page && offnum == 0 then 1
  else if (offnum : Int) ≥ page.num_keys then -1
  else
    let page_key := page.keys.getD offnum 0
    wrap32 (key.scankey - page_key)

/-- The value `cmpval` computed at the head of `_bt_binsrch` and `_bt_moveright`. -/
def cmpval_of (key : BTScanInsert) : Int := if key.nextkey then 0 else 1

/-- The probe offset `mid = low + ((high - low) / 2)`. -/
def binsrch_mid (low high : Nat) : Nat := u16 (low + (high - low) / 2)

/-- One iteration of the body of the bisect loop of `_bt_binsrch`, entered with
`high > low`: the new values of `low` and `high`. -/
def binsrch_step (key : BTScanInsert) (page : BTPage) (low high : Nat) : Nat × Nat :=
  let mid := binsrch_mid low high
  let result := _bt_compare key page mid
  if result ≥ cmpval_of key then (u16 (mid + 1), high) else (low, mid)

/-- The loop `while (high > low)` of `_bt_binsrch`; the value is the final
`low`. The first argument bounds the number of iterations. -/
def binsrch_loop (key : BTScanInsert) (page : BTPage) : Nat → Nat → Nat → Nat
  | 0, low, _ => low
  | fuel + 1, low, high =>
    if high > low then
      binsrch_loop key page fuel (binsrch_step key page low high).1
        (binsrch_step key page low high).2
    else low

def _bt_binsrch (key : BTScanInsert) (page : BTPage) : Nat :=
  let low := 0
  let high := int_to_u16 page.num_keys
  if high < low then low
  else
    let high := u16 (high + 1)
    let low := binsrch_loop key page (high - low) low high
    if is_leaf page then low
    else if low > 0 then low - 1 else 0

/-- The loop of `_bt_moveright`, with the local counter `move_count`. The
result is the page the loop stops on together with the final `move_count`. -/
def _bt_moveright_loop (tree : BTree) (key : BTScanInsert) :
    Nat → BTPage → Nat → Except SearchError (BTPage × Nat)
  | 0, _, _ => Except.error SearchError.out_of_fuel
  | fuel + 1, page, move_count =>
    if is_rightmost page then Except.ok (page, move_count)
    else if page.has_high_key && decide (wrap32 (key.scankey - page.high_key) ≥ cmpval_of key) then
      match get_page tree page.right_link with
      | none => Except.error SearchError.null_page
      | some next => _bt_moveright_loop tree key fuel next (move_count + 1)
    else Except.ok (page, move_count)

def _bt_moveright (fuel : Nat) (tree : BTree) (key : BTScanInsert) (page : BTPage) :
    Except SearchError BTPage :=
  match _bt_moveright_loop tree key fuel page 0 with
  | Except.ok r => Except.ok r.1
  | Except.error e => Except.error e

/-- The descent loop of `_bt_search`. `mfuel` bounds each right-link chase,
the structural argument bounds the number of levels visited. -/
def _bt_search_loop (tree : BTree) (key : BTScanInsert) (mfuel : Nat) :
    Nat → BTPage → BTStack → Except SearchError (BTStack × BTPage × Nat)
  | 0, _, _ => Except.error SearchError.out_of_fuel
  | fuel + 1, page, stack =>
    match _bt_moveright mfuel tree key page with
    | Except.error e => Except.error e
    | Except.ok page =>
      if is_leaf page then
        Except.ok (stack, page, _bt_binsrch key page)
      else
        let offnum := _bt_binsrch key page
        let child_block := page.children.getD offnum INVALID_BLOCK
        let parent_block := page.blockno
        let new_stack := create_stack_node parent_block offnum stack
        match get_page tree child_block with
        | none => Except.error SearchError.null_page
        | some child => _bt_search_loop tree key mfuel fuel child new_stack

/-- The function `_bt_search`: the parent stack, the leaf page stored through
`leaf_page`, and the offset `leaf_offset` of the final binary search. -/
def _bt_search (fuel : Nat) (tree : BTree) (key : BTScanInsert) :
    Except SearchError (BTStack × BTPage × Nat) :=
  match get_page tree tree.root with
  | none => Except.error SearchError.null_page
  | some page => _bt_search_loop tree key fuel fuel page []

/-! ## The fixture of `create_sample_tree` -/

/-- Store `ks` into the first slots of a zero-filled key array. -/
def set_keys (ks : List Int) : List Int :=
  ks ++ List.replicate (MAX_KEYS_PER_PAGE - ks.length) 0

/-- Store `cs` into the first slots of a child array filled with `0xFFFFFFFF`. -/
def set_children (cs : List Nat) : List Nat :=
  cs ++ List.replicate (MAX_CHILDREN - cs.length) 0xFFFFFFFF

def sample_internal (blockno : Nat) (ks : List Int) (cs : List Nat) : BTPage :=
  { create_page PageType.PAGE_INTERNAL blockno with
    num_keys := ks.length, keys := set_keys ks, children := set_children cs }

def sample_leaf (blockno : Nat) (ks : List Int) : BTPage :=
  { create_page PageType.PAGE_LEAF blockno with
    num_keys := ks.length, keys := set_keys ks }

def with_high_key (page : BTPage) (hk : Int) (right : Nat) : BTPage :=
  { page with high_key := hk, has_high_key := true, right_link := right }

def sample_root : BTPage := sample_internal 0 [50, 100] [1, 2, 3]
def sample_page1 : BTPage := with_high_key (sample_internal 1 [20, 35] [4, 5, 6]) 50 2
def sample_page2 : BTPage := with_high_key (sample_internal 2 [70, 85] [7, 8, 9]) 100 3
def sample_page3 : BTPage := sample_internal 3 [120] [10, 10]
def sample_leaf4 : BTPage := with_high_key (sample_leaf 4 [5, 10, 15]) 20 5
def sample_leaf5 : BTPage := with_high_key (sample_leaf 5 [20, 25, 30]) 35 6
def sample_leaf6 : BTPage := with_high_key (sample_leaf 6 [35, 40, 45]) 50 7
def sample_leaf7 : BTPage := with_high_key (sample_leaf 7 [50, 55, 60, 65]) 70 8
def sample_leaf8 : BTPage := with_high_key (sample_leaf 8 [70, 75, 80]) 85 9
def sample_leaf9 : BTPage := with_high_key (sample_leaf 9 [85, 90, 95]) 100 10
def sample_leaf10 : BTPage := sample_leaf 10 [100, 110, 115]

def create_sample_tree : BTree :=
  { pages := [sample_root, sample_page1, sample_page2, sample_page3, sample_leaf4,
      sample_leaf5, sample_leaf6, sample_leaf7, sample_leaf8, sample_leaf9, sample_leaf10]
    root := 0 }

/-! ## Predicates on pages and keys -/

/-- The page header is within the bounds of the arrays of `BTPage`. -/
abbrev page_in_bounds (page : BTPage) : Prop :=
  0 ≤ page.num_keys ∧ page.num_keys ≤ MAX_KEYS_PER_PAGE

/-- The first `num_keys` keys of the page are strictly ascending. -/
abbrev keys_strictly_ascending (page : BTPage) : Prop :=
  ∀ j < page.num_keys.toNat, ∀ i < j, page.keys.getD i 0 < page.keys.getD j 0

/-- The first `num_keys` keys of the page are ascending. -/
abbrev keys_ascending (page : BTPage) : Prop :=
  ∀ j < page.num_keys.toNat, ∀ i < j, page.keys.getD i 0 ≤ page.keys.getD j 0

/-- The keys that `_bt_compare` can read are ascending: on an internal page
the key at offset 0 is never read. -/
abbrev probed_keys_ascending (page : BTPage) : Prop :=
  ∀ j < page.num_keys.toNat, ∀ i < j, (is_leaf page = true ∨ i ≠ 0) →
    page.keys.getD i 0 ≤ page.keys.getD j 0

/-- The value `x` is representable in a 32-bit `int`. -/
abbrev int_range (x : Int) : Prop := -2147483648 ≤ x ∧ x ≤ 2147483647

/-- No subtraction `scankey - keys[i]` on the page leaves the range of `int`. -/
abbrev no_overflow (key : BTScanInsert) (page : BTPage) : Prop :=
  ∀ i < page.num_keys.toNat, int_range (key.scankey - page.keys.getD i 0)

/-- No subtraction that `_bt_compare` can perform on the page leaves the range
of `int`: on an internal page the key at offset 0 is never read. -/
abbrev no_probe_overflow (key : BTScanInsert) (page : BTPage) : Prop :=
  ∀ i < page.num_keys.toNat, (is_leaf page = true ∨ i ≠ 0) →
    int_range (key.scankey - page.keys.getD i 0)

/-- The move condition of `_bt_moveright` on a page that is not rightmost:
the page has a high key and `scankey - high_key` (wrapped) is `≥ cmpval`. -/
abbrev moves_right (key : BTScanInsert) (page : BTPage) : Bool :=
  page.has_high_key && decide (wrap32 (key.scankey - page.high_key) ≥ cmpval_of key)

/-- A leaf whose single key, `-1`, is at distance `2^31` from `INT_MAX`. -/
def overflow_leaf_hi : BTPage := sample_leaf 0 [-1]

/-- A leaf whose single key, `1`, is at distance `2^31 + 1` from `INT_MIN`. -/
def overflow_leaf_lo : BTPage := sample_leaf 0 [1]

/-- The tree whose only page, the root, is `overflow_leaf_hi`. -/
def overflow_tree_hi : BTree := { pages := [overflow_leaf_hi], root := 0 }

/-- The tree whose only page, the root, is `overflow_leaf_lo`. -/
def overflow_tree_lo : BTree := { pages := [overflow_leaf_lo], root := 0 }

/-- The boundary property of a search result `(page, off)`: among the first
`num_keys` keys of the page, those before `off` are `< K` and those from `off`
on are `≥ K` when `nextkey = false`; `≤ K` and `> K` when `nextkey = true`. -/
abbrev search_boundary (key : BTScanInsert) (page : BTPage) (off : Nat) : Prop :=
  ∀ i < page.num_keys.toNat,
    if i < off then
      (if key.nextkey then page.keys.getD i 0 ≤ key.scankey else page.keys.getD i 0 < key.scankey)
    else
      (if key.nextkey then page.keys.getD i 0 > key.scankey else page.keys.getD i 0 ≥ key.scankey)

/-- Key `K` is stored on the leaf `page` at position `i`. -/
abbrev stored_at (page : BTPage) (i : Nat) (K : Int) : Prop :=
  is_leaf page = true ∧ (i : Int) < page.num_keys ∧ page.keys.getD i 0 = K

/-- The invariants of one page of a well-formed tree, relative to a height
(0 on leaves) and a rank that decreases along right-links: header in bounds,
array sizes, strictly ascending keys, child pointers resolve one level down,
the right-link resolves on the same level, the rightmost page has no high key,
and a high key bounds the keys of the page. -/
def page_invariants (tree : BTree) (height rank : Nat → Nat) (page : BTPage) : Prop :=
  page_in_bounds page ∧ keys_strictly_ascending page ∧
  page.keys.length = MAX_KEYS_PER_PAGE ∧ page.children.length = MAX_CHILDREN ∧
  (is_leaf page = true ↔ height page.blockno = 0) ∧
  (is_leaf page = false → ∀ i ≤ page.num_keys.toNat,
    page.children.getD i INVALID_BLOCK < tree.num_pages ∧
    height (page.children.getD i INVALID_BLOCK) + 1 = height page.blockno) ∧
  (is_rightmost page = false →
    page.right_link < tree.num_pages ∧ height page.right_link = height page.blockno ∧
    rank page.right_link < rank page.blockno) ∧
  (is_rightmost page = true → page.has_high_key = false) ∧
  (page.has_high_key = true → ∀ i < page.num_keys.toNat, page.keys.getD i 0 ≤ page.high_key)

instance (tree : BTree) (height rank : Nat → Nat) (page : BTPage) :
    Decidable (page_invariants tree height rank page) := by
  unfold page_invariants
  infer_instance

/-- Well-formedness of a tree for given height and rank functions on block
numbers: the root resolves, and every page sits at its own block number and
satisfies `page_invariants`. -/
abbrev well_formed_with (tree : BTree) (height rank : Nat → Nat) : Prop :=
  tree.root < tree.num_pages ∧
  ∀ b < tree.num_pages, ∀ page ∈ get_page tree b,
    page.blockno = b ∧ page_invariants tree height rank page

/-- A tree is well formed when some height and rank functions witness it: the
levels are well founded and every right-link chain is acyclic and ends at a
rightmost page. -/
def well_formed (tree : BTree) : Prop :=
  ∃ height rank : Nat → Nat, well_formed_with tree height rank

/-- Heights of the blocks of the sample tree. -/
def sample_height (b : Nat) : Nat := if b = 0 then 2 else if b ≤ 3 then 1 else 0

/-- Ranks of the blocks of the sample tree: the distance to the rightmost page. -/
def sample_rank (b : Nat) : Nat := 10 - b

/-- The keys stored on the leaves of the sample tree, left to right. -/
def sample_leaf_keys : List Int :=
  [5, 10, 15, 20, 25, 30, 35, 40, 45, 50, 55, 60, 65, 70, 75, 80, 85, 90, 95, 100, 110, 115]

/-- The key at offset `i` of the page satisfies the search condition: it is
`≥ K` when `nextkey = false` and `> K` when `nextkey = true`. -/
abbrev meets_target (key : BTScanInsert) (page : BTPage) (i : Nat) : Prop :=
  if key.nextkey then page.keys.getD i 0 > key.scankey else page.keys.getD i 0 ≥ key.scankey

/-- The key at offset `i` of the page is below the search condition: it is
`< K` when `nextkey = false` and `≤ K` when `nextkey = true`. -/
abbrev key_below (key : BTScanInsert) (page : BTPage) (i : Nat) : Prop :=
  if key.nextkey then page.keys.getD i 0 ≤ key.scankey else page.keys.getD i 0 < key.scankey

/-- The number of keys of the page that are `< K` when `nextkey = false`,
`≤ K` when `nextkey = true`. -/
def keys_below_count (key : BTScanInsert) (page : BTPage) : Nat :=
  (List.range page.num_keys.toNat).countP fun i =>
    if key.nextkey then decide (page.keys.getD i 0 ≤ key.scankey)
    else decide (page.keys.getD i 0 < key.scankey)

/-- The values of `low` and `high` when the bisect loop of `_bt_binsrch` is
entered: `low = 0` and `high = num_keys + 1`. -/
def binsrch_init (page : BTPage) : Nat × Nat :=
  (0, u16 (int_to_u16 page.num_keys + 1))

/-- The values of `low` and `high` at the loop head after `k` iterations of the
bisect loop started in state `s` (the final state if the loop ends earlier). -/
def binsrch_iterate (key : BTScanInsert) (page : BTPage) : Nat → Nat × Nat → Nat × Nat
  | 0, s => s
  | k + 1, s =>
    if s.2 > s.1 then binsrch_iterate key page k (binsrch_step key page s.1 s.2) else s

/-- The entry `_bt_search` pushes on the parent stack for the internal page
`p`: its block number and the offset `_bt_binsrch` returns on it. -/
def stack_entry (key : BTScanInsert) (p : BTPage) : Nat × Nat :=
  (p.blockno, _bt_binsrch key p)

/-- The descent from `page` runs binary search on the internal pages `ps`, in
this order, and ends on the leaf `L`: each page of `ps` is the result of
`_bt_moveright` at its level and is not a leaf, the page of the next level is
fetched through the child pointer `_bt_binsrch` selects, and `L` is the result
of `_bt_moveright` at the last level. -/
def descent_path (tree : BTree) (key : BTScanInsert) (mfuel : Nat) :
    BTPage → List BTPage → BTPage → Prop
  | page, [], L => _bt_moveright mfuel tree key page = Except.ok L ∧ is_leaf L = true
  | page, p :: ps, L =>
    _bt_moveright mfuel tree key page = Except.ok p ∧ is_leaf p = false ∧
    ∃ child, get_page tree (p.children.getD (_bt_binsrch key p) INVALID_BLOCK) = some child ∧
      descent_path tree key mfuel child ps L

/-- The block numbers the loop of `_bt_moveright` passes to `get_page`, in
order: the right-links it follows. -/
def moveright_fetches (tree : BTree) (key : BTScanInsert) : Nat → BTPage → List Nat
  | 0, _ => []
  | fuel + 1, page =>
    if is_rightmost page then []
    else if moves_right key page then
      page.right_link ::
        (match get_page tree page.right_link with
        | none => []
        | some next => moveright_fetches tree key fuel next)
    else []

/-- The block numbers the descent loop of `_bt_search` passes to `get_page`,
in order: at each level the right-links followed, then the chosen child
pointer. -/
def search_loop_fetches (tree : BTree) (key : BTScanInsert) (mfuel : Nat) :
    Nat → BTPage → List Nat
  | 0, _ => []
  | fuel + 1, page =>
    moveright_fetches tree key mfuel page ++
      (match _bt_moveright mfuel tree key page with
      | Except.error _ => []
      | Except.ok p =>
        if is_leaf p then []
        else
          p.children.getD (_bt_binsrch key p) INVALID_BLOCK ::
            (match get_page tree (p.children.getD (_bt_binsrch key p) INVALID_BLOCK) with
            | none => []
            | some child => search_loop_fetches tree key mfuel fuel child))

/-- The block numbers `_bt_search` passes to `get_page`, in order: the root,
then those of the descent loop. -/
def search_fetches (fuel : Nat) (tree : BTree) (key : BTScanInsert) : List Nat :=
  tree.root ::
    (match get_page tree tree.root with
    | none => []
    | some page => search_loop_fetches tree key fuel fuel page)

/-- An internal root page without keys whose child pointers are all
`0xFFFFFFFF`, as `create_page` leaves them. -/
def dangling_root : BTPage := create_page PageType.PAGE_INTERNAL 0

/-- The tree whose only page is `dangling_root`. -/
def dangling_tree : BTree := { pages := [dangling_root], root := 0 }

/-- The right-link chain that starts at `page` consists of the pages `chain`,
in order, and ends at a rightmost page: each page but the last is not
rightmost and its right-link resolves to the next one. -/
def is_right_chain (tree : BTree) : BTPage → List BTPage → Prop
  | page, [] => is_rightmost page = true
  | page, q :: rest =>
    is_rightmost page = false ∧ get_page tree page.right_link = some q ∧
      is_right_chain tree q rest

/-- Starting at `page`, the loop of `_bt_moveright` passes over the pages
`passed`, in order, and arrives at `p`: every page passed over is not
rightmost, has a high key with `scankey - high_key ≥ cmpval` (the `int`
subtraction of the program), and its right-link resolves to the next page. -/
def passes_over (tree : BTree) (key : BTScanInsert) : BTPage → List BTPage → BTPage → Prop
  | page, [], p => p = page
  | page, q :: rest, p =>
    q = page ∧ is_rightmost page = false ∧ page.has_high_key = true ∧
      wrap32 (key.scankey - page.high_key) ≥ cmpval_of key ∧
      ∃ next, get_page tree page.right_link = some next ∧ passes_over tree key next rest p

/-- The index of `keys[]` that `_bt_compare` reads at offset `offnum`, if it
reads the array at all. -/
def compare_reads (page : BTPage) (offnum : Nat) : Option Nat :=
  if !is_leaf page && offnum == 0 then none
  else if (offnum : Int) ≥ page.num_keys then none
  else some offnum

/-- The test `scankey - c ≥ cmpval` that `_bt_binsrch` (through `_bt_compare`)
and `_bt_moveright` apply to a stored key or high key `c`. -/
def probe (key : BTScanInsert) (c : Int) : Bool :=
  decide (wrap32 (key.scankey - c) ≥ cmpval_of key)

/-- Two search keys give the same test results against every key of the page
and against its high key, when it has one. -/
abbrev same_probes (key1 key2 : BTScanInsert) (page : BTPage) : Prop :=
  (∀ i < page.num_keys.toNat,
    probe key1 (page.keys.getD i 0) = probe key2 (page.keys.getD i 0)) ∧
  (page.has_high_key = true → probe key1 page.high_key = probe key2 page.high_key)

/-- The page reached from `p` by following `n` right-links, if they all
resolve. -/
def follow_right (tree : BTree) : Nat → BTPage → Option BTPage
  | 0, p => some p
  | n + 1, p =>
    if is_rightmost p then none
    else
      match get_page tree p.right_link with
      | none => none
      | some q => follow_right tree n q

/-- Page `p` is left of page `q` in the right-link chain: `q` is reached from
`p` by following one or more right-links. -/
def left_of (tree : BTree) (p q : BTPage) : Prop :=
  ∃ n, 0 < n ∧ follow_right tree n p = some q

/-- The keys and high keys that occur in the sample tree, in ascending order. -/
def sample_consts : List Int :=
  [5, 10, 15, 20, 25, 30, 35, 40, 45, 50, 55, 60, 65, 70, 75, 80, 85, 90, 95, 100, 110, 115,
    120]

/-- The result `(L, off)` splits the leaf level of a tree whose leaves are
numbered along the right-link chain: the probe holds for every key on leaves
with a smaller block number and on `L` before `off`, and fails for every key on
`L` from `off` on and on leaves with a larger block number. -/
abbrev splits_leaf_level (tree : BTree) (key : BTScanInsert) (L : BTPage) (off : Nat) : Prop :=
  ∀ p ∈ tree.pages, is_leaf p = true → ∀ i < p.num_keys.toNat,
    ((p.blockno < L.blockno ∨ (p = L ∧ i < off)) → probe key (p.keys.getD i 0) = true) ∧
    ((L.blockno < p.blockno ∨ (p = L ∧ off ≤ i)) → probe key (p.keys.getD i 0) = false)

/-- The search on the sample tree with budget 11 returns a result that splits
the leaf level. -/
def sample_split_check (key : BTScanInsert) : Bool :=
  match _bt_search 11 create_sample_tree key with
  | Except.ok (_, L, off) => decide (splits_leaf_level create_sample_tree key L off)
  | Except.error _ => false

/-- A leaf whose key and high key are `-2^30`, with right sibling block 1. -/
def shift_edge_page0 : BTPage :=
  with_high_key (sample_leaf 0 [-1073741824]) (-1073741824) 1

/-- The rightmost leaf of `shift_edge_tree`, with the single key 5. -/
def shift_edge_page1 : BTPage := sample_leaf 1 [5]

/-- A tree of two leaves whose keys and high keys have absolute value at most
`2^30`; the root is the left leaf. -/
def shift_edge_tree : BTree := { pages := [shift_edge_page0, shift_edge_page1], root := 0 }

/-! ## Arithmetic lemmas -/

theorem wrap32_of_int_range (x : Int) (h : int_range x) : wrap32 x = x := by
  unfold wrap32
  obtain ⟨h1, h2⟩ := h
  omega

theorem wrap32_ge_iff (x c : Int) (h : int_range x) : wrap32 x ≥ c ↔ x ≥ c := by
  rw [wrap32_of_int_range x h]

theorem binsrch_mid_bounds (low high : Nat) (h : low < high) (hh : high ≤ 65535) :
    binsrch_mid low high = low + (high - low) / 2 ∧ low ≤ binsrch_mid low high ∧
      binsrch_mid low high < high := by
  unfold binsrch_mid u16
  omega

theorem binsrch_step_bounds (key : BTScanInsert) (page : BTPage) (low high : Nat)
    (h : low < high) (hh : high ≤ 65535) :
    low ≤ (binsrch_step key page low high).1 ∧
      (binsrch_step key page low high).1 ≤ (binsrch_step key page low high).2 ∧
      (binsrch_step key page low high).2 ≤ high ∧
      (binsrch_step key page low high).2 - (binsrch_step key page low high).1 < high - low := by
  obtain ⟨_, h2, h3⟩ := binsrch_mid_bounds low high h hh
  unfold binsrch_step
  simp only
  split_ifs
  · simp only [u16]
    omega
  · simp only
    omega

/-- The final `low` of the bisect loop lies between the initial `low` and `high`. -/
theorem binsrch_loop_bounds (key : BTScanInsert) (page : BTPage) :
    ∀ (fuel low high : Nat), low ≤ high → high ≤ 65535 →
      low ≤ binsrch_loop key page fuel low high ∧ binsrch_loop key page fuel low high ≤ high := by
  intro fuel
  induction fuel with
  | zero => intro low high h _; simp [binsrch_loop, h]
  | succ f ih =>
    intro low high h hh
    unfold binsrch_loop
    split_ifs with hlt
    · obtain ⟨b1, b2, b3, _⟩ := binsrch_step_bounds key page low high hlt hh
      obtain ⟨i1, i2⟩ := ih _ _ b2 (le_trans b3 hh)
      omega
    · omega

/-- The bisect loop with enough fuel: if the probe `_bt_compare ≥ cmpval` is
downward closed on `[0, n]`, the final `low` splits `[0, n]` into the offsets
where the probe holds and those where it fails. -/
theorem binsrch_loop_partition (key : BTScanInsert) (page : BTPage) (n : Nat)
    (hn : n + 1 ≤ 65535)
    (mono : ∀ i j : Nat, i ≤ j → j ≤ n → _bt_compare key page j ≥ cmpval_of key →
      _bt_compare key page i ≥ cmpval_of key) :
    ∀ (fuel low high : Nat), high - low ≤ fuel → low ≤ high → high ≤ n + 1 →
      (∀ i < low, _bt_compare key page i ≥ cmpval_of key) →
      (∀ i, high ≤ i → i ≤ n → ¬ _bt_compare key page i ≥ cmpval_of key) →
      (∀ i < binsrch_loop key page fuel low high, _bt_compare key page i ≥ cmpval_of key) ∧
      (∀ i, binsrch_loop key page fuel low high ≤ i → i ≤ n →
        ¬ _bt_compare key page i ≥ cmpval_of key) := by
  intro fuel
  induction fuel with
  | zero =>
    intro low high hf hlh _ hlo hhi
    have : low = high := by omega
    subst this
    simp only [binsrch_loop]
    exact ⟨hlo, hhi⟩
  | succ f ih =>
    intro low high hf hlh hhn hlo hhi
    unfold binsrch_loop
    split_ifs with hlt
    · have hh : high ≤ 65535 := by omega
      obtain ⟨hm1, hm2, hm3⟩ := binsrch_mid_bounds low high hlt hh
      obtain ⟨b1, b2, b3, b4⟩ := binsrch_step_bounds key page low high hlt hh
      apply ih _ _ (by omega) b2 (by omega)
      · intro i hi
        unfold binsrch_step at hi
        simp only at hi
        split_ifs at hi with hc
        · simp only [u16] at hi
          exact mono i (binsrch_mid low high) (by omega) (by omega) hc
        · exact hlo i hi
      · intro i hi hin
        unfold binsrch_step at hi
        simp only at hi
        split_ifs at hi with hc
        · exact hhi i hi hin
        · intro hp
          exact hc (mono (binsrch_mid low high) i hi hin hp)
    · have : low = high := by omega
      subst this
      exact ⟨hlo, hhi⟩

/-! ## The comparator -/

theorem cmpval_of_cases (key : BTScanInsert) :
    (key.nextkey = true ∧ cmpval_of key = 0) ∨ (key.nextkey = false ∧ cmpval_of key = 1) := by
  unfold cmpval_of
  cases key.nextkey <;> simp

theorem compare_internal_zero (key : BTScanInsert) (page : BTPage)
    (h : is_leaf page = false) : _bt_compare key page 0 = 1 := by
  simp [_bt_compare, h]

theorem compare_out_of_range (key : BTScanInsert) (page : BTPage) (offnum : Nat)
    (hoff : (offnum : Int) ≥ page.num_keys) (h : is_leaf page = true ∨ offnum ≠ 0) :
    _bt_compare key page offnum = -1 := by
  unfold _bt_compare
  rcases h with h | h
  · simp [h, hoff]
  · simp [h, hoff]

theorem compare_in_range (key : BTScanInsert) (page : BTPage) (offnum : Nat)
    (hoff : (offnum : Int) < page.num_keys) (h : is_leaf page = true ∨ offnum ≠ 0) :
    _bt_compare key page offnum = wrap32 (key.scankey - page.keys.getD offnum 0) := by
  unfold _bt_compare
  have hn : ¬ (offnum : Int) ≥ page.num_keys := by omega
  rcases h with h | h
  · simp [h, hn]
  · simp [h, hn]

/-- Away from overflow `_bt_compare` is the three-way comparison of the search
key with the stored key. -/
theorem compare_three_way (key : BTScanInsert) (page : BTPage) (offnum : Nat)
    (hoff : (offnum : Int) < page.num_keys) (h : is_leaf page = true ∨ offnum ≠ 0)
    (hov : int_range (key.scankey - page.keys.getD offnum 0)) :
    (_bt_compare key page offnum < 0 ↔ key.scankey < page.keys.getD offnum 0) ∧
    (_bt_compare key page offnum = 0 ↔ key.scankey = page.keys.getD offnum 0) ∧
    (_bt_compare key page offnum > 0 ↔ key.scankey > page.keys.getD offnum 0) := by
  rw [compare_in_range key page offnum hoff h, wrap32_of_int_range _ hov]
  omega

/-- On a page with ascending keys and no overflowing difference, the set of
offsets in `[0, num_keys]` whose probe is `≥ cmpval` is downward closed. -/
theorem probe_downward_closed (key : BTScanInsert) (page : BTPage)
    (hasc : probed_keys_ascending page) (hov : no_probe_overflow key page) :
    ∀ i j : Nat, i ≤ j → j ≤ page.num_keys.toNat →
      _bt_compare key page j ≥ cmpval_of key → _bt_compare key page i ≥ cmpval_of key := by
  intro i j hij hj hp
  rcases Nat.eq_or_lt_of_le hij with heq | hlt
  · subst heq; exact hp
  · have hj0 : j ≠ 0 := by omega
    have hc := cmpval_of_cases key
    by_cases hjn : (j : Int) ≥ page.num_keys
    · rw [compare_out_of_range key page j hjn (Or.inr hj0)] at hp
      omega
    · have hjn2 : (j : Int) < page.num_keys := by omega
      have hjN : j < page.num_keys.toNat := by omega
      rw [compare_in_range key page j hjn2 (Or.inr hj0),
        wrap32_of_int_range _ (hov j hjN (Or.inr hj0))] at hp
      by_cases hl : is_leaf page = true ∨ i ≠ 0
      · have hin2 : (i : Int) < page.num_keys := by omega
        rw [compare_in_range key page i hin2 hl,
          wrap32_of_int_range _ (hov i (by omega) hl)]
        have := hasc j hjN i hlt hl
        omega
      · have hl1 : is_leaf page = false := by
          cases hx : is_leaf page
          · rfl
          · exact absurd (Or.inl hx) hl
        have hi0 : i = 0 := by
          by_contra hne
          exact hl (Or.inr hne)
        subst hi0
        rw [compare_internal_zero key page hl1]
        omega

/-! ## Binary search within a page -/

theorem int_to_u16_of_bounds (page : BTPage) (hb : page_in_bounds page) :
    int_to_u16 page.num_keys = page.num_keys.toNat ∧ page.num_keys.toNat ≤ 7 := by
  obtain ⟨h0, h7⟩ := hb
  unfold int_to_u16
  simp only [MAX_KEYS_PER_PAGE] at h7
  have h7 : page.num_keys ≤ 7 := by exact_mod_cast h7
  omega

/-- The body of `_bt_binsrch` on a page whose `num_keys` is in bounds. -/
theorem binsrch_unfold (key : BTScanInsert) (page : BTPage) (hb : page_in_bounds page) :
    _bt_binsrch key page =
      if is_leaf page then
        binsrch_loop key page (page.num_keys.toNat + 1) 0 (page.num_keys.toNat + 1)
      else if binsrch_loop key page (page.num_keys.toNat + 1) 0 (page.num_keys.toNat + 1) > 0
        then binsrch_loop key page (page.num_keys.toNat + 1) 0 (page.num_keys.toNat + 1) - 1
        else 0 := by
  obtain ⟨h1, h2⟩ := int_to_u16_of_bounds page hb
  have h3 : u16 (page.num_keys.toNat + 1) = page.num_keys.toNat + 1 := by
    unfold u16; omega
  unfold _bt_binsrch
  simp only [h1, h3, Nat.not_lt_zero, if_false, Nat.sub_zero]

/-- Partition property of the final `low` of `_bt_binsrch` on a page with
ascending keys, in terms of the probe. -/
theorem binsrch_low_partition (key : BTScanInsert) (page : BTPage) (hb : page_in_bounds page)
    (hasc : probed_keys_ascending page) (hov : no_probe_overflow key page) :
    (∀ i < binsrch_loop key page (page.num_keys.toNat + 1) 0 (page.num_keys.toNat + 1),
      _bt_compare key page i ≥ cmpval_of key) ∧
    (∀ i, binsrch_loop key page (page.num_keys.toNat + 1) 0 (page.num_keys.toNat + 1) ≤ i →
      i ≤ page.num_keys.toNat → ¬ _bt_compare key page i ≥ cmpval_of key) := by
  obtain ⟨_, h2⟩ := int_to_u16_of_bounds page hb
  apply binsrch_loop_partition key page page.num_keys.toNat (by omega)
    (probe_downward_closed key page hasc hov) _ _ _ (by omega) (by omega) (by omega)
  · intro i hi; omega
  · intro i hi hin; omega

theorem probed_of_strictly_ascending (page : BTPage) (h : keys_strictly_ascending page) :
    probed_keys_ascending page :=
  fun j hj i hi _ => le_of_lt (h j hj i hi)

theorem probed_of_ascending (page : BTPage) (h : keys_ascending page) :
    probed_keys_ascending page :=
  fun j hj i hi _ => h j hj i hi

theorem probe_of_no_overflow (key : BTScanInsert) (page : BTPage) (h : no_overflow key page) :
    no_probe_overflow key page :=
  fun i hi _ => h i hi

/-- On a leaf with ascending keys the result of `_bt_binsrch` splits the keys
of the page: `scankey - keys[i] ≥ cmpval` before it and `< cmpval` from it on. -/
theorem binsrch_leaf_partition (key : BTScanInsert) (page : BTPage)
    (hleaf : is_leaf page = true) (hb : page_in_bounds page)
    (hasc : probed_keys_ascending page) (hov : no_probe_overflow key page) :
    _bt_binsrch key page ≤ page.num_keys.toNat ∧
    (∀ i < _bt_binsrch key page, key.scankey - page.keys.getD i 0 ≥ cmpval_of key) ∧
    (∀ i, _bt_binsrch key page ≤ i → i < page.num_keys.toNat →
      key.scankey - page.keys.getD i 0 < cmpval_of key) := by
  obtain ⟨hlo, hhi⟩ := binsrch_low_partition key page hb hasc hov
  rw [binsrch_unfold key page hb]
  simp only [hleaf, if_true]
  have h0 : 0 ≤ page.num_keys := hb.1
  have hc := cmpval_of_cases key
  have hle : binsrch_loop key page (page.num_keys.toNat + 1) 0 (page.num_keys.toNat + 1)
      ≤ page.num_keys.toNat := by
    by_contra hgt
    have hp := hlo page.num_keys.toNat (by omega)
    rw [compare_out_of_range key page _ (by omega) (Or.inl hleaf)] at hp
    omega
  refine ⟨hle, ?_, ?_⟩
  · intro i hi
    have hp := hlo i hi
    rw [compare_in_range key page i (by omega) (Or.inl hleaf),
      wrap32_of_int_range _ (hov i (by omega) (Or.inl hleaf))] at hp
    exact hp
  · intro i hi hin
    have hp := hhi i hi (by omega)
    rw [compare_in_range key page i (by omega) (Or.inl hleaf),
      wrap32_of_int_range _ (hov i hin (Or.inl hleaf))] at hp
    omega

/-- On an internal page with ascending keys the result `r` of `_bt_binsrch` is
the last offset that is 0 or has `scankey - keys[r] ≥ cmpval`. -/
theorem binsrch_internal_partition (key : BTScanInsert) (page : BTPage)
    (hint : is_leaf page = false) (hb : page_in_bounds page)
    (hasc : probed_keys_ascending page) (hov : no_probe_overflow key page) :
    _bt_binsrch key page ≤ page.num_keys.toNat ∧
    (1 ≤ page.num_keys.toNat → _bt_binsrch key page < page.num_keys.toNat) ∧
    (∀ i, 0 < i → i ≤ _bt_binsrch key page → key.scankey - page.keys.getD i 0 ≥ cmpval_of key) ∧
    (∀ i, _bt_binsrch key page < i → i < page.num_keys.toNat →
      key.scankey - page.keys.getD i 0 < cmpval_of key) := by
  obtain ⟨hlo, hhi⟩ := binsrch_low_partition key page hb hasc hov
  obtain ⟨_, hN⟩ := int_to_u16_of_bounds page hb
  obtain ⟨_, hup⟩ := binsrch_loop_bounds key page (page.num_keys.toNat + 1) 0
    (page.num_keys.toNat + 1) (by omega) (by omega)
  rw [binsrch_unfold key page hb]
  simp only [hint, Bool.false_eq_true, if_false]
  have h0 : 0 ≤ page.num_keys := hb.1
  have hc := cmpval_of_cases key
  generalize binsrch_loop key page (page.num_keys.toNat + 1) 0 (page.num_keys.toNat + 1) = low
    at hlo hhi hup ⊢
  have hpos : 0 < low := by
    by_contra hz
    have hp := hhi 0 (by omega) (by omega)
    rw [compare_internal_zero key page hint] at hp
    omega
  have hle : 1 ≤ page.num_keys.toNat → low ≤ page.num_keys.toNat := by
    intro h1
    by_contra hgt
    have hp := hlo page.num_keys.toNat (by omega)
    rw [compare_out_of_range key page _ (by omega) (Or.inr (by omega))] at hp
    omega
  simp only [hpos, if_true]
  refine ⟨by omega, fun h1 => by have := hle h1; omega, ?_, ?_⟩
  · intro i hi0 hi
    have hiN : i < page.num_keys.toNat := by
      rcases Nat.eq_zero_or_pos page.num_keys.toNat with hz | hp
      · omega
      · have := hle hp; omega
    have hp := hlo i (by omega)
    rw [compare_in_range key page i (by omega) (Or.inr (by omega)),
      wrap32_of_int_range _ (hov i hiN (Or.inr (by omega)))] at hp
    exact hp
  · intro i hi hin
    have hp := hhi i (by omega) (by omega)
    rw [compare_in_range key page i (by omega) (Or.inr (by omega)),
      wrap32_of_int_range _ (hov i hin (Or.inr (by omega)))] at hp
    omega

/-! ## Right-link chasing -/

theorem moveright_loop_succ (tree : BTree) (key : BTScanInsert) (fuel : Nat) (page : BTPage)
    (mc : Nat) :
    _bt_moveright_loop tree key (fuel + 1) page mc =
      if is_rightmost page then Except.ok (page, mc)
      else if moves_right key page then
        match get_page tree page.right_link with
        | none => Except.error SearchError.null_page
        | some next => _bt_moveright_loop tree key fuel next (mc + 1)
      else Except.ok (page, mc) := by
  rw [_bt_moveright_loop]

/-- The page on which the loop of `_bt_moveright` stops is rightmost or fails
the move condition. -/
theorem moveright_loop_stops (tree : BTree) (key : BTScanInsert) :
    ∀ (fuel : Nat) (page : BTPage) (mc : Nat) (p : BTPage) (n : Nat),
      _bt_moveright_loop tree key fuel page mc = Except.ok (p, n) →
      is_rightmost p = true ∨ moves_right key p = false := by
  intro fuel
  induction fuel with
  | zero => intro page mc p n h; simp [_bt_moveright_loop] at h
  | succ f ih =>
    intro page mc p n h
    rw [moveright_loop_succ] at h
    split_ifs at h with h1 h2
    · simp only [Except.ok.injEq, Prod.mk.injEq] at h
      rw [← h.1]; exact Or.inl h1
    · cases hg : get_page tree page.right_link with
      | none => rw [hg] at h; simp at h
      | some next => rw [hg] at h; exact ih next (mc + 1) p n h
    · simp only [Except.ok.injEq, Prod.mk.injEq] at h
      rw [← h.1]; right; simpa using h2

theorem moveright_ok_iff (fuel : Nat) (tree : BTree) (key : BTScanInsert) (page p : BTPage) :
    _bt_moveright fuel tree key page = Except.ok p ↔
      ∃ n, _bt_moveright_loop tree key fuel page 0 = Except.ok (p, n) := by
  unfold _bt_moveright
  cases h : _bt_moveright_loop tree key fuel page 0 with
  | error e => simp
  | ok r =>
    obtain ⟨q, m⟩ := r
    simp

/-! ## Fuel -/

/-- A result other than `out_of_fuel` of the loop of `_bt_moveright` is not
changed by a larger iteration budget. -/
theorem moveright_loop_fuel_mono (tree : BTree) (key : BTScanInsert) :
    ∀ (f : Nat) (page : BTPage) (mc : Nat) (res : Except SearchError (BTPage × Nat)),
      _bt_moveright_loop tree key f page mc = res →
      res ≠ Except.error SearchError.out_of_fuel →
      ∀ f2, f ≤ f2 → _bt_moveright_loop tree key f2 page mc = res := by
  intro f
  induction f with
  | zero =>
    intro page mc res h hne
    simp only [_bt_moveright_loop] at h
    exact absurd h.symm hne
  | succ f ih =>
    intro page mc res h hne f2 hf
    obtain ⟨g, rfl⟩ : ∃ g, f2 = g + 1 := ⟨f2 - 1, by omega⟩
    rw [moveright_loop_succ] at h ⊢
    split_ifs at h ⊢ with h1 h2
    · exact h
    · cases hg : get_page tree page.right_link with
      | none => rw [hg] at h; exact h
      | some next =>
        rw [hg] at h
        exact ih next (mc + 1) res h hne g (by omega)
    · exact h

theorem moveright_fuel_mono (tree : BTree) (key : BTScanInsert) (f : Nat) (page : BTPage)
    (res : Except SearchError BTPage) (h : _bt_moveright f tree key page = res)
    (hne : res ≠ Except.error SearchError.out_of_fuel) (f2 : Nat) (hf : f ≤ f2) :
    _bt_moveright f2 tree key page = res := by
  unfold _bt_moveright at h ⊢
  cases hl : _bt_moveright_loop tree key f page 0 with
  | error e =>
    rw [hl] at h
    have he : e ≠ SearchError.out_of_fuel := by
      intro hx; subst hx; exact hne h.symm
    rw [moveright_loop_fuel_mono tree key f page 0 _ hl (by simpa using he) f2 hf]
    exact h
  | ok r =>
    rw [hl] at h
    rw [moveright_loop_fuel_mono tree key f page 0 _ hl (by simp) f2 hf]
    exact h

/-- A result other than `out_of_fuel` of the descent loop is not changed by
larger budgets. -/
theorem search_loop_fuel_mono (tree : BTree) (key : BTScanInsert) (mf mf2 : Nat)
    (hmf : mf ≤ mf2) :
    ∀ (f : Nat) (page : BTPage) (stack : BTStack)
      (res : Except SearchError (BTStack × BTPage × Nat)),
      _bt_search_loop tree key mf f page stack = res →
      res ≠ Except.error SearchError.out_of_fuel →
      ∀ f2, f ≤ f2 → _bt_search_loop tree key mf2 f2 page stack = res := by
  intro f
  induction f with
  | zero =>
    intro page stack res h hne
    simp only [_bt_search_loop] at h
    exact absurd h.symm hne
  | succ f ih =>
    intro page stack res h hne f2 hf
    obtain ⟨g, rfl⟩ : ∃ g, f2 = g + 1 := ⟨f2 - 1, by omega⟩
    rw [_bt_search_loop] at h ⊢
    cases hm : _bt_moveright mf tree key page with
    | error e =>
      rw [hm] at h
      simp only at h
      have he : e ≠ SearchError.out_of_fuel := by
        intro hx; subst hx; exact hne h.symm
      rw [moveright_fuel_mono tree key mf page _ hm (by simpa using he) mf2 hmf]
      exact h
    | ok p =>
      rw [hm] at h
      simp only at h
      rw [moveright_fuel_mono tree key mf page _ hm (by simp) mf2 hmf]
      simp only
      split_ifs at h ⊢ with hl
      · exact h
      · cases hg : get_page tree (p.children.getD (_bt_binsrch key p) INVALID_BLOCK) with
        | none => rw [hg] at h; exact h
        | some child =>
          rw [hg] at h
          exact ih child _ res h hne g (by omega)

theorem search_fuel_mono (tree : BTree) (key : BTScanInsert) (f : Nat)
    (res : Except SearchError (BTStack × BTPage × Nat)) (h : _bt_search f tree key = res)
    (hne : res ≠ Except.error SearchError.out_of_fuel) (f2 : Nat) (hf : f ≤ f2) :
    _bt_search f2 tree key = res := by
  unfold _bt_search at h ⊢
  cases hg : get_page tree tree.root with
  | none => rw [hg] at h; exact h
  | some page =>
    rw [hg] at h
    exact search_loop_fuel_mono tree key f f2 hf f page [] res h hne f2 hf

/-! ## Termination on well-formed trees -/

theorem get_page_of_lt (tree : BTree) (b : Nat) (h : b < tree.num_pages) :
    ∃ page, get_page tree b = some page := by
  unfold get_page
  rw [if_neg (by omega)]
  exact ⟨tree.pages.get ⟨b, h⟩, List.get?_eq_get h⟩

theorem get_page_some (tree : BTree) (b : Nat) (page : BTPage)
    (h : get_page tree b = some page) : b < tree.num_pages ∧ page ∈ tree.pages := by
  unfold get_page at h
  split_ifs at h with hb
  exact ⟨by omega, List.get?_mem h⟩

theorem mem_pages_get_page (tree : BTree) (page : BTPage) (h : page ∈ tree.pages) :
    ∃ b, get_page tree b = some page := by
  obtain ⟨n, hn⟩ := List.get?_of_mem h
  have hlt : n < tree.pages.length := by
    by_contra hge
    rw [List.get?_eq_none.2 (by omega)] at hn
    exact Option.noConfusion hn
  refine ⟨n, ?_⟩
  unfold get_page BTree.num_pages
  rw [if_neg (by omega)]
  exact hn

/-- On a well-formed tree the loop of `_bt_moveright`, started on a page of
the tree with a budget above the rank of the page, returns a page of the tree
on the same level. -/
theorem moveright_loop_terminates (tree : BTree) (key : BTScanInsert) (height rank : Nat → Nat)
    (hwf : well_formed_with tree height rank) :
    ∀ (n : Nat) (page : BTPage) (mc : Nat), get_page tree page.blockno = some page →
      rank page.blockno < n →
      ∃ p m, _bt_moveright_loop tree key n page mc = Except.ok (p, m) ∧
        get_page tree p.blockno = some p ∧ height p.blockno = height page.blockno := by
  intro n
  induction n with
  | zero => intro page mc _ h; omega
  | succ n ih =>
    intro page mc hin hr
    rw [moveright_loop_succ]
    by_cases h1 : is_rightmost page = true
    · rw [if_pos h1]; exact ⟨page, mc, rfl, hin, rfl⟩
    · rw [if_neg h1]
      by_cases h2 : moves_right key page = true
      · rw [if_pos h2]
        obtain ⟨hb, _⟩ := get_page_some tree _ _ hin
        obtain ⟨_, hinv⟩ := hwf.2 page.blockno hb page hin
        obtain ⟨hr1, hr2, hr3⟩ := hinv.2.2.2.2.2.2.1 (by simpa using h1)
        obtain ⟨next, hnext⟩ := get_page_of_lt tree page.right_link hr1
        obtain ⟨hnb, _⟩ := hwf.2 page.right_link hr1 next hnext
        rw [hnext]
        simp only
        obtain ⟨p, m, e1, e2, e3⟩ := ih next (mc + 1) (by rw [hnb]; exact hnext)
          (by rw [hnb]; omega)
        exact ⟨p, m, e1, e2, by rw [e3, hnb, hr2]⟩
      · rw [if_neg h2]; exact ⟨page, mc, rfl, hin, rfl⟩

/-- On a well-formed tree the descent loop, started on a page of the tree
with enough budget, reaches a leaf of the tree and returns it with the offset
of the final binary search. -/
theorem search_loop_terminates (tree : BTree) (key : BTScanInsert) (height rank : Nat → Nat)
    (hwf : well_formed_with tree height rank) (mfuel : Nat)
    (hrank : ∀ b < tree.num_pages, rank b < mfuel) :
    ∀ (n : Nat) (page : BTPage) (stack : BTStack), get_page tree page.blockno = some page →
      height page.blockno < n →
      ∃ stack2 L, _bt_search_loop tree key mfuel n page stack
          = Except.ok (stack2, L, _bt_binsrch key L) ∧
        get_page tree L.blockno = some L ∧ is_leaf L = true := by
  intro n
  induction n with
  | zero => intro page stack _ h; omega
  | succ n ih =>
    intro page stack hin hh
    obtain ⟨hb, _⟩ := get_page_some tree _ _ hin
    obtain ⟨p, m, e1, e2, e3⟩ := moveright_loop_terminates tree key height rank hwf mfuel page 0
      hin (hrank _ hb)
    have hm : _bt_moveright mfuel tree key page = Except.ok p :=
      (moveright_ok_iff mfuel tree key page p).2 ⟨m, e1⟩
    rw [_bt_search_loop, hm]
    simp only
    by_cases hl : is_leaf p = true
    · rw [if_pos hl]; exact ⟨stack, p, rfl, e2, hl⟩
    · rw [if_neg hl]
      have hl2 : is_leaf p = false := by simpa using hl
      obtain ⟨hpb, _⟩ := get_page_some tree _ _ e2
      obtain ⟨_, hinv⟩ := hwf.2 p.blockno hpb p e2
      have hbd : page_in_bounds p := hinv.1
      obtain ⟨_, hN⟩ := int_to_u16_of_bounds p hbd
      obtain ⟨_, hup⟩ := binsrch_loop_bounds key p (p.num_keys.toNat + 1) 0
        (p.num_keys.toNat + 1) (by omega) (by omega)
      have hoff : _bt_binsrch key p ≤ p.num_keys.toNat := by
        rw [binsrch_unfold key p hbd]
        simp only [hl2, Bool.false_eq_true, if_false]
        split_ifs <;> omega
      obtain ⟨hc1, hc2⟩ := hinv.2.2.2.2.2.1 hl2 _ hoff
      obtain ⟨child, hchild⟩ := get_page_of_lt tree _ hc1
      obtain ⟨hcb, _⟩ := hwf.2 _ hc1 child hchild
      rw [hchild]
      simp only
      exact ih child _ (by rw [hcb]; exact hchild) (by rw [hcb]; omega)

theorem exists_rank_bound (rank : Nat → Nat) : ∀ n : Nat, ∃ M, ∀ b < n, rank b < M := by
  intro n
  induction n with
  | zero => exact ⟨0, fun b hb => by omega⟩
  | succ n ih =>
    obtain ⟨M, hM⟩ := ih
    refine ⟨max M (rank n + 1), fun b hb => ?_⟩
    rcases Nat.lt_succ_iff_lt_or_eq.1 hb with h | h
    · have := hM b h; omega
    · subst h; omega

/-- On a well-formed tree `_bt_search` returns, for every sufficiently large
budget, a leaf of the tree and the offset `_bt_binsrch` computes on it. -/
theorem search_terminates (tree : BTree) (key : BTScanInsert) (hwf : well_formed tree) :
    ∃ fuel, ∀ fuel2, fuel ≤ fuel2 → ∃ stack L,
      _bt_search fuel2 tree key = Except.ok (stack, L, _bt_binsrch key L) ∧
      get_page tree L.blockno = some L ∧ is_leaf L = true := by
  obtain ⟨height, rank, hw⟩ := hwf
  obtain ⟨M, hM⟩ := exists_rank_bound rank tree.num_pages
  obtain ⟨root, hroot⟩ := get_page_of_lt tree tree.root hw.1
  obtain ⟨hrb, _⟩ := hw.2 tree.root hw.1 root hroot
  refine ⟨max M (height tree.root + 1), fun fuel2 hf => ?_⟩
  have hM2 : ∀ b < tree.num_pages, rank b < fuel2 := fun b hb => by
    have := hM b hb; omega
  obtain ⟨stack, L, e1, e2, e3⟩ := search_loop_terminates tree key height rank hw fuel2 hM2
    fuel2 root [] (by rw [hrb]; exact hroot) (by rw [hrb]; omega)
  refine ⟨stack, L, ?_, e2, e3⟩
  unfold _bt_search
  rw [hroot]
  exact e1

/-- The partition computed by `_bt_binsrch` on a leaf, as a `search_boundary`. -/
theorem binsrch_leaf_boundary (key : BTScanInsert) (page : BTPage)
    (hleaf : is_leaf page = true) (hb : page_in_bounds page)
    (hasc : probed_keys_ascending page) (hov : no_probe_overflow key page) :
    search_boundary key page (_bt_binsrch key page) := by
  obtain ⟨_, hlo, hhi⟩ := binsrch_leaf_partition key page hleaf hb hasc hov
  intro i hi
  rcases cmpval_of_cases key with ⟨hk, hc⟩ | ⟨hk, hc⟩
  · rw [hc] at hlo hhi
    simp only [hk, if_true]
    split_ifs with hlt
    · have := hlo i hlt; omega
    · have := hhi i (by omega) hi; omega
  · rw [hc] at hlo hhi
    simp only [hk, Bool.false_eq_true, if_false]
    split_ifs with hlt
    · have := hlo i hlt; omega
    · have := hhi i (by omega) hi; omega

/-- The boundary property of `_bt_search` in the absence of overflow: on a
well-formed tree, for a key whose differences with the keys of every page are
representable in `int`, every sufficiently large budget makes `_bt_search`
return a leaf of the tree and an offset that satisfy `search_boundary`. -/
theorem search_boundary_of_no_overflow (tree : BTree) (key : BTScanInsert)
    (hwf : well_formed tree) (hov : ∀ page ∈ tree.pages, no_overflow key page) :
    ∃ fuel, ∀ fuel2, fuel ≤ fuel2 → ∃ stack L off,
      _bt_search fuel2 tree key = Except.ok (stack, L, off) ∧
      L ∈ tree.pages ∧ is_leaf L = true ∧ search_boundary key L off := by
  obtain ⟨fuel, hfuel⟩ := search_terminates tree key hwf
  obtain ⟨height, rank, hw⟩ := hwf
  refine ⟨fuel, fun fuel2 hf => ?_⟩
  obtain ⟨stack, L, e1, e2, e3⟩ := hfuel fuel2 hf
  obtain ⟨hb, hmem⟩ := get_page_some tree _ _ e2
  obtain ⟨_, hinv⟩ := hw.2 _ hb L e2
  exact ⟨stack, L, _, e1, hmem, e3, binsrch_leaf_boundary key L e3 hinv.1
    (probed_of_strictly_ascending L hinv.2.1) (probe_of_no_overflow key L (hov L hmem))⟩

theorem sample_tree_well_formed : well_formed create_sample_tree :=
  ⟨sample_height, sample_rank, by decide⟩

/-! ## Claims -/

/-- C1, failing input: the tree whose root is the single leaf with key `-1`
is well formed, and for `K = INT_MAX = 2147483647`, `nextkey = false`,
`_bt_search` returns that leaf with offset 0 for every positive budget; the
key `-1` at position 0, which is not before the offset, is not `≥ K`, so the
boundary property fails. The cause is the wrapped subtraction in `_bt_compare`. -/
theorem search_boundary_overflow_hi :
    well_formed overflow_tree_hi ∧ int_range 2147483647 ∧
    (∀ fuel, 1 ≤ fuel → _bt_search fuel overflow_tree_hi ⟨2147483647, false⟩
      = Except.ok ([], overflow_leaf_hi, 0)) ∧
    overflow_leaf_hi.keys.getD 0 0 < 2147483647 ∧
    ¬ search_boundary ⟨2147483647, false⟩ overflow_leaf_hi 0 := by
  refine ⟨⟨fun _ => 0, fun _ => 0, by decide⟩, by decide, ?_, by decide, by decide⟩
  intro fuel hf
  exact search_fuel_mono overflow_tree_hi ⟨2147483647, false⟩ 1 _ (by decide) (by simp) fuel hf

/-- C2, failing input: the tree whose root is the single leaf with key `1`
is well formed, and for `K = INT_MIN = -2147483648`, `nextkey = true`,
`_bt_search` returns that leaf with offset 1 for every positive budget; the
key `1` at position 0, before the offset, is not `≤ K`, so the boundary
property fails. The cause is the wrapped subtraction in `_bt_compare`. -/
theorem search_boundary_overflow_lo :
    well_formed overflow_tree_lo ∧ int_range (-2147483648) ∧
    (∀ fuel, 1 ≤ fuel → _bt_search fuel overflow_tree_lo ⟨-2147483648, true⟩
      = Except.ok ([], overflow_leaf_lo, 1)) ∧
    overflow_leaf_lo.keys.getD 0 0 > -2147483648 ∧
    ¬ search_boundary ⟨-2147483648, true⟩ overflow_leaf_lo 1 := by
  refine ⟨⟨fun _ => 0, fun _ => 0, by decide⟩, by decide, ?_, by decide, by decide⟩
  intro fuel hf
  exact search_fuel_mono overflow_tree_lo ⟨-2147483648, true⟩ 1 _ (by decide) (by simp) fuel hf

/-- C3: `_bt_moveright` is idempotent. If `_bt_moveright` returns page `p`,
then `_bt_moveright` started on `p` (with any positive iteration budget)
returns `p` itself and its `move_count` stays 0: no right-link is followed. -/
theorem moveright_idempotent (fuel : Nat) (tree : BTree) (key : BTScanInsert)
    (page p : BTPage) (h : _bt_moveright fuel tree key page = Except.ok p) (fuel2 : Nat) :
    _bt_moveright (fuel2 + 1) tree key p = Except.ok p ∧
      _bt_moveright_loop tree key (fuel2 + 1) p 0 = Except.ok (p, 0) := by
  obtain ⟨n, hn⟩ := (moveright_ok_iff fuel tree key page p).1 h
  have hstop := moveright_loop_stops tree key fuel page 0 p n hn
  have hl : _bt_moveright_loop tree key (fuel2 + 1) p 0 = Except.ok (p, 0) := by
    rw [moveright_loop_succ]
    rcases hstop with h1 | h2
    · simp [h1]
    · simp [h2]
  exact ⟨(moveright_ok_iff _ tree key p p).2 ⟨0, hl⟩, hl⟩

theorem moveright_idempotent_witness :
    _bt_moveright 11 create_sample_tree ⟨75, false⟩ sample_leaf7 = Except.ok sample_leaf8 ∧
    _bt_moveright 1 create_sample_tree ⟨75, false⟩ sample_leaf8 = Except.ok sample_leaf8 ∧
    _bt_moveright_loop create_sample_tree ⟨75, false⟩ 1 sample_leaf8 0
      = Except.ok (sample_leaf8, 0) :=
  ⟨by decide, moveright_idempotent 11 create_sample_tree ⟨75, false⟩ sample_leaf7 sample_leaf8
    (by decide) 0⟩

/-- C4: on an internal page with `0 ≤ num_keys ≤ MAX_KEYS_PER_PAGE` and any
key contents, `_bt_binsrch` returns an offset `r` with `0 ≤ r ≤ num_keys`,
which is an index into the `MAX_CHILDREN` slots of `children`. -/
theorem binsrch_internal_child_index (key : BTScanInsert) (page : BTPage)
    (hint : page.type = PageType.PAGE_INTERNAL)
    (h0 : 0 ≤ page.num_keys) (h7 : page.num_keys ≤ MAX_KEYS_PER_PAGE) :
    (0 : Int) ≤ _bt_binsrch key page ∧ (_bt_binsrch key page : Int) ≤ page.num_keys ∧
      _bt_binsrch key page < MAX_CHILDREN := by
  have hb : page_in_bounds page := ⟨h0, h7⟩
  obtain ⟨_, hN⟩ := int_to_u16_of_bounds page hb
  obtain ⟨_, hup⟩ := binsrch_loop_bounds key page (page.num_keys.toNat + 1) 0
    (page.num_keys.toNat + 1) (by omega) (by omega)
  have hl : is_leaf page = false := by simp [is_leaf, hint]
  rw [binsrch_unfold key page hb]
  simp only [hl, Bool.false_eq_true, if_false, MAX_CHILDREN]
  split_ifs <;> omega

theorem binsrch_internal_child_index_witness :
    (0 : Int) ≤ _bt_binsrch ⟨110, false⟩ sample_root ∧
      (_bt_binsrch ⟨110, false⟩ sample_root : Int) ≤ sample_root.num_keys ∧
      _bt_binsrch ⟨110, false⟩ sample_root < MAX_CHILDREN :=
  binsrch_internal_child_index ⟨110, false⟩ sample_root (by decide) (by decide) (by decide)

/-- C5, as stated, fails: on the sample tree, leaf 4 is not rightmost and has
high key 20; with `nextkey = false` and `K = 20 ≥ high_key` the loop stays on
leaf 4, and with `nextkey = true` and `K = 20`, which is not `> high_key`, it
follows the right-link to leaf 5. -/
theorem moveright_tie_break_counterexample :
    is_rightmost sample_leaf4 = false ∧ sample_leaf4.has_high_key = true ∧
    (20 : Int) ≥ sample_leaf4.high_key ∧ ¬ ((20 : Int) > sample_leaf4.high_key) ∧
    _bt_moveright_loop create_sample_tree ⟨20, false⟩ 11 sample_leaf4 0
      = Except.ok (sample_leaf4, 0) ∧
    _bt_moveright_loop create_sample_tree ⟨20, true⟩ 11 sample_leaf4 0
      = Except.ok (sample_leaf5, 1) := by
  decide

/-- C5, amended: on a page that is not rightmost and has a high key, with
`scankey - high_key` representable in `int`, one iteration of `_bt_moveright`
follows the right-link (fetches `right_link`, increments `move_count` and
continues there) exactly when `K > high_key` if `nextkey = false`, and exactly
when `K ≥ high_key` if `nextkey = true`; otherwise it stops on the page. -/
theorem moveright_tie_break (tree : BTree) (key : BTScanInsert) (page : BTPage)
    (fuel mc : Nat) (hr : is_rightmost page = false) (hh : page.has_high_key = true)
    (hov : int_range (key.scankey - page.high_key)) :
    ((if key.nextkey then key.scankey ≥ page.high_key else key.scankey > page.high_key) →
      _bt_moveright_loop tree key (fuel + 1) page mc =
        match get_page tree page.right_link with
        | none => Except.error SearchError.null_page
        | some next => _bt_moveright_loop tree key fuel next (mc + 1)) ∧
    (¬ (if key.nextkey then key.scankey ≥ page.high_key else key.scankey > page.high_key) →
      _bt_moveright_loop tree key (fuel + 1) page mc = Except.ok (page, mc)) := by
  have hm : moves_right key page = true ↔
      (if key.nextkey then key.scankey ≥ page.high_key else key.scankey > page.high_key) := by
    simp only [moves_right, hh, Bool.true_and, decide_eq_true_eq,
      wrap32_of_int_range _ hov, cmpval_of]
    cases key.nextkey
    · simp
      omega
    · simp
  rw [moveright_loop_succ]
  simp only [hr, Bool.false_eq_true, if_false]
  constructor
  · intro hc
    rw [if_pos (hm.2 hc)]
  · intro hc
    rw [if_neg (fun hx => hc (hm.1 hx))]

theorem moveright_tie_break_witness :
    ((if (⟨20, false⟩ : BTScanInsert).nextkey then (20 : Int) ≥ sample_leaf4.high_key
        else (20 : Int) > sample_leaf4.high_key) →
      _bt_moveright_loop create_sample_tree ⟨20, false⟩ (0 + 1) sample_leaf4 0 =
        match get_page create_sample_tree sample_leaf4.right_link with
        | none => Except.error SearchError.null_page
        | some next => _bt_moveright_loop create_sample_tree ⟨20, false⟩ 0 next (0 + 1)) ∧
    (¬ (if (⟨20, false⟩ : BTScanInsert).nextkey then (20 : Int) ≥ sample_leaf4.high_key
        else (20 : Int) > sample_leaf4.high_key) →
      _bt_moveright_loop create_sample_tree ⟨20, false⟩ (0 + 1) sample_leaf4 0
        = Except.ok (sample_leaf4, 0)) :=
  moveright_tie_break create_sample_tree ⟨20, false⟩ sample_leaf4 0 0 (by decide) (by decide)
    (by decide)

/-- The keys stored on leaves of the sample tree are those of `sample_leaf_keys`. -/
theorem sample_stored_keys (K : Int)
    (hK : ∃ page ∈ create_sample_tree.pages, ∃ i, stored_at page i K) : K ∈ sample_leaf_keys := by
  obtain ⟨page, hmem, i, hl, hi, hk⟩ := hK
  have h7 : ∀ p ∈ create_sample_tree.pages, p.num_keys ≤ 7 := by decide
  have hall : ∀ p ∈ create_sample_tree.pages, ∀ i : Nat, i < 7 →
      (is_leaf p = true ∧ (i : Int) < p.num_keys) → p.keys.getD i 0 ∈ sample_leaf_keys := by
    decide
  have := h7 page hmem
  rw [← hk]
  exact hall page hmem i (by omega) ⟨hl, hi⟩

/-- C6, as stated, fails: key 20 is stored on leaf 5 of the sample tree at
position 0, but `_bt_search` for 20 with `nextkey = false` returns leaf 4
(keys `[5, 10, 15]`) with offset 3, and leaf 4 does not hold 20. -/
theorem search_sample_stored_key_counterexample :
    sample_leaf5 ∈ create_sample_tree.pages ∧ stored_at sample_leaf5 0 20 ∧
    (∀ fuel, 11 ≤ fuel → _bt_search fuel create_sample_tree ⟨20, false⟩
      = Except.ok ([(1, 0), (0, 0)], sample_leaf4, 3)) ∧
    ¬ ∃ i, stored_at sample_leaf4 i 20 := by
  refine ⟨by decide, by decide, ?_, ?_⟩
  · intro fuel hf
    exact search_fuel_mono create_sample_tree ⟨20, false⟩ 11 _ (by decide) (by simp) fuel hf
  · rintro ⟨i, _, hi, hk⟩
    have h3 : sample_leaf4.num_keys = 3 := by decide
    have hi3 : i < 3 := by omega
    have hall : ∀ j < 3, sample_leaf4.keys.getD j 0 ≠ 20 := by decide
    exact hall i hi3 hk

/-- C6, amended: on the sample tree, for every key `K` stored on some leaf,
`_bt_search` with `nextkey = false` returns (for every budget of at least 11)
a leaf `L` of the tree and an offset such that either `L` holds `K` at that
offset, or the offset is `L`'s number of keys, `K` is the high key of `L`, and
the page that `L`'s right-link points to holds `K` at position 0. -/
theorem search_sample_stored_key (K : Int)
    (hK : ∃ page ∈ create_sample_tree.pages, ∃ i, stored_at page i K) :
    ∀ fuel, 11 ≤ fuel → ∃ stack L off,
      _bt_search fuel create_sample_tree ⟨K, false⟩ = Except.ok (stack, L, off) ∧
      L ∈ create_sample_tree.pages ∧
      (stored_at L off K ∨
        (is_leaf L = true ∧ (off : Int) = L.num_keys ∧ L.has_high_key = true ∧ L.high_key = K ∧
          ∃ R, get_page create_sample_tree L.right_link = some R ∧ stored_at R 0 K)) := by
  have hmem := sample_stored_keys K hK
  have h11 : ∃ stack L off,
      _bt_search 11 create_sample_tree ⟨K, false⟩ = Except.ok (stack, L, off) ∧
      L ∈ create_sample_tree.pages ∧
      (stored_at L off K ∨
        (is_leaf L = true ∧ (off : Int) = L.num_keys ∧ L.has_high_key = true ∧ L.high_key = K ∧
          ∃ R, get_page create_sample_tree L.right_link = some R ∧ stored_at R 0 K)) := by
    simp only [sample_leaf_keys, List.mem_cons, List.mem_singleton, List.not_mem_nil,
      or_false] at hmem
    rcases hmem with rfl | rfl | rfl | rfl | rfl | rfl | rfl | rfl | rfl | rfl | rfl | rfl |
      rfl | rfl | rfl | rfl | rfl | rfl | rfl | rfl | rfl | rfl
    all_goals first
      | exact ⟨_, _, _, rfl, by decide, Or.inl (by decide)⟩
      | exact ⟨_, _, _, rfl, by decide,
          Or.inr ⟨by decide, by decide, by decide, by decide, _, rfl, by decide⟩⟩
  intro fuel hf
  obtain ⟨stack, L, off, e, hL⟩ := h11
  exact ⟨stack, L, off,
    search_fuel_mono create_sample_tree ⟨K, false⟩ 11 _ e (by simp) fuel hf, hL⟩

theorem search_sample_stored_key_witness :
    (∃ page ∈ create_sample_tree.pages, ∃ i, stored_at page i 75) ∧
    ∃ stack L off,
      _bt_search 11 create_sample_tree ⟨75, false⟩ = Except.ok (stack, L, off) ∧
      L ∈ create_sample_tree.pages ∧
      (stored_at L off 75 ∨
        (is_leaf L = true ∧ (off : Int) = L.num_keys ∧ L.has_high_key = true ∧ L.high_key = 75 ∧
          ∃ R, get_page create_sample_tree L.right_link = some R ∧ stored_at R 0 75)) :=
  ⟨⟨sample_leaf8, by decide, 1, by decide⟩,
    search_sample_stored_key 75 ⟨sample_leaf8, by decide, 1, by decide⟩ 11 (le_refl 11)⟩

/-- C7, as stated, fails: the root of the sample tree is an internal page with
strictly ascending keys `[50, 100]`; for `K = 75`, `nextkey = false`,
`_bt_binsrch` returns offset 0, which is below `num_keys`, yet `K < keys[0]`
does not hold. -/
theorem binsrch_internal_cover_counterexample :
    sample_root.type = PageType.PAGE_INTERNAL ∧ keys_strictly_ascending sample_root ∧
    _bt_binsrch ⟨75, false⟩ sample_root = 0 ∧ (0 : Int) < sample_root.num_keys ∧
    ¬ ((75 : Int) < sample_root.keys.getD 0 0) := by
  decide

/-- C7, amended: on an internal page with `num_keys` in bounds, strictly
ascending keys and no overflowing difference `K - keys[i]`, the offset `r`
returned by `_bt_binsrch` for `nextkey = false` satisfies `keys[r] < K`
whenever `r > 0`, `keys[r-1] ≤ K` whenever `r > 0`, and `K ≤ keys[r+1]`
whenever `r + 1 < num_keys`: child `r` covers the keys above `keys[r]` (offset
0 standing for negative infinity) up to `keys[r+1]`. -/
theorem binsrch_internal_cover (key : BTScanInsert) (page : BTPage)
    (hint : page.type = PageType.PAGE_INTERNAL) (hnk : key.nextkey = false)
    (hb : page_in_bounds page) (hasc : keys_strictly_ascending page)
    (hov : no_overflow key page) :
    (0 < _bt_binsrch key page → page.keys.getD (_bt_binsrch key page) 0 < key.scankey) ∧
    (0 < _bt_binsrch key page → page.keys.getD (_bt_binsrch key page - 1) 0 ≤ key.scankey) ∧
    ((_bt_binsrch key page : Int) + 1 < page.num_keys →
      key.scankey ≤ page.keys.getD (_bt_binsrch key page + 1) 0) := by
  have hl : is_leaf page = false := by simp [is_leaf, hint]
  obtain ⟨hle, hlt, hlo, hhi⟩ := binsrch_internal_partition key page hl hb
    (probed_of_strictly_ascending page hasc) (probe_of_no_overflow key page hov)
  have hc : cmpval_of key = 1 := by simp [cmpval_of, hnk]
  rw [hc] at hlo hhi
  have h0 : 0 ≤ page.num_keys := hb.1
  have hr : 0 < _bt_binsrch key page → page.keys.getD (_bt_binsrch key page) 0 < key.scankey := by
    intro hpos
    have := hlo _ hpos (le_refl _)
    omega
  refine ⟨hr, ?_, ?_⟩
  · intro hpos
    have h1 := hr hpos
    have h2 := hasc (_bt_binsrch key page) (hlt (by omega)) (_bt_binsrch key page - 1) (by omega)
    omega
  · intro h
    have := hhi (_bt_binsrch key page + 1) (by omega) (by omega)
    omega

theorem binsrch_internal_cover_witness :
    (0 < _bt_binsrch ⟨110, false⟩ sample_root →
      sample_root.keys.getD (_bt_binsrch ⟨110, false⟩ sample_root) 0 < (110 : Int)) ∧
    (0 < _bt_binsrch ⟨110, false⟩ sample_root →
      sample_root.keys.getD (_bt_binsrch ⟨110, false⟩ sample_root - 1) 0 ≤ (110 : Int)) ∧
    ((_bt_binsrch ⟨110, false⟩ sample_root : Int) + 1 < sample_root.num_keys →
      (110 : Int) ≤ sample_root.keys.getD (_bt_binsrch ⟨110, false⟩ sample_root + 1) 0) :=
  binsrch_internal_cover ⟨110, false⟩ sample_root (by decide) rfl (by decide) (by decide)
    (by decide)

/-- C8, failing input: on the leaf with the single key `-1`, the comparison of
`K = INT_MAX = 2147483647` with `keys[0]` is negative (the 32-bit difference
wraps to `INT_MIN`) although `K > keys[0]`; both values are in `int` range and
the offset is in range. -/
theorem compare_overflow_hi :
    is_leaf overflow_leaf_hi = true ∧ ((0 : Nat) : Int) < overflow_leaf_hi.num_keys ∧
    int_range 2147483647 ∧ int_range (overflow_leaf_hi.keys.getD 0 0) ∧
    (2147483647 : Int) > overflow_leaf_hi.keys.getD 0 0 ∧
    _bt_compare ⟨2147483647, false⟩ overflow_leaf_hi 0 = -2147483648 := by
  decide

/-- C9: on an internal page, whatever its number of keys, its key contents
and the search key, `_bt_compare` at offset 0 returns 1, a positive value. -/
theorem compare_internal_offset_zero (key : BTScanInsert) (page : BTPage)
    (hint : page.type = PageType.PAGE_INTERNAL) :
    _bt_compare key page 0 = 1 ∧ 0 < _bt_compare key page 0 := by
  have hl : is_leaf page = false := by simp [is_leaf, hint]
  rw [compare_internal_zero key page hl]
  exact ⟨rfl, by decide⟩

theorem compare_internal_offset_zero_witness :
    (create_page PageType.PAGE_INTERNAL 0).num_keys = 0 ∧
    _bt_compare ⟨-5, true⟩ (create_page PageType.PAGE_INTERNAL 0) 0 = 1 ∧
    0 < _bt_compare ⟨-5, true⟩ (create_page PageType.PAGE_INTERNAL 0) 0 :=
  ⟨rfl, compare_internal_offset_zero ⟨-5, true⟩ (create_page PageType.PAGE_INTERNAL 0) rfl⟩

/-- C10: for every page and every offset `≥ num_keys` other than offset 0 of
an internal page, `_bt_compare` returns `-1`, a negative value, for every
search key; the result is the same whatever the key array holds. -/
theorem compare_past_last_key (key : BTScanInsert) (page : BTPage) (offnum : Nat)
    (hoff : (offnum : Int) ≥ page.num_keys)
    (hne : ¬ (page.type = PageType.PAGE_INTERNAL ∧ offnum = 0)) (ks : List Int) :
    _bt_compare key page offnum = -1 ∧ _bt_compare key page offnum < 0 ∧
      _bt_compare key { page with keys := ks } offnum = -1 := by
  have h : is_leaf page = true ∨ offnum ≠ 0 := by
    by_cases h0 : offnum = 0
    · left
      cases ht : page.type with
      | PAGE_INTERNAL => exact absurd ⟨ht, h0⟩ hne
      | PAGE_LEAF => simp [is_leaf, ht]
    · exact Or.inr h0
  have h2 : is_leaf { page with keys := ks } = true ∨ offnum ≠ 0 := h
  rw [compare_out_of_range key page offnum hoff h,
    compare_out_of_range key { page with keys := ks } offnum hoff h2]
  exact ⟨rfl, by decide, rfl⟩

theorem compare_past_last_key_witness :
    _bt_compare ⟨200, false⟩ sample_leaf8 3 = -1 ∧ _bt_compare ⟨200, false⟩ sample_leaf8 3 < 0 ∧
      _bt_compare ⟨200, false⟩ { sample_leaf8 with keys := [1, 2, 3, 4, 5, 6, 7] } 3 = -1 :=
  compare_past_last_key ⟨200, false⟩ sample_leaf8 3 (by decide) (by decide) [1, 2, 3, 4, 5, 6, 7]

/-! ## Binary search: results on sorted pages -/

theorem countP_range_prefix (p : Nat → Bool) :
    ∀ n r : Nat, r ≤ n → (∀ i < n, p i = decide (i < r)) → (List.range n).countP p = r := by
  intro n
  induction n with
  | zero => intro r hr _; simp; omega
  | succ n ih =>
    intro r hr hp
    rw [List.range_succ, List.countP_append]
    rcases Nat.lt_or_ge r (n + 1) with hlt | hge
    · have h1 := ih r (by omega) (fun i hi => hp i (by omega))
      have h2 : p n = false := by rw [hp n (by omega)]; simp; omega
      simp [h1, h2]
    · have hr2 : r = n + 1 := by omega
      subst hr2
      have h1 := ih n (le_refl n) (fun i hi => by rw [hp i (by omega)]; simp; omega)
      have h2 : p n = true := by rw [hp n (by omega)]; simp
      simp [h1, h2]

/-- C11: on a leaf page (header in bounds) with ascending keys and no
overflowing difference `K - keys[i]`, the offset `r` returned by `_bt_binsrch`
is at most `num_keys`, no key before `r` meets the target condition (`≥ K` for
`nextkey = false`, `> K` for `nextkey = true`), the key at `r` meets it when
`r < num_keys`, `r = num_keys` when no key of the page meets it, and `r` is the
number of keys of the page that are `< K` (respectively `≤ K`). -/
theorem binsrch_leaf_first_offset (key : BTScanInsert) (page : BTPage)
    (hleaf : page.type = PageType.PAGE_LEAF) (hb : page_in_bounds page)
    (hasc : keys_ascending page) (hov : no_overflow key page) :
    (_bt_binsrch key page : Int) ≤ page.num_keys ∧
    (∀ i < _bt_binsrch key page, ¬ meets_target key page i) ∧
    ((_bt_binsrch key page : Int) < page.num_keys →
      meets_target key page (_bt_binsrch key page)) ∧
    ((∀ i : Nat, (i : Int) < page.num_keys → ¬ meets_target key page i) →
      (_bt_binsrch key page : Int) = page.num_keys) ∧
    _bt_binsrch key page = keys_below_count key page := by
  have hl : is_leaf page = true := by simp [is_leaf, hleaf]
  obtain ⟨hle, hlo, hhi⟩ := binsrch_leaf_partition key page hl hb
    (probed_of_ascending page hasc) (probe_of_no_overflow key page hov)
  have h0 : 0 ≤ page.num_keys := hb.1
  have hmt : ∀ i, meets_target key page i ↔
      key.scankey - page.keys.getD i 0 < cmpval_of key := by
    intro i
    rcases cmpval_of_cases key with ⟨hk, hc⟩ | ⟨hk, hc⟩
    · simp only [meets_target, hk, if_true, hc]; omega
    · simp only [meets_target, hk, Bool.false_eq_true, if_false, hc]; omega
  refine ⟨by omega, ?_, ?_, ?_, ?_⟩
  · intro i hi hm
    have := hlo i hi
    have := (hmt i).1 hm
    omega
  · intro hlt
    exact (hmt _).2 (hhi _ (le_refl _) (by omega))
  · intro hnone
    by_contra hne
    have hlt : _bt_binsrch key page < page.num_keys.toNat := by omega
    exact hnone _ (by omega) ((hmt _).2 (hhi _ (le_refl _) hlt))
  · symm
    unfold keys_below_count
    apply countP_range_prefix _ _ _ hle
    intro i hi
    by_cases hir : i < _bt_binsrch key page
    · have := hlo i hir
      rcases cmpval_of_cases key with ⟨hk, hc⟩ | ⟨hk, hc⟩
      · simp only [hk, if_true, hir, decide_True, decide_eq_true_eq]; omega
      · simp only [hk, Bool.false_eq_true, if_false, hir, decide_True, decide_eq_true_eq]; omega
    · have := hhi i (by omega) hi
      rcases cmpval_of_cases key with ⟨hk, hc⟩ | ⟨hk, hc⟩
      · simp only [hk, if_true, hir, decide_False, decide_eq_false_iff_not]; omega
      · simp only [hk, Bool.false_eq_true, if_false, hir, decide_False,
          decide_eq_false_iff_not]; omega

theorem binsrch_leaf_first_offset_witness :
    (_bt_binsrch ⟨72, false⟩ sample_leaf8 : Int) ≤ sample_leaf8.num_keys ∧
    (∀ i < _bt_binsrch ⟨72, false⟩ sample_leaf8, ¬ meets_target ⟨72, false⟩ sample_leaf8 i) ∧
    ((_bt_binsrch ⟨72, false⟩ sample_leaf8 : Int) < sample_leaf8.num_keys →
      meets_target ⟨72, false⟩ sample_leaf8 (_bt_binsrch ⟨72, false⟩ sample_leaf8)) ∧
    ((∀ i : Nat, (i : Int) < sample_leaf8.num_keys → ¬ meets_target ⟨72, false⟩ sample_leaf8 i) →
      (_bt_binsrch ⟨72, false⟩ sample_leaf8 : Int) = sample_leaf8.num_keys) ∧
    _bt_binsrch ⟨72, false⟩ sample_leaf8 = keys_below_count ⟨72, false⟩ sample_leaf8 :=
  binsrch_leaf_first_offset ⟨72, false⟩ sample_leaf8 (by decide) (by decide) (by decide)
    (by decide)

/-- C12: on an internal page (header in bounds) with at least one key, whose
keys at offsets `1 .. num_keys - 1` are ascending and differ from `K` without
overflow, `_bt_binsrch` returns the last offset `r` of `[0, num_keys - 1]` such
that `r = 0` or `keys[r] < K` (`nextkey = false`), respectively `keys[r] ≤ K`
(`nextkey = true`): `r` is in that range, has the property, and no later
offset of the range has it. -/
theorem binsrch_internal_last_offset (key : BTScanInsert) (page : BTPage)
    (hint : page.type = PageType.PAGE_INTERNAL) (hb : page_in_bounds page)
    (h1 : 1 ≤ page.num_keys)
    (hasc : ∀ j < page.num_keys.toNat, ∀ i < j, 1 ≤ i →
      page.keys.getD i 0 ≤ page.keys.getD j 0)
    (hov : ∀ i < page.num_keys.toNat, 1 ≤ i → int_range (key.scankey - page.keys.getD i 0)) :
    (_bt_binsrch key page : Int) < page.num_keys ∧
    (_bt_binsrch key page = 0 ∨ key_below key page (_bt_binsrch key page)) ∧
    (∀ i : Nat, _bt_binsrch key page < i → (i : Int) < page.num_keys →
      ¬ (i = 0 ∨ key_below key page i)) := by
  have hl : is_leaf page = false := by simp [is_leaf, hint]
  have hasc2 : probed_keys_ascending page := by
    intro j hj i hi h
    rcases h with h | h
    · rw [hl] at h; exact absurd h (by simp)
    · exact hasc j hj i hi (by omega)
  have hov2 : no_probe_overflow key page := by
    intro i hi h
    rcases h with h | h
    · rw [hl] at h; exact absurd h (by simp)
    · exact hov i hi (by omega)
  obtain ⟨_, hlt, hlo, hhi⟩ := binsrch_internal_partition key page hl hb hasc2 hov2
  have hkb : ∀ i, key_below key page i ↔
      key.scankey - page.keys.getD i 0 ≥ cmpval_of key := by
    intro i
    rcases cmpval_of_cases key with ⟨hk, hc⟩ | ⟨hk, hc⟩
    · simp only [key_below, hk, if_true, hc]; omega
    · simp only [key_below, hk, Bool.false_eq_true, if_false, hc]; omega
  have hr := hlt (by omega)
  refine ⟨by omega, ?_, ?_⟩
  · rcases Nat.eq_zero_or_pos (_bt_binsrch key page) with hz | hp
    · exact Or.inl hz
    · exact Or.inr ((hkb _).2 (hlo _ hp (le_refl _)))
  · intro i hi hin h
    rcases h with h | h
    · omega
    · have := hhi i hi (by omega)
      have := (hkb i).1 h
      omega

theorem binsrch_internal_last_offset_witness :
    (_bt_binsrch ⟨110, false⟩ sample_root : Int) < sample_root.num_keys ∧
    (_bt_binsrch ⟨110, false⟩ sample_root = 0 ∨
      key_below ⟨110, false⟩ sample_root (_bt_binsrch ⟨110, false⟩ sample_root)) ∧
    (∀ i : Nat, _bt_binsrch ⟨110, false⟩ sample_root < i → (i : Int) < sample_root.num_keys →
      ¬ (i = 0 ∨ key_below ⟨110, false⟩ sample_root i)) :=
  binsrch_internal_last_offset ⟨110, false⟩ sample_root (by decide) (by decide) (by decide)
    (by decide) (by decide)

/-- C13: on a page with zero keys, leaf or internal, `_bt_binsrch` returns
offset 0 for every search key and either `nextkey` value. -/
theorem binsrch_empty_page (key : BTScanInsert) (page : BTPage) (h : page.num_keys = 0) :
    _bt_binsrch key page = 0 := by
  have hc := cmpval_of_cases key
  cases hl : is_leaf page
  · have h1 : _bt_compare key page 0 = 1 := compare_internal_zero key page hl
    have h2 : (1 : Int) ≥ cmpval_of key := by omega
    simp [_bt_binsrch, h, int_to_u16, u16, binsrch_loop, binsrch_step, binsrch_mid, h1, h2, hl]
  · have h1 : _bt_compare key page 0 = -1 :=
      compare_out_of_range key page 0 (by simp [h]) (Or.inl hl)
    have h2 : ¬ ((-1 : Int) ≥ cmpval_of key) := by omega
    simp [_bt_binsrch, h, int_to_u16, u16, binsrch_loop, binsrch_step, binsrch_mid, h1, h2, hl]

theorem binsrch_empty_page_witness :
    _bt_binsrch ⟨42, true⟩ (create_page PageType.PAGE_INTERNAL 3) = 0 ∧
    _bt_binsrch ⟨42, false⟩ (create_page PageType.PAGE_LEAF 4) = 0 :=
  ⟨binsrch_empty_page ⟨42, true⟩ (create_page PageType.PAGE_INTERNAL 3) rfl,
    binsrch_empty_page ⟨42, false⟩ (create_page PageType.PAGE_LEAF 4) rfl⟩

/-! ## The bisect loop, iteration by iteration -/

/-- The final `low` of the bisect loop run with budget `k` is the `low` of
the state reached after `k` iterations. -/
theorem binsrch_loop_eq_iterate (key : BTScanInsert) (page : BTPage) :
    ∀ (k low high : Nat),
      binsrch_loop key page k low high = (binsrch_iterate key page k (low, high)).1 := by
  intro k
  induction k with
  | zero => intro low high; rfl
  | succ k ih =>
    intro low high
    rw [binsrch_loop, binsrch_iterate]
    simp only
    split_ifs with h
    · exact ih _ _
    · rfl

/-- One iteration of the bisect loop preserves: `low ≤ high ≤ n + 1`, the
probe holds below `low`, and the probe fails from `high` up to `n`. -/
theorem binsrch_step_invariant (key : BTScanInsert) (page : BTPage) (n : Nat)
    (hn : n + 1 ≤ 65535)
    (mono : ∀ i j : Nat, i ≤ j → j ≤ n → _bt_compare key page j ≥ cmpval_of key →
      _bt_compare key page i ≥ cmpval_of key)
    (low high : Nat) (hlt : low < high) (hhn : high ≤ n + 1)
    (hlo : ∀ i < low, _bt_compare key page i ≥ cmpval_of key)
    (hhi : ∀ i, high ≤ i → i ≤ n → ¬ _bt_compare key page i ≥ cmpval_of key) :
    (binsrch_step key page low high).1 ≤ (binsrch_step key page low high).2 ∧
    (binsrch_step key page low high).2 ≤ n + 1 ∧
    (∀ i < (binsrch_step key page low high).1, _bt_compare key page i ≥ cmpval_of key) ∧
    (∀ i, (binsrch_step key page low high).2 ≤ i → i ≤ n →
      ¬ _bt_compare key page i ≥ cmpval_of key) := by
  have hh : high ≤ 65535 := by omega
  obtain ⟨hm1, hm2, hm3⟩ := binsrch_mid_bounds low high hlt hh
  obtain ⟨b1, b2, b3, b4⟩ := binsrch_step_bounds key page low high hlt hh
  refine ⟨b2, by omega, ?_, ?_⟩
  · intro i hi
    unfold binsrch_step at hi
    simp only at hi
    split_ifs at hi with hc
    · simp only [u16] at hi
      exact mono i (binsrch_mid low high) (by omega) (by omega) hc
    · exact hlo i hi
  · intro i hi hin
    unfold binsrch_step at hi
    simp only at hi
    split_ifs at hi with hc
    · exact hhi i hi hin
    · intro hp
      exact hc (mono (binsrch_mid low high) i hi hin hp)

theorem binsrch_iterate_invariant (key : BTScanInsert) (page : BTPage) (n : Nat)
    (hn : n + 1 ≤ 65535)
    (mono : ∀ i j : Nat, i ≤ j → j ≤ n → _bt_compare key page j ≥ cmpval_of key →
      _bt_compare key page i ≥ cmpval_of key) :
    ∀ (k : Nat) (s : Nat × Nat), s.1 ≤ s.2 → s.2 ≤ n + 1 →
      (∀ i < s.1, _bt_compare key page i ≥ cmpval_of key) →
      (∀ i, s.2 ≤ i → i ≤ n → ¬ _bt_compare key page i ≥ cmpval_of key) →
      (binsrch_iterate key page k s).1 ≤ (binsrch_iterate key page k s).2 ∧
      (binsrch_iterate key page k s).2 ≤ n + 1 ∧
      (∀ i < (binsrch_iterate key page k s).1, _bt_compare key page i ≥ cmpval_of key) ∧
      (∀ i, (binsrch_iterate key page k s).2 ≤ i → i ≤ n →
        ¬ _bt_compare key page i ≥ cmpval_of key) := by
  intro k
  induction k with
  | zero => intro s h1 h2 h3 h4; exact ⟨h1, h2, h3, h4⟩
  | succ k ih =>
    intro s h1 h2 h3 h4
    rw [binsrch_iterate]
    split_ifs with hlt
    · obtain ⟨i1, i2, i3, i4⟩ := binsrch_step_invariant key page n hn mono s.1 s.2 hlt h2 h3 h4
      exact ih _ i1 i2 i3 i4
    · exact ⟨h1, h2, h3, h4⟩

/-- C14, as stated, fails: on leaf 8 of the sample tree (ascending keys
`[70, 75, 80]`), `K = 75`, `nextkey = false`, the state after one iteration is
`low = 0`, `high = 2`, and offset 2, which is at `high` and at most `num_keys`,
does not satisfy the probe `_bt_compare ≥ cmpval`; after three iterations
`low = 1`, and offset 0, which is below `low`, satisfies the probe. -/
theorem binsrch_invariant_counterexample :
    keys_ascending sample_leaf8 ∧
    binsrch_iterate ⟨75, false⟩ sample_leaf8 1 (binsrch_init sample_leaf8) = (0, 2) ∧
    ((2 : Nat) : Int) ≤ sample_leaf8.num_keys ∧
    ¬ (_bt_compare ⟨75, false⟩ sample_leaf8 2 ≥ cmpval_of ⟨75, false⟩) ∧
    binsrch_iterate ⟨75, false⟩ sample_leaf8 3 (binsrch_init sample_leaf8) = (1, 1) ∧
    _bt_compare ⟨75, false⟩ sample_leaf8 0 ≥ cmpval_of ⟨75, false⟩ := by
  decide

/-- C14, amended: on a page (header in bounds) with ascending keys and no
overflowing difference `K - keys[i]`, at the head of every iteration of the
bisect loop of `_bt_binsrch` (after any number `k` of iterations from
`low = 0`, `high = num_keys + 1`) every offset below `low` satisfies the probe
`_bt_compare(key, page, offset) ≥ cmpval`, and every offset at or above `high`
(up to `num_keys`) fails it; the `low` of that state is the result of the loop
run for `k` iterations. -/
theorem binsrch_invariant (key : BTScanInsert) (page : BTPage) (hb : page_in_bounds page)
    (hasc : keys_ascending page) (hov : no_overflow key page) (k : Nat) :
    (∀ i < (binsrch_iterate key page k (binsrch_init page)).1,
      _bt_compare key page i ≥ cmpval_of key) ∧
    (∀ i : Nat, (binsrch_iterate key page k (binsrch_init page)).2 ≤ i →
      (i : Int) ≤ page.num_keys → ¬ _bt_compare key page i ≥ cmpval_of key) ∧
    (binsrch_iterate key page k (binsrch_init page)).1 ≤
      (binsrch_iterate key page k (binsrch_init page)).2 ∧
    binsrch_loop key page k (binsrch_init page).1 (binsrch_init page).2 =
      (binsrch_iterate key page k (binsrch_init page)).1 := by
  obtain ⟨h1, h2⟩ := int_to_u16_of_bounds page hb
  have h0 : 0 ≤ page.num_keys := hb.1
  have hinit : binsrch_init page = (0, page.num_keys.toNat + 1) := by
    unfold binsrch_init
    rw [h1]
    unfold u16
    congr 1
    omega
  rw [hinit]
  obtain ⟨i1, i2, i3, i4⟩ := binsrch_iterate_invariant key page page.num_keys.toNat (by omega)
    (probe_downward_closed key page (probed_of_ascending page hasc)
      (probe_of_no_overflow key page hov)) k (0, page.num_keys.toNat + 1)
    (by simp) (by simp) (fun i hi => by simp at hi) (fun i hi hin => by simp at hi; omega)
  exact ⟨i3, fun i hi hin => i4 i hi (by omega), i1, binsrch_loop_eq_iterate key page k _ _⟩

theorem binsrch_invariant_witness :
    (∀ i < (binsrch_iterate ⟨75, false⟩ sample_leaf8 2 (binsrch_init sample_leaf8)).1,
      _bt_compare ⟨75, false⟩ sample_leaf8 i ≥ cmpval_of ⟨75, false⟩) ∧
    (∀ i : Nat, (binsrch_iterate ⟨75, false⟩ sample_leaf8 2 (binsrch_init sample_leaf8)).2 ≤ i →
      (i : Int) ≤ sample_leaf8.num_keys →
      ¬ _bt_compare ⟨75, false⟩ sample_leaf8 i ≥ cmpval_of ⟨75, false⟩) ∧
    (binsrch_iterate ⟨75, false⟩ sample_leaf8 2 (binsrch_init sample_leaf8)).1 ≤
      (binsrch_iterate ⟨75, false⟩ sample_leaf8 2 (binsrch_init sample_leaf8)).2 ∧
    binsrch_loop ⟨75, false⟩ sample_leaf8 2 (binsrch_init sample_leaf8).1
        (binsrch_init sample_leaf8).2 =
      (binsrch_iterate ⟨75, false⟩ sample_leaf8 2 (binsrch_init sample_leaf8)).1 :=
  binsrch_invariant ⟨75, false⟩ sample_leaf8 (by decide) (by decide) (by decide) 2

/-! ## The descent and the parent stack -/

/-- A successful run of the descent loop follows a `descent_path`; the stack
it returns is the initial stack with one entry pushed per internal page. -/
theorem search_loop_path (tree : BTree) (key : BTScanInsert) (mfuel : Nat) :
    ∀ (fuel : Nat) (page : BTPage) (stack0 stack : BTStack) (L : BTPage) (off : Nat),
      _bt_search_loop tree key mfuel fuel page stack0 = Except.ok (stack, L, off) →
      ∃ ps, descent_path tree key mfuel page ps L ∧
        stack = (ps.map (stack_entry key)).reverse ++ stack0 ∧ off = _bt_binsrch key L := by
  intro fuel
  induction fuel with
  | zero => intro page stack0 stack L off h; simp [_bt_search_loop] at h
  | succ f ih =>
    intro page stack0 stack L off h
    rw [_bt_search_loop] at h
    cases hm : _bt_moveright mfuel tree key page with
    | error e => rw [hm] at h; simp at h
    | ok p =>
      rw [hm] at h
      simp only at h
      by_cases hl : is_leaf p = true
      · rw [if_pos hl] at h
        simp only [Except.ok.injEq, Prod.mk.injEq] at h
        obtain ⟨h1, h2, h3⟩ := h
        subst h2
        exact ⟨[], ⟨hm, hl⟩, by simp [h1], h3.symm⟩
      · rw [if_neg hl] at h
        cases hg : get_page tree (p.children.getD (_bt_binsrch key p) INVALID_BLOCK) with
        | none => rw [hg] at h; simp at h
        | some child =>
          rw [hg] at h
          simp only at h
          obtain ⟨ps, hp, hs, ho⟩ := ih child _ stack L off h
          refine ⟨p :: ps, ⟨hm, by simpa using hl, child, hg, hp⟩, ?_, ho⟩
          rw [hs]
          simp [create_stack_node, stack_entry]

/-- The last page of a non-empty descent path is an internal page reached by
`_bt_moveright` from the start page or from a fetched page, and the leaf is the
result of `_bt_moveright` on the child it selects. -/
theorem descent_path_last (tree : BTree) (key : BTScanInsert) (mfuel : Nat) :
    ∀ (ps : List BTPage) (page L p : BTPage),
      descent_path tree key mfuel page (ps ++ [p]) L →
      is_leaf p = false ∧
      (∃ start, (start = page ∨ ∃ b, get_page tree b = some start) ∧
        _bt_moveright mfuel tree key start = Except.ok p) ∧
      ∃ child, get_page tree (p.children.getD (_bt_binsrch key p) INVALID_BLOCK) = some child ∧
        _bt_moveright mfuel tree key child = Except.ok L ∧ is_leaf L = true := by
  intro ps
  induction ps with
  | nil =>
    intro page L p h
    simp only [List.nil_append, descent_path] at h
    obtain ⟨h1, h2, child, h3, h4, h5⟩ := h
    exact ⟨h2, ⟨page, Or.inl rfl, h1⟩, child, h3, h4, h5⟩
  | cons q qs ih =>
    intro page L p h
    simp only [List.cons_append, descent_path] at h
    obtain ⟨_, _, child, h3, h4⟩ := h
    obtain ⟨i1, ⟨start, i2, i3⟩, i4⟩ := ih child L p h4
    refine ⟨i1, ⟨start, Or.inr ?_, i3⟩, i4⟩
    rcases i2 with rfl | hb
    · exact ⟨_, h3⟩
    · exact hb

/-- The leaf of a descent path is the result of `_bt_moveright` on the start
page or on a fetched page. -/
theorem descent_path_leaf (tree : BTree) (key : BTScanInsert) (mfuel : Nat) :
    ∀ (ps : List BTPage) (page L : BTPage), descent_path tree key mfuel page ps L →
      is_leaf L = true ∧
      ∃ start, (start = page ∨ ∃ b, get_page tree b = some start) ∧
        _bt_moveright mfuel tree key start = Except.ok L := by
  intro ps
  induction ps with
  | nil =>
    intro page L h
    simp only [descent_path] at h
    exact ⟨h.2, page, Or.inl rfl, h.1⟩
  | cons q qs ih =>
    intro page L h
    simp only [descent_path] at h
    obtain ⟨_, _, child, h3, h4⟩ := h
    obtain ⟨i1, start, i2, i3⟩ := ih child L h4
    refine ⟨i1, start, Or.inr ?_, i3⟩
    rcases i2 with rfl | hb
    · exact ⟨_, h3⟩
    · exact hb

/-- The page the loop of `_bt_moveright` returns is the start page or a page
fetched from the tree. -/
theorem moveright_loop_result_fetched (tree : BTree) (key : BTScanInsert) :
    ∀ (fuel : Nat) (page : BTPage) (mc : Nat) (p : BTPage) (n : Nat),
      _bt_moveright_loop tree key fuel page mc = Except.ok (p, n) →
      p = page ∨ ∃ b, get_page tree b = some p := by
  intro fuel
  induction fuel with
  | zero => intro page mc p n h; simp [_bt_moveright_loop] at h
  | succ f ih =>
    intro page mc p n h
    rw [moveright_loop_succ] at h
    split_ifs at h with h1 h2
    · simp only [Except.ok.injEq, Prod.mk.injEq] at h
      exact Or.inl h.1.symm
    · cases hg : get_page tree page.right_link with
      | none => rw [hg] at h; simp at h
      | some next =>
        rw [hg] at h
        rcases ih next (mc + 1) p n h with rfl | hb
        · exact Or.inr ⟨_, hg⟩
        · exact Or.inr hb
    · simp only [Except.ok.injEq, Prod.mk.injEq] at h
      exact Or.inl h.1.symm

theorem moveright_result_fetched (fuel : Nat) (tree : BTree) (key : BTScanInsert)
    (page p : BTPage) (h : _bt_moveright fuel tree key page = Except.ok p)
    (hp : ∃ b, get_page tree b = some page) : ∃ b, get_page tree b = some p := by
  obtain ⟨n, hn⟩ := (moveright_ok_iff fuel tree key page p).1 h
  rcases moveright_loop_result_fetched tree key fuel page 0 p n hn with rfl | hb
  · exact hp
  · exact hb

/-- A successful `_bt_search` follows a `descent_path` from the root page. -/
theorem search_path (fuel : Nat) (tree : BTree) (key : BTScanInsert) (stack : BTStack)
    (L : BTPage) (off : Nat) (h : _bt_search fuel tree key = Except.ok (stack, L, off)) :
    ∃ root ps, get_page tree tree.root = some root ∧ descent_path tree key fuel root ps L ∧
      stack = (ps.map (stack_entry key)).reverse ∧ off = _bt_binsrch key L := by
  unfold _bt_search at h
  cases hg : get_page tree tree.root with
  | none => rw [hg] at h; simp at h
  | some root =>
    rw [hg] at h
    obtain ⟨ps, hp, hs, ho⟩ := search_loop_path tree key fuel fuel root [] stack L off h
    exact ⟨root, ps, rfl, hp, by simpa using hs, ho⟩

/-- C15: for every successful search there are a root page and a list `ps` of
internal pages such that the descent from the root ran `_bt_binsrch` exactly on
the pages of `ps`, in this order (each one the page `_bt_moveright` reached at
its level), and ended on the returned leaf; the returned stack is the list of
the entries `(blockno, _bt_binsrch offset)` of these pages in reverse order,
deepest level first and root level last; and the stack is empty exactly when
`_bt_moveright` applied to the root page returns a leaf. -/
theorem search_stack_lists_descent (fuel : Nat) (tree : BTree) (key : BTScanInsert)
    (stack : BTStack) (L : BTPage) (off : Nat)
    (h : _bt_search fuel tree key = Except.ok (stack, L, off)) :
    ∃ root ps, get_page tree tree.root = some root ∧
      descent_path tree key fuel root ps L ∧
      stack = (ps.map fun p => (p.blockno, _bt_binsrch key p)).reverse ∧
      (stack = [] ↔ ∃ p, _bt_moveright fuel tree key root = Except.ok p ∧ is_leaf p = true) := by
  obtain ⟨root, ps, hr, hp, hs, _⟩ := search_path fuel tree key stack L off h
  refine ⟨root, ps, hr, hp, hs, ?_⟩
  cases ps with
  | nil =>
    simp only [descent_path] at hp
    simp only [hs, List.map_nil, List.reverse_nil, true_iff]
    exact ⟨L, hp.1, hp.2⟩
  | cons q qs =>
    simp only [descent_path] at hp
    constructor
    · intro hnil
      rw [hs] at hnil
      simp at hnil
    · rintro ⟨p, hm, hl⟩
      rw [hp.1] at hm
      simp only [Except.ok.injEq] at hm
      rw [hm, hl] at hp
      exact absurd hp.2.1 (by simp)

theorem search_stack_lists_descent_witness :
    ∃ root ps, get_page create_sample_tree create_sample_tree.root = some root ∧
      descent_path create_sample_tree ⟨75, false⟩ 11 root ps sample_leaf8 ∧
      [(2, 0), (0, 0)] = (ps.map fun p => (p.blockno, _bt_binsrch ⟨75, false⟩ p)).reverse ∧
      ([(2, 0), (0, 0)] = ([] : BTStack) ↔
        ∃ p, _bt_moveright 11 create_sample_tree ⟨75, false⟩ root = Except.ok p ∧
          is_leaf p = true) :=
  search_stack_lists_descent 11 create_sample_tree ⟨75, false⟩ [(2, 0), (0, 0)] sample_leaf8 1
    (by decide)

/-- C16, as stated, fails: the sample tree is well formed and the search for
`K = 75`, `nextkey = false`, returns the stack with head `(2, 0)` and leaf 8;
page 2 is internal, but its child pointer `children[0]` is block 7, not the
block number 8 of the returned leaf. -/
theorem stack_head_parent_counterexample :
    well_formed create_sample_tree ∧
    _bt_search 11 create_sample_tree ⟨75, false⟩
      = Except.ok ([(2, 0), (0, 0)], sample_leaf8, 1) ∧
    get_page create_sample_tree 2 = some sample_page2 ∧ is_leaf sample_page2 = false ∧
    sample_page2.children.getD 0 INVALID_BLOCK = 7 ∧ sample_leaf8.blockno = 8 :=
  ⟨⟨sample_height, sample_rank, by decide⟩, by decide, by decide, by decide, by decide,
    by decide⟩

/-- C16, amended: for every successful search on a well-formed tree that
returns a non-empty stack with head entry `(b, o)`, page `b` is an internal
page, `o` is the offset `_bt_binsrch` returns on it, its child pointer
`children[o]` resolves to a page, and the returned leaf is the page
`_bt_moveright` returns when started on that child: the leaf is reached from
`children[o]` by zero or more right-links. -/
theorem stack_head_reaches_leaf (fuel : Nat) (tree : BTree) (key : BTScanInsert)
    (hwf : well_formed tree) (b o : Nat) (rest : BTStack) (L : BTPage) (off : Nat)
    (h : _bt_search fuel tree key = Except.ok ((b, o) :: rest, L, off)) :
    ∃ p child, get_page tree b = some p ∧ is_leaf p = false ∧ o = _bt_binsrch key p ∧
      get_page tree (p.children.getD o INVALID_BLOCK) = some child ∧
      _bt_moveright fuel tree key child = Except.ok L := by
  obtain ⟨height, rank, hw⟩ := hwf
  obtain ⟨root, ps, hr, hp, hs, _⟩ := search_path fuel tree key _ L off h
  rcases List.eq_nil_or_concat ps with rfl | ⟨init, p, rfl⟩
  · simp at hs
  · rw [List.concat_eq_append] at hp hs
    simp only [List.map_append, List.map_cons, List.map_nil, List.reverse_append,
      List.reverse_cons, List.reverse_nil, List.nil_append, List.cons_append,
      List.cons.injEq, stack_entry, Prod.mk.injEq] at hs
    obtain ⟨⟨hb, ho⟩, _⟩ := hs
    obtain ⟨hl, ⟨start, hst, hm⟩, child, hc, hmc, _⟩ := descent_path_last tree key fuel init root L p hp
    have hstart : ∃ b, get_page tree b = some start := by
      rcases hst with rfl | hx
      · exact ⟨_, hr⟩
      · exact hx
    obtain ⟨b2, hb2⟩ := moveright_result_fetched fuel tree key start p hm hstart
    obtain ⟨hlt, _⟩ := get_page_some tree b2 p hb2
    obtain ⟨hidx, _⟩ := hw.2 b2 hlt p hb2
    refine ⟨p, child, ?_, hl, ho, ?_, hmc⟩
    · rw [hb, hidx]; exact hb2
    · rw [ho]; exact hc

theorem stack_head_reaches_leaf_witness :
    ∃ p child, get_page create_sample_tree 2 = some p ∧ is_leaf p = false ∧
      0 = _bt_binsrch ⟨75, false⟩ p ∧
      get_page create_sample_tree (p.children.getD 0 INVALID_BLOCK) = some child ∧
      _bt_moveright 11 create_sample_tree ⟨75, false⟩ child = Except.ok sample_leaf8 :=
  stack_head_reaches_leaf 11 create_sample_tree ⟨75, false⟩
    ⟨sample_height, sample_rank, by decide⟩ 2 0 [(0, 0)] sample_leaf8 1 (by decide)

/-! ## The boundary case on the sample tree -/

/-- The components of a successful search result: the offset is the one
`_bt_binsrch` computes on the returned page, which is a leaf fetched from the
tree on which the loop of `_bt_moveright` stops. -/
theorem search_result_facts (fuel : Nat) (tree : BTree) (key : BTScanInsert) (stack : BTStack)
    (L : BTPage) (off : Nat) (h : _bt_search fuel tree key = Except.ok (stack, L, off)) :
    off = _bt_binsrch key L ∧ is_leaf L = true ∧ (∃ b, get_page tree b = some L) ∧
      (is_rightmost L = true ∨ moves_right key L = false) := by
  obtain ⟨root, ps, hr, hp, _, ho⟩ := search_path fuel tree key stack L off h
  obtain ⟨hl, start, hst, hm⟩ := descent_path_leaf tree key fuel ps root L hp
  have hstart : ∃ b, get_page tree b = some start := by
    rcases hst with rfl | hx
    · exact ⟨_, hr⟩
    · exact hx
  obtain ⟨n, hn⟩ := (moveright_ok_iff fuel tree key start L).1 hm
  exact ⟨ho, hl, moveright_result_fetched fuel tree key start L hm hstart,
    moveright_loop_stops tree key fuel start 0 L n hn⟩

/-- On the sample tree `_bt_search` returns for every key once the budget is
at least 11. -/
theorem sample_search_returns (key : BTScanInsert) (fuel : Nat) (hf : 11 ≤ fuel) :
    ∃ stack L, _bt_search fuel create_sample_tree key
      = Except.ok (stack, L, _bt_binsrch key L) := by
  have hw : well_formed_with create_sample_tree sample_height sample_rank := by decide
  have hrank : ∀ b < create_sample_tree.num_pages, sample_rank b < fuel := by
    intro b _
    unfold sample_rank
    omega
  obtain ⟨stack, L, e, _, _⟩ := search_loop_terminates create_sample_tree key sample_height
    sample_rank hw fuel hrank fuel sample_root [] (by decide)
    (by have : sample_height sample_root.blockno = 2 := by decide
        omega)
  refine ⟨stack, L, ?_⟩
  unfold _bt_search
  have hroot : get_page create_sample_tree create_sample_tree.root = some sample_root := by
    decide
  rw [hroot]
  exact e

/-- Facts about the leaf level of the sample tree: every leaf is in bounds,
non-empty, ascending, with keys and high key between 0 and 1000. -/
theorem sample_leaf_facts :
    ∀ p ∈ create_sample_tree.pages, is_leaf p = true →
      page_in_bounds p ∧ keys_ascending p ∧ 1 ≤ p.num_keys.toNat ∧
      (0 ≤ p.high_key ∧ p.high_key ≤ 1000) ∧
      ∀ i < p.num_keys.toNat, 0 ≤ p.keys.getD i 0 ∧ p.keys.getD i 0 ≤ 1000 := by
  decide

/-- The rightmost leaf of the sample tree ends with the largest stored key. -/
theorem sample_rightmost_leaf_facts :
    ∀ p ∈ create_sample_tree.pages, is_leaf p = true → is_rightmost p = true →
      ∀ q ∈ create_sample_tree.pages, is_leaf q = true → ∀ i < q.num_keys.toNat,
        q.keys.getD i 0 ≤ p.keys.getD (p.num_keys.toNat - 1) 0 := by
  decide

/-- Every other leaf of the sample tree has a high key, which is stored at
position 0 of its right sibling; every stored key below that high key is at
most the last key of the leaf. -/
theorem sample_inner_leaf_facts :
    ∀ p ∈ create_sample_tree.pages, is_leaf p = true → is_rightmost p = false →
      p.has_high_key = true ∧
      (get_page create_sample_tree p.right_link).isSome = true ∧
      (∀ R ∈ get_page create_sample_tree p.right_link, stored_at R 0 p.high_key) ∧
      ∀ q ∈ create_sample_tree.pages, is_leaf q = true → ∀ i < q.num_keys.toNat,
        q.keys.getD i 0 < p.high_key →
        q.keys.getD i 0 ≤ p.keys.getD (p.num_keys.toNat - 1) 0 := by
  decide

/-- C17: on the sample tree, for every key `K` with `|K| ≤ 2^30`,
`nextkey = false` and every budget of at least 11, `_bt_search` returns a leaf
`L` and an offset such that, if the offset equals `L`'s number of keys, then
every key on `L` is `< K`, and if some leaf of the tree holds a key `≥ K`, then
the page `L`'s right-link points to holds a key `m ≥ K` that is at most every
stored key `≥ K`: the smallest such key. -/
theorem sample_boundary_case (K : Int) (hK : -1073741824 ≤ K ∧ K ≤ 1073741824)
    (fuel : Nat) (hf : 11 ≤ fuel) :
    ∃ stack L off, _bt_search fuel create_sample_tree ⟨K, false⟩ = Except.ok (stack, L, off) ∧
      ((off : Int) = L.num_keys →
        (∀ i : Nat, (i : Int) < L.num_keys → L.keys.getD i 0 < K) ∧
        ((∃ p ∈ create_sample_tree.pages, ∃ i c, stored_at p i c ∧ K ≤ c) →
          ∃ R j m, get_page create_sample_tree L.right_link = some R ∧ stored_at R j m ∧
            K ≤ m ∧
            ∀ p ∈ create_sample_tree.pages, ∀ i c, stored_at p i c → K ≤ c → m ≤ c)) := by
  obtain ⟨stack, L, h⟩ := sample_search_returns ⟨K, false⟩ fuel hf
  refine ⟨stack, L, _, h, ?_⟩
  intro hoff
  obtain ⟨_, hl, ⟨b, hb⟩, hstop⟩ := search_result_facts fuel _ _ stack L _ h
  obtain ⟨_, hmem⟩ := get_page_some _ b L hb
  obtain ⟨hbd, hasc, hne, hhk, hkeys⟩ := sample_leaf_facts L hmem hl
  have h0 : 0 ≤ L.num_keys := hbd.1
  have hov : no_overflow ⟨K, false⟩ L := by
    intro i hi
    have := hkeys i hi
    simp only [int_range]
    omega
  obtain ⟨_, hlo, _⟩ := binsrch_leaf_partition ⟨K, false⟩ L hl hbd
    (probed_of_ascending L hasc) (probe_of_no_overflow _ L hov)
  have hc : cmpval_of ⟨K, false⟩ = 1 := by simp [cmpval_of]
  rw [hc] at hlo
  have hall : ∀ i : Nat, (i : Int) < L.num_keys → L.keys.getD i 0 < K := by
    intro i hi
    have := hlo i (by omega)
    simp only at this
    omega
  have hlast : L.keys.getD (L.num_keys.toNat - 1) 0 < K := hall _ (by omega)
  refine ⟨hall, ?_⟩
  rintro ⟨p, hp, i, c, ⟨hpl, hpi, hpc⟩, hKc⟩
  cases hr : is_rightmost L
  · obtain ⟨hh, hsome, hR, hmin⟩ := sample_inner_leaf_facts L hmem hl hr
    have hmv : moves_right ⟨K, false⟩ L = false := by
      rcases hstop with h1 | h1
      · rw [hr] at h1; exact absurd h1 (by simp)
      · exact h1
    have hKh : K ≤ L.high_key := by
      simp only [moves_right, hh, Bool.true_and, decide_eq_false_iff_not, hc] at hmv
      rw [wrap32_of_int_range _ (by simp only [int_range]; omega)] at hmv
      omega
    obtain ⟨R, hRs⟩ := Option.isSome_iff_exists.1 hsome
    refine ⟨R, 0, L.high_key, hRs, hR R hRs, hKh, ?_⟩
    rintro q hq j d ⟨hql, hqj, hqd⟩ hKd
    by_contra hlt
    have := hmin q hq hql j (by omega) (by omega)
    omega
  · have := sample_rightmost_leaf_facts L hmem hl hr p hp hpl i (by omega)
    omega

theorem sample_boundary_case_witness :
    ∃ stack L off, _bt_search 11 create_sample_tree ⟨20, false⟩ = Except.ok (stack, L, off) ∧
      ((off : Int) = L.num_keys →
        (∀ i : Nat, (i : Int) < L.num_keys → L.keys.getD i 0 < 20) ∧
        ((∃ p ∈ create_sample_tree.pages, ∃ i c, stored_at p i c ∧ 20 ≤ c) →
          ∃ R j m, get_page create_sample_tree L.right_link = some R ∧ stored_at R j m ∧
            20 ≤ m ∧
            ∀ p ∈ create_sample_tree.pages, ∀ i c, stored_at p i c → 20 ≤ c → m ≤ c)) :=
  sample_boundary_case 20 (by decide) 11 (le_refl 11)

/-! ## The page store -/

/-- C18: `get_page` returns no page exactly when `b ≥ num_pages`; otherwise
it returns the page stored at `pages[b]`. (`num_pages` is the number of
entries of the `pages` array.) -/
theorem get_page_resolves (tree : BTree) (b : Nat) :
    (get_page tree b = none ↔ b ≥ tree.num_pages) ∧
    (b < tree.num_pages →
      ∃ page, tree.pages.get? b = some page ∧ get_page tree b = some page) := by
  constructor
  · constructor
    · intro h
      by_contra hlt
      obtain ⟨page, hp⟩ := get_page_of_lt tree b (by omega)
      rw [hp] at h
      exact Option.noConfusion h
    · intro h
      unfold get_page
      rw [if_pos h]
  · intro h
    obtain ⟨page, hp⟩ := get_page_of_lt tree b h
    refine ⟨page, ?_, hp⟩
    unfold get_page at hp
    rw [if_neg (by omega)] at hp
    exact hp

theorem get_page_resolves_witness :
    (get_page create_sample_tree 8 = none ↔ 8 ≥ create_sample_tree.num_pages) ∧
    (8 < create_sample_tree.num_pages →
      ∃ page, create_sample_tree.pages.get? 8 = some page ∧
        get_page create_sample_tree 8 = some page) :=
  get_page_resolves create_sample_tree 8

/-! ## Termination from the measures alone -/

/-- If every right-link the loop follows resolves to a page of smaller rank
and no larger height, the loop of `_bt_moveright` started on a fetched page
with a budget above its rank returns a fetched page of no larger height. -/
theorem moveright_loop_reaches (tree : BTree) (key : BTScanInsert) (height rank : Nat → Nat)
    (hright : ∀ b page, get_page tree b = some page → is_rightmost page = false →
      moves_right key page = true →
      page.right_link < tree.num_pages ∧ height page.right_link ≤ height b ∧
        rank page.right_link < rank b) :
    ∀ (n b : Nat) (page : BTPage) (mc : Nat), get_page tree b = some page → rank b < n →
      ∃ p m b2, _bt_moveright_loop tree key n page mc = Except.ok (p, m) ∧
        get_page tree b2 = some p ∧ height b2 ≤ height b := by
  intro n
  induction n with
  | zero => intro b page mc _ h; omega
  | succ n ih =>
    intro b page mc hin hr
    rw [moveright_loop_succ]
    by_cases h1 : is_rightmost page = true
    · rw [if_pos h1]; exact ⟨page, mc, b, rfl, hin, le_refl _⟩
    · rw [if_neg h1]
      by_cases h2 : moves_right key page = true
      · rw [if_pos h2]
        obtain ⟨r1, r2, r3⟩ := hright b page hin (by simpa using h1) h2
        obtain ⟨next, hnext⟩ := get_page_of_lt tree page.right_link r1
        rw [hnext]
        simp only
        obtain ⟨p, m, b2, e1, e2, e3⟩ := ih page.right_link next (mc + 1) hnext (by omega)
        exact ⟨p, m, b2, e1, e2, by omega⟩
      · rw [if_neg h2]; exact ⟨page, mc, b, rfl, hin, le_refl _⟩

theorem search_loop_reaches (tree : BTree) (key : BTScanInsert) (height rank : Nat → Nat)
    (hright : ∀ b page, get_page tree b = some page → is_rightmost page = false →
      moves_right key page = true →
      page.right_link < tree.num_pages ∧ height page.right_link ≤ height b ∧
        rank page.right_link < rank b)
    (hchild : ∀ b page, get_page tree b = some page → is_leaf page = false →
      page.children.getD (_bt_binsrch key page) INVALID_BLOCK < tree.num_pages ∧
        height (page.children.getD (_bt_binsrch key page) INVALID_BLOCK) < height b)
    (mfuel : Nat) (hrank : ∀ b < tree.num_pages, rank b < mfuel) :
    ∀ (n b : Nat) (page : BTPage) (stack : BTStack), get_page tree b = some page →
      height b < n →
      ∃ stack2 L, _bt_search_loop tree key mfuel n page stack
          = Except.ok (stack2, L, _bt_binsrch key L) ∧ is_leaf L = true := by
  intro n
  induction n with
  | zero => intro b page stack _ h; omega
  | succ n ih =>
    intro b page stack hin hh
    obtain ⟨hb, _⟩ := get_page_some tree _ _ hin
    obtain ⟨p, m, b2, e1, e2, e3⟩ := moveright_loop_reaches tree key height rank hright mfuel b
      page 0 hin (hrank _ hb)
    have hm : _bt_moveright mfuel tree key page = Except.ok p :=
      (moveright_ok_iff mfuel tree key page p).2 ⟨m, e1⟩
    rw [_bt_search_loop, hm]
    simp only
    by_cases hl : is_leaf p = true
    · rw [if_pos hl]; exact ⟨stack, p, rfl, hl⟩
    · rw [if_neg hl]
      obtain ⟨c1, c2⟩ := hchild b2 p e2 (by simpa using hl)
      obtain ⟨child, hchild2⟩ := get_page_of_lt tree _ c1
      rw [hchild2]
      simp only
      exact ih _ child _ hchild2 (by omega)

/-- C20: `_bt_search` terminates on a tree whose links are well founded. If
the root resolves, every right-link the search follows resolves to a page of
smaller rank on a level that is not higher (the chains are acyclic and finite),
and every child pointer the search chooses resolves to a page of strictly
smaller height, then for every budget from some bound on `_bt_search` returns a
leaf with an offset: the descent loop reaches a leaf after finitely many
iterations. -/
theorem search_terminates_of_measures (tree : BTree) (key : BTScanInsert)
    (height rank : Nat → Nat) (hroot : tree.root < tree.num_pages)
    (hright : ∀ b page, get_page tree b = some page → is_rightmost page = false →
      moves_right key page = true →
      page.right_link < tree.num_pages ∧ height page.right_link ≤ height b ∧
        rank page.right_link < rank b)
    (hchild : ∀ b page, get_page tree b = some page → is_leaf page = false →
      page.children.getD (_bt_binsrch key page) INVALID_BLOCK < tree.num_pages ∧
        height (page.children.getD (_bt_binsrch key page) INVALID_BLOCK) < height b) :
    ∃ fuel, ∀ fuel2, fuel ≤ fuel2 → ∃ stack L off,
      _bt_search fuel2 tree key = Except.ok (stack, L, off) ∧ is_leaf L = true := by
  obtain ⟨M, hM⟩ := exists_rank_bound rank tree.num_pages
  obtain ⟨root, hr⟩ := get_page_of_lt tree tree.root hroot
  refine ⟨max M (height tree.root + 1), fun fuel2 hf => ?_⟩
  have hM2 : ∀ b < tree.num_pages, rank b < fuel2 := fun b hb => by
    have := hM b hb; omega
  obtain ⟨stack, L, e1, e2⟩ := search_loop_reaches tree key height rank hright hchild fuel2 hM2
    fuel2 tree.root root [] hr (by omega)
  refine ⟨stack, L, _bt_binsrch key L, ?_, e2⟩
  unfold _bt_search
  rw [hr]
  exact e1

theorem search_terminates_of_measures_witness :
    ∃ fuel, ∀ fuel2, fuel ≤ fuel2 → ∃ stack L off,
      _bt_search fuel2 create_sample_tree ⟨75, false⟩ = Except.ok (stack, L, off) ∧
        is_leaf L = true :=
  search_terminates_of_measures create_sample_tree ⟨75, false⟩ sample_height sample_rank
    (by decide)
    (fun b page hg =>
      (by decide : ∀ b < create_sample_tree.num_pages, ∀ page ∈ get_page create_sample_tree b,
        is_rightmost page = false → moves_right ⟨75, false⟩ page = true →
        page.right_link < create_sample_tree.num_pages ∧
          sample_height page.right_link ≤ sample_height b ∧
          sample_rank page.right_link < sample_rank b)
        b (get_page_some create_sample_tree b page hg).1 page hg)
    (fun b page hg =>
      (by decide : ∀ b < create_sample_tree.num_pages, ∀ page ∈ get_page create_sample_tree b,
        is_leaf page = false →
        page.children.getD (_bt_binsrch ⟨75, false⟩ page) INVALID_BLOCK
            < create_sample_tree.num_pages ∧
          sample_height (page.children.getD (_bt_binsrch ⟨75, false⟩ page) INVALID_BLOCK)
            < sample_height b)
        b (get_page_some create_sample_tree b page hg).1 page hg)

/-! ## Unresolved block numbers -/

theorem moveright_fetches_succ (tree : BTree) (key : BTScanInsert) (fuel : Nat) (page : BTPage) :
    moveright_fetches tree key (fuel + 1) page =
      if is_rightmost page then []
      else if moves_right key page then
        page.right_link ::
          (match get_page tree page.right_link with
          | none => []
          | some next => moveright_fetches tree key fuel next)
      else [] := by
  rw [moveright_fetches]

/-- When the loop of `_bt_moveright` returns a page, every right-link it
followed resolved. -/
theorem moveright_loop_ok_fetches (tree : BTree) (key : BTScanInsert) :
    ∀ (fuel : Nat) (page : BTPage) (mc : Nat) (r : BTPage × Nat),
      _bt_moveright_loop tree key fuel page mc = Except.ok r →
      ∀ b ∈ moveright_fetches tree key fuel page, (get_page tree b).isSome = true := by
  intro fuel
  induction fuel with
  | zero => intro page mc r h; simp [_bt_moveright_loop] at h
  | succ f ih =>
    intro page mc r h b hb
    rw [moveright_loop_succ] at h
    rw [moveright_fetches_succ] at hb
    split_ifs at h hb with h1 h2
    · simp at hb
    · cases hg : get_page tree page.right_link with
      | none => rw [hg] at h; simp at h
      | some next =>
        rw [hg] at h hb
        simp only [List.mem_cons] at hb
        rcases hb with rfl | hb
        · rw [hg]; rfl
        · exact ih next (mc + 1) r h b hb
    · simp at hb

/-- When the loop of `_bt_moveright` ends on a `NULL` page, a right-link it
followed did not resolve. -/
theorem moveright_loop_null_fetches (tree : BTree) (key : BTScanInsert) :
    ∀ (fuel : Nat) (page : BTPage) (mc : Nat),
      _bt_moveright_loop tree key fuel page mc = Except.error SearchError.null_page →
      ∃ b ∈ moveright_fetches tree key fuel page, get_page tree b = none := by
  intro fuel
  induction fuel with
  | zero => intro page mc h; simp [_bt_moveright_loop] at h
  | succ f ih =>
    intro page mc h
    rw [moveright_loop_succ] at h
    rw [moveright_fetches_succ]
    split_ifs at h ⊢ with h1 h2
    · cases hg : get_page tree page.right_link with
      | none => exact ⟨page.right_link, by simp, hg⟩
      | some next =>
        rw [hg] at h
        obtain ⟨b, hb, hn⟩ := ih next (mc + 1) h
        exact ⟨b, by simp [hb], hn⟩

theorem moveright_error_iff (fuel : Nat) (tree : BTree) (key : BTScanInsert) (page : BTPage)
    (e : SearchError) :
    _bt_moveright fuel tree key page = Except.error e ↔
      _bt_moveright_loop tree key fuel page 0 = Except.error e := by
  unfold _bt_moveright
  cases h : _bt_moveright_loop tree key fuel page 0 with
  | error e2 => simp
  | ok r => simp

theorem search_loop_ok_fetches (tree : BTree) (key : BTScanInsert) (mfuel : Nat) :
    ∀ (fuel : Nat) (page : BTPage) (stack : BTStack) (r : BTStack × BTPage × Nat),
      _bt_search_loop tree key mfuel fuel page stack = Except.ok r →
      ∀ b ∈ search_loop_fetches tree key mfuel fuel page, (get_page tree b).isSome = true := by
  intro fuel
  induction fuel with
  | zero => intro page stack r h; simp [_bt_search_loop] at h
  | succ f ih =>
    intro page stack r h b hb
    rw [_bt_search_loop] at h
    rw [search_loop_fetches] at hb
    cases hm : _bt_moveright mfuel tree key page with
    | error e => rw [hm] at h; simp at h
    | ok p =>
      rw [hm] at h hb
      simp only at h hb
      obtain ⟨n, hn⟩ := (moveright_ok_iff mfuel tree key page p).1 hm
      have hmf := moveright_loop_ok_fetches tree key mfuel page 0 _ hn
      rw [List.mem_append] at hb
      rcases hb with hb | hb
      · exact hmf b hb
      · split_ifs at h hb with hl
        · simp at hb
        · cases hg : get_page tree (p.children.getD (_bt_binsrch key p) INVALID_BLOCK) with
          | none => rw [hg] at h; simp at h
          | some child =>
            rw [hg] at h hb
            simp only [List.mem_cons] at hb
            rcases hb with rfl | hb
            · rw [hg]; rfl
            · exact ih child _ r h b hb

theorem search_loop_null_fetches (tree : BTree) (key : BTScanInsert) (mfuel : Nat) :
    ∀ (fuel : Nat) (page : BTPage) (stack : BTStack),
      _bt_search_loop tree key mfuel fuel page stack = Except.error SearchError.null_page →
      ∃ b ∈ search_loop_fetches tree key mfuel fuel page, get_page tree b = none := by
  intro fuel
  induction fuel with
  | zero => intro page stack h; simp [_bt_search_loop] at h
  | succ f ih =>
    intro page stack h
    rw [_bt_search_loop] at h
    rw [search_loop_fetches]
    cases hm : _bt_moveright mfuel tree key page with
    | error e =>
      rw [hm] at h
      simp only [Except.error.injEq] at h
      subst h
      obtain ⟨b, hb, hn⟩ := moveright_loop_null_fetches tree key mfuel page 0
        ((moveright_error_iff mfuel tree key page _).1 hm)
      exact ⟨b, by simp [hb], hn⟩
    | ok p =>
      rw [hm] at h
      simp only at h ⊢
      split_ifs at h ⊢ with hl
      · cases hg : get_page tree (p.children.getD (_bt_binsrch key p) INVALID_BLOCK) with
        | none => exact ⟨_, by simp, hg⟩
        | some child =>
          rw [hg] at h
          obtain ⟨b, hb, hn⟩ := ih child _ h
          exact ⟨b, by simp [hb], hn⟩

theorem search_ok_fetches (fuel : Nat) (tree : BTree) (key : BTScanInsert)
    (r : BTStack × BTPage × Nat) (h : _bt_search fuel tree key = Except.ok r) :
    ∀ b ∈ search_fetches fuel tree key, (get_page tree b).isSome = true := by
  intro b hb
  unfold _bt_search at h
  unfold search_fetches at hb
  cases hg : get_page tree tree.root with
  | none => rw [hg] at h; simp at h
  | some root =>
    rw [hg] at h hb
    simp only [List.mem_cons] at hb
    rcases hb with rfl | hb
    · rw [hg]; rfl
    · exact search_loop_ok_fetches tree key fuel fuel root [] r h b hb

theorem search_null_fetches (fuel : Nat) (tree : BTree) (key : BTScanInsert)
    (h : _bt_search fuel tree key = Except.error SearchError.null_page) :
    ∃ b ∈ search_fetches fuel tree key, get_page tree b = none := by
  unfold _bt_search at h
  unfold search_fetches
  cases hg : get_page tree tree.root with
  | none => exact ⟨tree.root, by simp, hg⟩
  | some root =>
    rw [hg] at h
    obtain ⟨b, hb, hn⟩ := search_loop_null_fetches tree key fuel fuel root [] h
    exact ⟨b, by simp [hb], hn⟩

/-- C19, as stated, fails: on the tree whose root is an internal page with
child pointers `0xFFFFFFFF`, the root resolves, the chosen child pointer does
not, and the run of `_bt_search` ends in `null_page`: the program dereferences
the `NULL` pointer `get_page` returned; it neither returns a leaf nor hands a
failure value to its caller. -/
theorem search_failure_counterexample :
    get_page dangling_tree dangling_tree.root = some dangling_root ∧
    is_leaf dangling_root = false ∧
    get_page dangling_tree
      (dangling_root.children.getD (_bt_binsrch ⟨1, false⟩ dangling_root) INVALID_BLOCK) = none ∧
    (∀ fuel, 2 ≤ fuel →
      _bt_search fuel dangling_tree ⟨1, false⟩ = Except.error SearchError.null_page) := by
  refine ⟨by decide, by decide, by decide, ?_⟩
  intro fuel hf
  exact search_fuel_mono dangling_tree ⟨1, false⟩ 2 _ (by decide) (by simp) fuel hf

/-- C19, amended: for every tree and key on which `_bt_search` terminates
(the run does not exhaust its budget), it returns a leaf page together with the
offset of `_bt_binsrch` on it exactly when every block number it passes to
`get_page` (the root, each right-link followed, each chosen child pointer)
resolves; and it ends by dereferencing a `NULL` page pointer, without result,
exactly when one of these block numbers does not resolve. -/
theorem search_result_or_null (fuel : Nat) (tree : BTree) (key : BTScanInsert)
    (hterm : _bt_search fuel tree key ≠ Except.error SearchError.out_of_fuel) :
    ((∃ stack L off, _bt_search fuel tree key = Except.ok (stack, L, off) ∧
        is_leaf L = true ∧ off = _bt_binsrch key L) ↔
      ∀ b ∈ search_fetches fuel tree key, (get_page tree b).isSome = true) ∧
    (_bt_search fuel tree key = Except.error SearchError.null_page ↔
      ∃ b ∈ search_fetches fuel tree key, get_page tree b = none) := by
  cases hres : _bt_search fuel tree key with
  | error e =>
    have he : e = SearchError.null_page := by
      cases e with
      | null_page => rfl
      | out_of_fuel => exact absurd hres hterm
    subst he
    obtain ⟨b, hb, hn⟩ := search_null_fetches fuel tree key hres
    constructor
    · constructor
      · rintro ⟨_, _, _, h, _⟩
        exact Except.noConfusion h
      · intro hall
        have := hall b hb
        rw [hn] at this
        exact absurd this (by simp)
    · exact ⟨fun _ => ⟨b, hb, hn⟩, fun _ => rfl⟩
  | ok r =>
    obtain ⟨stack, L, off⟩ := r
    have hall := search_ok_fetches fuel tree key _ hres
    obtain ⟨ho, hl, _, _⟩ := search_result_facts fuel tree key stack L off hres
    constructor
    · exact ⟨fun _ => hall, fun _ => ⟨stack, L, off, rfl, hl, ho⟩⟩
    · constructor
      · intro h
        exact Except.noConfusion h
      · rintro ⟨b, hb, hn⟩
        have := hall b hb
        rw [hn] at this
        exact absurd this (by simp)

theorem search_result_or_null_witness :
    ((∃ stack L off, _bt_search 11 create_sample_tree ⟨75, false⟩ = Except.ok (stack, L, off) ∧
        is_leaf L = true ∧ off = _bt_binsrch ⟨75, false⟩ L) ↔
      ∀ b ∈ search_fetches 11 create_sample_tree ⟨75, false⟩,
        (get_page create_sample_tree b).isSome = true) ∧
    (_bt_search 11 create_sample_tree ⟨75, false⟩ = Except.error SearchError.null_page ↔
      ∃ b ∈ search_fetches 11 create_sample_tree ⟨75, false⟩,
        get_page create_sample_tree b = none) :=
  search_result_or_null 11 create_sample_tree ⟨75, false⟩ (by decide)

/-! ## Right-link chains -/

theorem moveright_loop_on_chain (tree : BTree) (key : BTScanInsert) :
    ∀ (chain : List BTPage) (page : BTPage) (fuel mc : Nat),
      is_right_chain tree page chain → chain.length < fuel →
      ∃ p n, _bt_moveright_loop tree key fuel page mc = Except.ok (p, n) ∧
        n ≤ mc + chain.length := by
  intro chain
  induction chain with
  | nil =>
    intro page fuel mc hc hf
    simp only [is_right_chain] at hc
    obtain ⟨f, rfl⟩ : ∃ f, fuel = f + 1 := ⟨fuel - 1, by simp at hf; omega⟩
    rw [moveright_loop_succ, if_pos hc]
    exact ⟨page, mc, rfl, by simp⟩
  | cons q rest ih =>
    intro page fuel mc hc hf
    simp only [is_right_chain] at hc
    obtain ⟨h1, h2, h3⟩ := hc
    simp only [List.length_cons] at hf
    obtain ⟨f, rfl⟩ : ∃ f, fuel = f + 1 := ⟨fuel - 1, by omega⟩
    rw [moveright_loop_succ]
    simp only [h1, Bool.false_eq_true, if_false]
    split_ifs with hm
    · rw [h2]
      simp only
      obtain ⟨p, n, e, hn⟩ := ih q f (mc + 1) h3 (by omega)
      exact ⟨p, n, e, by simp only [List.length_cons]; omega⟩
    · exact ⟨page, mc, rfl, by omega⟩

/-- C21: if the right-link chain starting at the input page is finite and
ends at a rightmost page (`chain` lists the pages after the input page), then
`_bt_moveright` returns a page for every budget above the length of the chain,
and `move_count`, the number of right-links followed, is at most the number of
right-links of the chain. -/
theorem moveright_terminates_on_chain (tree : BTree) (key : BTScanInsert) (page : BTPage)
    (chain : List BTPage) (hc : is_right_chain tree page chain) (fuel : Nat)
    (hf : chain.length < fuel) :
    ∃ p n, _bt_moveright fuel tree key page = Except.ok p ∧
      _bt_moveright_loop tree key fuel page 0 = Except.ok (p, n) ∧ n ≤ chain.length := by
  obtain ⟨p, n, e, hn⟩ := moveright_loop_on_chain tree key chain page fuel 0 hc hf
  exact ⟨p, n, (moveright_ok_iff fuel tree key page p).2 ⟨n, e⟩, e, by omega⟩

theorem moveright_terminates_on_chain_witness :
    is_right_chain create_sample_tree sample_leaf8 [sample_leaf9, sample_leaf10] ∧
    ∃ p n, _bt_moveright 3 create_sample_tree ⟨200, false⟩ sample_leaf8 = Except.ok p ∧
      _bt_moveright_loop create_sample_tree ⟨200, false⟩ 3 sample_leaf8 0 = Except.ok (p, n) ∧
      n ≤ [sample_leaf9, sample_leaf10].length :=
  ⟨by simp only [is_right_chain]; decide,
    moveright_terminates_on_chain create_sample_tree ⟨200, false⟩ sample_leaf8
      [sample_leaf9, sample_leaf10] (by simp only [is_right_chain]; decide) 3 (by decide)⟩

/-- C22: on a rightmost page (`right_link = INVALID_BLOCK`), with or without
a high key, for every search key and either `nextkey` value, `_bt_moveright`
returns that same page with `move_count = 0`, and passes no block number to
`get_page`. -/
theorem moveright_rightmost (tree : BTree) (key : BTScanInsert) (page : BTPage)
    (hr : page.right_link = INVALID_BLOCK) (fuel : Nat) :
    _bt_moveright (fuel + 1) tree key page = Except.ok page ∧
    _bt_moveright_loop tree key (fuel + 1) page 0 = Except.ok (page, 0) ∧
    moveright_fetches tree key (fuel + 1) page = [] := by
  have h1 : is_rightmost page = true := by simp [is_rightmost, hr]
  have hl : _bt_moveright_loop tree key (fuel + 1) page 0 = Except.ok (page, 0) := by
    rw [moveright_loop_succ, if_pos h1]
  refine ⟨(moveright_ok_iff _ tree key page page).2 ⟨0, hl⟩, hl, ?_⟩
  rw [moveright_fetches_succ, if_pos h1]

theorem moveright_rightmost_witness :
    _bt_moveright (0 + 1) create_sample_tree ⟨500, true⟩ sample_leaf10 = Except.ok sample_leaf10 ∧
    _bt_moveright_loop create_sample_tree ⟨500, true⟩ (0 + 1) sample_leaf10 0
      = Except.ok (sample_leaf10, 0) ∧
    moveright_fetches create_sample_tree ⟨500, true⟩ (0 + 1) sample_leaf10 = [] :=
  moveright_rightmost create_sample_tree ⟨500, true⟩ sample_leaf10 (by decide) 0

/-! ## The five searches of `main` -/

/-- C23: on the sample tree, `_bt_search` for key 75 with `nextkey = false`
returns, for every budget of at least 3, the leaf of block 8, whose keys are
`[70, 75, 80]`, and offset 1, the position of 75. -/
theorem search_sample_75 (fuel : Nat) :
    _bt_search (fuel + 3) create_sample_tree ⟨75, false⟩
      = Except.ok ([(2, 0), (0, 0)], sample_leaf8, 1) ∧
    get_page create_sample_tree 8 = some sample_leaf8 ∧ is_leaf sample_leaf8 = true ∧
    sample_leaf8.num_keys = 3 ∧ sample_leaf8.keys.take 3 = [70, 75, 80] ∧
    sample_leaf8.keys.getD 1 0 = 75 := by
  refine ⟨?_, by decide⟩
  exact search_fuel_mono create_sample_tree ⟨75, false⟩ 3 _ (by decide) (by simp) (fuel + 3)
    (by omega)

/-- C24: on the sample tree, `_bt_search` for key 72 with `nextkey = false`
returns, for every budget of at least 3, the leaf of block 8, whose keys are
`[70, 75, 80]`, and offset 1, the position of 75, the first key `≥ 72`. -/
theorem search_sample_72 (fuel : Nat) :
    _bt_search (fuel + 3) create_sample_tree ⟨72, false⟩
      = Except.ok ([(2, 0), (0, 0)], sample_leaf8, 1) ∧
    get_page create_sample_tree 8 = some sample_leaf8 ∧ is_leaf sample_leaf8 = true ∧
    sample_leaf8.num_keys = 3 ∧ sample_leaf8.keys.take 3 = [70, 75, 80] ∧
    sample_leaf8.keys.getD 1 0 = 75 ∧ sample_leaf8.keys.getD 0 0 < 72 ∧
    (72 : Int) ≤ sample_leaf8.keys.getD 1 0 := by
  refine ⟨?_, by decide⟩
  exact search_fuel_mono create_sample_tree ⟨72, false⟩ 3 _ (by decide) (by simp) (fuel + 3)
    (by omega)

/-- C25: on the sample tree, `_bt_search` for key 70 with `nextkey = true`
returns, for every budget of at least 3, the leaf of block 8, whose keys are
`[70, 75, 80]`, and offset 1, the position of 75, the first key `> 70`. -/
theorem search_sample_70_nextkey (fuel : Nat) :
    _bt_search (fuel + 3) create_sample_tree ⟨70, true⟩
      = Except.ok ([(2, 0), (0, 0)], sample_leaf8, 1) ∧
    get_page create_sample_tree 8 = some sample_leaf8 ∧ is_leaf sample_leaf8 = true ∧
    sample_leaf8.num_keys = 3 ∧ sample_leaf8.keys.take 3 = [70, 75, 80] ∧
    sample_leaf8.keys.getD 1 0 = 75 ∧ sample_leaf8.keys.getD 0 0 ≤ 70 ∧
    (70 : Int) < sample_leaf8.keys.getD 1 0 := by
  refine ⟨?_, by decide⟩
  exact search_fuel_mono create_sample_tree ⟨70, true⟩ 3 _ (by decide) (by simp) (fuel + 3)
    (by omega)

/-- C26: on the sample tree, `_bt_search` for key 5 with `nextkey = false`
returns, for every budget of at least 3, the leaf of block 4, whose keys are
`[5, 10, 15]`, and offset 0, the position of 5, the minimum key. -/
theorem search_sample_5 (fuel : Nat) :
    _bt_search (fuel + 3) create_sample_tree ⟨5, false⟩
      = Except.ok ([(1, 0), (0, 0)], sample_leaf4, 0) ∧
    get_page create_sample_tree 4 = some sample_leaf4 ∧ is_leaf sample_leaf4 = true ∧
    sample_leaf4.num_keys = 3 ∧ sample_leaf4.keys.take 3 = [5, 10, 15] ∧
    sample_leaf4.keys.getD 0 0 = 5 ∧ (∀ k ∈ sample_leaf_keys, (5 : Int) ≤ k) := by
  refine ⟨?_, by decide⟩
  exact search_fuel_mono create_sample_tree ⟨5, false⟩ 3 _ (by decide) (by simp) (fuel + 3)
    (by omega)

/-- C27: on the sample tree, `_bt_search` for key 115 with `nextkey = false`
returns, for every budget of at least 3, the leaf of block 10, whose keys are
`[100, 110, 115]`, and offset 2, the position of 115, the maximum key. -/
theorem search_sample_115 (fuel : Nat) :
    _bt_search (fuel + 3) create_sample_tree ⟨115, false⟩
      = Except.ok ([(3, 0), (0, 1)], sample_leaf10, 2) ∧
    get_page create_sample_tree 10 = some sample_leaf10 ∧ is_leaf sample_leaf10 = true ∧
    sample_leaf10.num_keys = 3 ∧ sample_leaf10.keys.take 3 = [100, 110, 115] ∧
    sample_leaf10.keys.getD 2 0 = 115 ∧ (∀ k ∈ sample_leaf_keys, k ≤ (115 : Int)) := by
  refine ⟨?_, by decide⟩
  exact search_fuel_mono create_sample_tree ⟨115, false⟩ 3 _ (by decide) (by simp) (fuel + 3)
    (by omega)

/-! ## Characterisation of `_bt_moveright` -/

/-- A successful run of the loop of `_bt_moveright` passes over a list of
pages whose length is the increase of `move_count`. -/
theorem moveright_loop_passes (tree : BTree) (key : BTScanInsert) :
    ∀ (fuel : Nat) (page : BTPage) (mc : Nat) (p : BTPage) (n : Nat),
      _bt_moveright_loop tree key fuel page mc = Except.ok (p, n) →
      ∃ passed, passes_over tree key page passed p ∧ n = mc + passed.length := by
  intro fuel
  induction fuel with
  | zero => intro page mc p n h; simp [_bt_moveright_loop] at h
  | succ f ih =>
    intro page mc p n h
    rw [moveright_loop_succ] at h
    split_ifs at h with h1 h2
    · simp only [Except.ok.injEq, Prod.mk.injEq] at h
      exact ⟨[], by simp [passes_over, h.1], by simp [h.2]⟩
    · cases hg : get_page tree page.right_link with
      | none => rw [hg] at h; simp at h
      | some next =>
        rw [hg] at h
        obtain ⟨passed, hp, hn⟩ := ih next (mc + 1) p n h
        simp only [moves_right, Bool.and_eq_true, decide_eq_true_eq] at h2
        refine ⟨page :: passed, ?_, by simp only [List.length_cons]; omega⟩
        simp only [passes_over, true_and]
        exact ⟨by simpa using h1, h2.1, h2.2, next, hg, hp⟩
    · simp only [Except.ok.injEq, Prod.mk.injEq] at h
      exact ⟨[], by simp [passes_over, h.1], by simp [h.2]⟩

/-- C28: whenever `_bt_moveright` returns a page `p`, there is a list of pages
passed over, starting with the input page and linked by right-links up to `p`,
such that every page passed over is not rightmost, has a high key and
satisfies `K - high_key ≥ cmpval` (the `int` subtraction the program computes;
`cmpval = 1` for `nextkey = false`, `0` for `nextkey = true`), while `p` is
rightmost, or has no high key, or satisfies `K - high_key < cmpval`: `p` is the
first such page of the chain. The number of pages passed over is `move_count`. -/
theorem moveright_characterisation (fuel : Nat) (tree : BTree) (key : BTScanInsert)
    (page p : BTPage) (h : _bt_moveright fuel tree key page = Except.ok p) :
    ∃ passed, passes_over tree key page passed p ∧
      (is_rightmost p = true ∨ p.has_high_key = false ∨
        wrap32 (key.scankey - p.high_key) < cmpval_of key) ∧
      cmpval_of key = (if key.nextkey then 0 else 1) ∧
      _bt_moveright_loop tree key fuel page 0 = Except.ok (p, passed.length) := by
  obtain ⟨n, hn⟩ := (moveright_ok_iff fuel tree key page p).1 h
  obtain ⟨passed, hp, hlen⟩ := moveright_loop_passes tree key fuel page 0 p n hn
  have hstop := moveright_loop_stops tree key fuel page 0 p n hn
  refine ⟨passed, hp, ?_, rfl, ?_⟩
  · rcases hstop with h1 | h1
    · exact Or.inl h1
    · right
      simp only [moves_right, Bool.and_eq_false_iff, decide_eq_false_iff_not] at h1
      rcases h1 with h1 | h1
      · exact Or.inl h1
      · exact Or.inr (by omega)
  · rw [hn, hlen]; simp

theorem moveright_characterisation_witness :
    ∃ passed, passes_over create_sample_tree ⟨75, false⟩ sample_leaf7 passed sample_leaf8 ∧
      (is_rightmost sample_leaf8 = true ∨ sample_leaf8.has_high_key = false ∨
        wrap32 ((⟨75, false⟩ : BTScanInsert).scankey - sample_leaf8.high_key)
          < cmpval_of ⟨75, false⟩) ∧
      cmpval_of ⟨75, false⟩ = (if (⟨75, false⟩ : BTScanInsert).nextkey then 0 else 1) ∧
      _bt_moveright_loop create_sample_tree ⟨75, false⟩ 11 sample_leaf7 0
        = Except.ok (sample_leaf8, passed.length) :=
  moveright_characterisation 11 create_sample_tree ⟨75, false⟩ sample_leaf7 sample_leaf8
    (by decide)

/-! ## Probes of the bisect loop -/

/-- The result of `_bt_compare` depends on the key array only through the
index given by `compare_reads`. -/
theorem compare_depends_on_read (key : BTScanInsert) (page : BTPage) (offnum : Nat)
    (ks : List Int)
    (h : ∀ i, compare_reads page offnum = some i → ks.getD i 0 = page.keys.getD i 0) :
    _bt_compare key { page with keys := ks } offnum = _bt_compare key page offnum := by
  have hl : is_leaf { page with keys := ks } = is_leaf page := rfl
  unfold _bt_compare
  unfold compare_reads at h
  simp only [hl]
  split_ifs at h ⊢ with h1 h2
  · rfl
  · rfl
  · simp only [h offnum rfl]

theorem binsrch_iterate_bounds (key : BTScanInsert) (page : BTPage) :
    ∀ (k : Nat) (s : Nat × Nat), s.1 ≤ s.2 → s.2 ≤ 65535 →
      s.1 ≤ (binsrch_iterate key page k s).1 ∧
      (binsrch_iterate key page k s).1 ≤ (binsrch_iterate key page k s).2 ∧
      (binsrch_iterate key page k s).2 ≤ s.2 := by
  intro k
  induction k with
  | zero => intro s h1 _; exact ⟨le_refl _, h1, le_refl _⟩
  | succ k ih =>
    intro s h1 h2
    rw [binsrch_iterate]
    split_ifs with hlt
    · obtain ⟨b1, b2, b3, _⟩ := binsrch_step_bounds key page s.1 s.2 hlt h2
      obtain ⟨i1, i2, i3⟩ := ih (binsrch_step key page s.1 s.2) b2 (by omega)
      exact ⟨by omega, i2, by omega⟩
    · exact ⟨le_refl _, h1, le_refl _⟩

/-- C29: on a page with `0 ≤ num_keys ≤ MAX_KEYS_PER_PAGE` (and a key array of
`MAX_KEYS_PER_PAGE` slots), `high` starts at `num_keys + 1` without wrapping,
and in every state `(low, high)` the bisect loop of `_bt_binsrch` reaches,
`low ≤ high ≤ num_keys + 1`; when the loop runs another iteration its probe
`mid = low + (high - low) / 2` does not wrap, satisfies `0 ≤ mid ≤ num_keys`,
is out of range only when `mid = num_keys`, `mid + 1` does not wrap either, and
the index of `keys[]` that `_bt_compare` reads for it, if any, is below
`num_keys` and inside the array. -/
theorem binsrch_probes_in_bounds (key : BTScanInsert) (page : BTPage)
    (h0 : 0 ≤ page.num_keys) (h7 : page.num_keys ≤ MAX_KEYS_PER_PAGE)
    (hlen : page.keys.length = MAX_KEYS_PER_PAGE) (k low high : Nat)
    (hs : binsrch_iterate key page k (binsrch_init page) = (low, high)) :
    (int_to_u16 page.num_keys : Int) = page.num_keys ∧
    ((binsrch_init page).2 : Int) = page.num_keys + 1 ∧
    low ≤ high ∧ (high : Int) ≤ page.num_keys + 1 ∧
    (low < high →
      binsrch_mid low high = low + (high - low) / 2 ∧
      (0 : Int) ≤ binsrch_mid low high ∧ (binsrch_mid low high : Int) ≤ page.num_keys ∧
      ((binsrch_mid low high : Int) ≥ page.num_keys →
        (binsrch_mid low high : Int) = page.num_keys) ∧
      binsrch_mid low high + 1 < 65536 ∧
      ∀ idx, compare_reads page (binsrch_mid low high) = some idx →
        (idx : Int) < page.num_keys ∧ idx < page.keys.length) := by
  obtain ⟨h1, h2⟩ := int_to_u16_of_bounds page ⟨h0, h7⟩
  have hinit : binsrch_init page = (0, page.num_keys.toNat + 1) := by
    unfold binsrch_init
    rw [h1]
    unfold u16
    congr 1
    omega
  obtain ⟨_, b2, b3⟩ := binsrch_iterate_bounds key page k (binsrch_init page)
    (by rw [hinit]; simp) (by rw [hinit]; simp; omega)
  rw [hs] at b2 b3
  rw [hinit] at b3
  simp only at b2 b3
  refine ⟨by rw [h1]; omega, by rw [hinit]; simp; omega, b2, by omega, ?_⟩
  intro hlt
  obtain ⟨m1, m2, m3⟩ := binsrch_mid_bounds low high hlt (by omega)
  refine ⟨m1, by omega, by omega, fun _ => by omega, by omega, ?_⟩
  intro idx hidx
  unfold compare_reads at hidx
  split_ifs at hidx with c1 c2
  simp only [Option.some.injEq] at hidx
  subst hidx
  rw [hlen]
  simp only [MAX_KEYS_PER_PAGE] at h7 ⊢
  omega

theorem binsrch_probes_in_bounds_witness :
    binsrch_iterate ⟨75, false⟩ sample_leaf8 1 (binsrch_init sample_leaf8) = (0, 2) ∧
    ((int_to_u16 sample_leaf8.num_keys : Int) = sample_leaf8.num_keys ∧
    ((binsrch_init sample_leaf8).2 : Int) = sample_leaf8.num_keys + 1 ∧
    0 ≤ 2 ∧ ((2 : Nat) : Int) ≤ sample_leaf8.num_keys + 1 ∧
    (0 < 2 →
      binsrch_mid 0 2 = 0 + (2 - 0) / 2 ∧
      (0 : Int) ≤ binsrch_mid 0 2 ∧ (binsrch_mid 0 2 : Int) ≤ sample_leaf8.num_keys ∧
      ((binsrch_mid 0 2 : Int) ≥ sample_leaf8.num_keys →
        (binsrch_mid 0 2 : Int) = sample_leaf8.num_keys) ∧
      binsrch_mid 0 2 + 1 < 65536 ∧
      ∀ idx, compare_reads sample_leaf8 (binsrch_mid 0 2) = some idx →
        (idx : Int) < sample_leaf8.num_keys ∧ idx < sample_leaf8.keys.length)) :=
  ⟨by decide, binsrch_probes_in_bounds ⟨75, false⟩ sample_leaf8 (by decide) (by decide)
    (by decide) 1 0 2 (by decide)⟩

/-! ## The search depends on the key only through its probes -/

theorem compare_probe_iff (key : BTScanInsert) (page : BTPage) (offnum : Nat) :
    _bt_compare key page offnum ≥ cmpval_of key ↔
      (is_leaf page = false ∧ offnum = 0) ∨
      ((is_leaf page = true ∨ offnum ≠ 0) ∧ offnum < page.num_keys.toNat ∧
        probe key (page.keys.getD offnum 0) = true) := by
  have hc := cmpval_of_cases key
  by_cases h : is_leaf page = true ∨ offnum ≠ 0
  · have hn : ¬ (is_leaf page = false ∧ offnum = 0) := by
      rintro ⟨h1, h2⟩
      rcases h with h | h
      · rw [h1] at h; exact absurd h (by simp)
      · exact h h2
    by_cases hoff : (offnum : Int) ≥ page.num_keys
    · rw [compare_out_of_range key page offnum hoff h]
      constructor
      · intro hx; omega
      · rintro (hx | ⟨_, hx, _⟩)
        · exact absurd hx hn
        · omega
    · rw [compare_in_range key page offnum (by omega) h]
      simp only [probe, decide_eq_true_eq]
      constructor
      · intro hx; exact Or.inr ⟨h, by omega, hx⟩
      · rintro (hx | ⟨_, _, hx⟩)
        · exact absurd hx hn
        · exact hx
  · have hl : is_leaf page = false := by
      cases hx : is_leaf page
      · rfl
      · exact absurd (Or.inl hx) h
    have h0 : offnum = 0 := by
      by_contra hne
      exact h (Or.inr hne)
    subst h0
    rw [compare_internal_zero key page hl]
    constructor
    · intro _; exact Or.inl ⟨hl, rfl⟩
    · intro _; omega

theorem compare_probe_congr (key1 key2 : BTScanInsert) (page : BTPage)
    (h : same_probes key1 key2 page) (offnum : Nat) :
    _bt_compare key1 page offnum ≥ cmpval_of key1 ↔
      _bt_compare key2 page offnum ≥ cmpval_of key2 := by
  rw [compare_probe_iff, compare_probe_iff]
  constructor
  · rintro (hx | ⟨h1, h2, h3⟩)
    · exact Or.inl hx
    · exact Or.inr ⟨h1, h2, by rw [← h.1 offnum h2]; exact h3⟩
  · rintro (hx | ⟨h1, h2, h3⟩)
    · exact Or.inl hx
    · exact Or.inr ⟨h1, h2, by rw [h.1 offnum h2]; exact h3⟩

theorem binsrch_step_congr (key1 key2 : BTScanInsert) (page : BTPage)
    (h : same_probes key1 key2 page) (low high : Nat) :
    binsrch_step key1 page low high = binsrch_step key2 page low high := by
  have hc := compare_probe_congr key1 key2 page h (binsrch_mid low high)
  unfold binsrch_step
  simp only
  by_cases hx : _bt_compare key1 page (binsrch_mid low high) ≥ cmpval_of key1
  · rw [if_pos hx, if_pos (hc.1 hx)]
  · rw [if_neg hx, if_neg (fun hy => hx (hc.2 hy))]

theorem binsrch_loop_congr (key1 key2 : BTScanInsert) (page : BTPage)
    (h : same_probes key1 key2 page) :
    ∀ (fuel low high : Nat),
      binsrch_loop key1 page fuel low high = binsrch_loop key2 page fuel low high := by
  intro fuel
  induction fuel with
  | zero => intro low high; rfl
  | succ f ih =>
    intro low high
    rw [binsrch_loop, binsrch_loop, binsrch_step_congr key1 key2 page h]
    split_ifs
    · exact ih _ _
    · rfl

/-- Keys with the same probes on a page get the same offset from `_bt_binsrch`. -/
theorem binsrch_congr (key1 key2 : BTScanInsert) (page : BTPage)
    (h : same_probes key1 key2 page) : _bt_binsrch key1 page = _bt_binsrch key2 page := by
  unfold _bt_binsrch
  simp only [binsrch_loop_congr key1 key2 page h]

theorem moves_right_congr (key1 key2 : BTScanInsert) (page : BTPage)
    (h : same_probes key1 key2 page) : moves_right key1 page = moves_right key2 page := by
  cases hh : page.has_high_key
  · simp [moves_right, hh]
  · have := h.2 hh
    simp only [probe] at this
    simp only [moves_right, hh, Bool.true_and]
    exact this

theorem moveright_loop_congr (tree : BTree) (key1 key2 : BTScanInsert)
    (hall : ∀ b q, get_page tree b = some q → same_probes key1 key2 q) :
    ∀ (fuel : Nat) (page : BTPage) (mc : Nat), same_probes key1 key2 page →
      _bt_moveright_loop tree key1 fuel page mc = _bt_moveright_loop tree key2 fuel page mc := by
  intro fuel
  induction fuel with
  | zero => intro page mc _; rfl
  | succ f ih =>
    intro page mc hp
    rw [moveright_loop_succ, moveright_loop_succ, moves_right_congr key1 key2 page hp]
    split_ifs
    · rfl
    · cases hg : get_page tree page.right_link with
      | none => rfl
      | some next => exact ih next (mc + 1) (hall _ _ hg)
    · rfl

theorem moveright_congr (fuel : Nat) (tree : BTree) (key1 key2 : BTScanInsert)
    (hall : ∀ b q, get_page tree b = some q → same_probes key1 key2 q) (page : BTPage)
    (hp : same_probes key1 key2 page) :
    _bt_moveright fuel tree key1 page = _bt_moveright fuel tree key2 page := by
  unfold _bt_moveright
  rw [moveright_loop_congr tree key1 key2 hall fuel page 0 hp]

theorem search_loop_congr (tree : BTree) (key1 key2 : BTScanInsert) (mfuel : Nat)
    (hall : ∀ b q, get_page tree b = some q → same_probes key1 key2 q) :
    ∀ (fuel : Nat) (page : BTPage) (stack : BTStack), (∃ b, get_page tree b = some page) →
      _bt_search_loop tree key1 mfuel fuel page stack
        = _bt_search_loop tree key2 mfuel fuel page stack := by
  intro fuel
  induction fuel with
  | zero => intro page stack _; rfl
  | succ f ih =>
    intro page stack hp
    obtain ⟨b, hb⟩ := hp
    rw [_bt_search_loop, _bt_search_loop,
      moveright_congr mfuel tree key1 key2 hall page (hall b page hb)]
    cases hm : _bt_moveright mfuel tree key2 page with
    | error e => rfl
    | ok p =>
      simp only
      obtain ⟨b2, hb2⟩ := moveright_result_fetched mfuel tree key2 page p hm ⟨b, hb⟩
      rw [binsrch_congr key1 key2 p (hall b2 p hb2)]
      split_ifs
      · rfl
      · cases hg : get_page tree (p.children.getD (_bt_binsrch key2 p) INVALID_BLOCK) with
        | none => rfl
        | some child => exact ih child _ ⟨_, hg⟩

/-- Keys with the same probes on every page of the tree get the same result
from `_bt_search`. -/
theorem search_congr (fuel : Nat) (tree : BTree) (key1 key2 : BTScanInsert)
    (hall : ∀ p ∈ tree.pages, same_probes key1 key2 p) :
    _bt_search fuel tree key1 = _bt_search fuel tree key2 := by
  have hall2 : ∀ b q, get_page tree b = some q → same_probes key1 key2 q :=
    fun b q hq => hall q (get_page_some tree b q hq).2
  unfold _bt_search
  cases hg : get_page tree tree.root with
  | none => rfl
  | some root => exact search_loop_congr tree key1 key2 fuel hall2 fuel root [] ⟨_, hg⟩

/-! ## The global boundary on the sample tree -/

/-- Every integer `K` compares with the elements of a list `l` bounded by
`top` like some element of `top :: l`. -/
theorem exists_rep (top : Int) (K : Int) :
    ∀ l : List Int, (∀ c ∈ l, c < top) →
      ∃ r ∈ top :: l, (K ≤ r ∨ r = top) ∧ ∀ c ∈ l, (c < K ↔ c < r) := by
  intro l
  induction l with
  | nil => intro _; exact ⟨top, by simp, Or.inr rfl, by simp⟩
  | cons a l ih =>
    intro htop
    obtain ⟨r, hr, hinv, hcmp⟩ := ih (fun c hc => htop c (List.mem_cons_of_mem a hc))
    have ha : a < top := htop a (List.mem_cons_self a l)
    by_cases hcase : K ≤ a ∧ a < r
    · refine ⟨a, by simp, Or.inl hcase.1, ?_⟩
      intro c hc
      rcases List.mem_cons.1 hc with rfl | hc
      · omega
      · have := hcmp c hc
        omega
    · refine ⟨r, ?_, hinv, ?_⟩
      · rcases List.mem_cons.1 hr with rfl | hr
        · simp
        · simp [hr]
      · intro c hc
        rcases List.mem_cons.1 hc with rfl | hc
        · rcases hinv with h1 | h1
          · omega
          · omega
        · exact hcmp c hc

theorem probe_of_bounds (K c : Int) (hK : -1073741824 ≤ K ∧ K ≤ 1073741824)
    (hc : 0 ≤ c ∧ c ≤ 1000) :
    probe ⟨K, false⟩ c = decide (c < K) ∧ probe ⟨K, true⟩ c = decide (c ≤ K) := by
  have hr : int_range (K - c) := by simp only [int_range]; omega
  constructor
  · simp only [probe, cmpval_of, wrap32_of_int_range _ hr, Bool.false_eq_true, if_false,
      decide_eq_decide]
    omega
  · simp only [probe, cmpval_of, wrap32_of_int_range _ hr, if_true, decide_eq_decide]
    omega

theorem sample_pages_consts :
    ∀ p ∈ create_sample_tree.pages,
      (∀ i < p.num_keys.toNat, p.keys.getD i 0 ∈ sample_consts) ∧
      (p.has_high_key = true → p.high_key ∈ sample_consts) := by
  decide

theorem sample_consts_bounds :
    (∀ c ∈ sample_consts, c < 121) ∧ ∀ c ∈ (121 : Int) :: sample_consts, 0 ≤ c ∧ c ≤ 1000 := by
  decide

theorem sample_split_reps :
    ∀ r ∈ (121 : Int) :: sample_consts,
      sample_split_check ⟨r, false⟩ = true ∧ sample_split_check ⟨r - 1, true⟩ = true := by
  decide

theorem sample_split_check_spec (key : BTScanInsert) (h : sample_split_check key = true) :
    ∃ stack L off, _bt_search 11 create_sample_tree key = Except.ok (stack, L, off) ∧
      splits_leaf_level create_sample_tree key L off := by
  unfold sample_split_check at h
  cases hs : _bt_search 11 create_sample_tree key with
  | error e => rw [hs] at h; simp at h
  | ok r =>
    obtain ⟨stack, L, off⟩ := r
    rw [hs] at h
    simp only [decide_eq_true_eq] at h
    exact ⟨stack, L, off, rfl, h⟩

/-- Every bounded key has the probes, against the constants of the sample
tree, of a key for which the split of the leaf level has been checked. -/
theorem sample_rep_key (K : Int) (hK : -1073741824 ≤ K ∧ K ≤ 1073741824) (nk : Bool) :
    ∃ key2 : BTScanInsert, sample_split_check key2 = true ∧
      ∀ c ∈ sample_consts, probe ⟨K, nk⟩ c = probe key2 c := by
  obtain ⟨hlt, hbd⟩ := sample_consts_bounds
  cases nk
  · obtain ⟨r, hr, _, hcmp⟩ := exists_rep 121 K sample_consts hlt
    refine ⟨⟨r, false⟩, (sample_split_reps r hr).1, ?_⟩
    intro c hc
    have hcb := hbd c (List.mem_cons_of_mem _ hc)
    have hrb := hbd r hr
    rw [(probe_of_bounds K c hK hcb).1, (probe_of_bounds r c (by omega) hcb).1]
    simp only [decide_eq_decide]
    exact hcmp c hc
  · obtain ⟨r, hr, _, hcmp⟩ := exists_rep 121 (K + 1) sample_consts hlt
    refine ⟨⟨r - 1, true⟩, (sample_split_reps r hr).2, ?_⟩
    intro c hc
    have hcb := hbd c (List.mem_cons_of_mem _ hc)
    have hrb := hbd r hr
    rw [(probe_of_bounds K c hK hcb).2, (probe_of_bounds (r - 1) c (by omega) hcb).2]
    simp only [decide_eq_decide]
    have := hcmp c hc
    omega

/-- In the sample tree a right-link leads to the next block number. -/
theorem sample_follow_right :
    ∀ (n : Nat) (p : BTPage), p ∈ create_sample_tree.pages →
      ∀ q, follow_right create_sample_tree n p = some q →
        q ∈ create_sample_tree.pages ∧ q.blockno = p.blockno + n := by
  have hstep : ∀ r ∈ create_sample_tree.pages,
      ∀ r2 ∈ get_page create_sample_tree r.right_link, r2.blockno = r.blockno + 1 := by
    decide
  intro n
  induction n with
  | zero =>
    intro p hp q hq
    simp only [follow_right, Option.some.injEq] at hq
    subst hq
    exact ⟨hp, rfl⟩
  | succ n ih =>
    intro p hp q hq
    rw [follow_right] at hq
    split_ifs at hq with hr
    cases hg : get_page create_sample_tree p.right_link with
    | none => rw [hg] at hq; simp at hq
    | some next =>
      rw [hg] at hq
      simp only at hq
      obtain ⟨h1, h2⟩ := ih next (get_page_some _ _ _ hg).2 q hq
      have := hstep p hp next hg
      exact ⟨h1, by omega⟩

/-- In the sample tree a leaf is left of every leaf with a larger block
number. -/
theorem sample_left_of (p q : BTPage) (hp : p ∈ create_sample_tree.pages)
    (hq : q ∈ create_sample_tree.pages) (hpl : is_leaf p = true) (hql : is_leaf q = true)
    (hlt : p.blockno < q.blockno) : left_of create_sample_tree p q := by
  have hall : ∀ p ∈ create_sample_tree.pages, ∀ q ∈ create_sample_tree.pages,
      is_leaf p = true → is_leaf q = true → p.blockno < q.blockno →
      follow_right create_sample_tree (q.blockno - p.blockno) p = some q := by
    decide
  exact ⟨q.blockno - p.blockno, by omega, hall p hp q hq hpl hql hlt⟩

/-- C30: on the sample tree, for every key `K` with `|K| ≤ 2^30`, either
`nextkey` value and every budget of at least 11, `_bt_search` returns a page
`L` and an offset such that `L` is a leaf page of the tree and `(L, offset)`
splits the leaf level at `K`: every key on a leaf left of `L` in the
right-link chain, and every key on `L` before the offset, is `< K` (`≤ K` for
`nextkey = true`); every key on `L` from the offset on, and every key on a leaf
right of `L`, is `≥ K` (`> K` for `nextkey = true`). -/
theorem sample_global_boundary (K : Int) (hK : -1073741824 ≤ K ∧ K ≤ 1073741824) (nk : Bool)
    (fuel : Nat) (hf : 11 ≤ fuel) :
    ∃ stack L off, _bt_search fuel create_sample_tree ⟨K, nk⟩ = Except.ok (stack, L, off) ∧
      is_leaf L = true ∧ L ∈ create_sample_tree.pages ∧
      ∀ p ∈ create_sample_tree.pages, is_leaf p = true → ∀ i : Nat, (i : Int) < p.num_keys →
        ((left_of create_sample_tree p L ∨ (p = L ∧ i < off)) → key_below ⟨K, nk⟩ p i) ∧
        ((left_of create_sample_tree L p ∨ (p = L ∧ off ≤ i)) → meets_target ⟨K, nk⟩ p i) := by
  obtain ⟨key2, hchk, hprobe⟩ := sample_rep_key K hK nk
  obtain ⟨_, hbd⟩ := sample_consts_bounds
  have hsame : ∀ p ∈ create_sample_tree.pages, same_probes ⟨K, nk⟩ key2 p := by
    intro p hp
    obtain ⟨h1, h2⟩ := sample_pages_consts p hp
    exact ⟨fun i hi => hprobe _ (h1 i hi), fun hh => hprobe _ (h2 hh)⟩
  obtain ⟨stack, L, off, hs, hsplit⟩ := sample_split_check_spec key2 hchk
  have hs11 : _bt_search 11 create_sample_tree ⟨K, nk⟩ = Except.ok (stack, L, off) := by
    rw [search_congr 11 create_sample_tree ⟨K, nk⟩ key2 hsame]; exact hs
  have hsf := search_fuel_mono create_sample_tree ⟨K, nk⟩ 11 _ hs11 (by simp) fuel hf
  obtain ⟨_, hLl, ⟨b, hb⟩, _⟩ := search_result_facts 11 _ _ stack L off hs11
  have hL : L ∈ create_sample_tree.pages := (get_page_some _ b L hb).2
  refine ⟨stack, L, off, hsf, hLl, hL, ?_⟩
  intro p hp hl i hi
  have hiN : i < p.num_keys.toNat := by omega
  obtain ⟨s1, s2⟩ := hsplit p hp hl i hiN
  have hc := (sample_pages_consts p hp).1 i hiN
  have hcb := hbd _ (List.mem_cons_of_mem _ hc)
  rw [← hprobe _ hc] at s1 s2
  obtain ⟨pf, pt⟩ := probe_of_bounds K (p.keys.getD i 0) hK hcb
  constructor
  · intro hleft
    have hcond : p.blockno < L.blockno ∨ (p = L ∧ i < off) := by
      rcases hleft with ⟨n, hn, hfr⟩ | hx
      · have := (sample_follow_right n p hp L hfr).2
        exact Or.inl (by omega)
      · exact Or.inr hx
    have := s1 hcond
    cases nk
    · rw [pf] at this
      simpa [key_below] using this
    · rw [pt] at this
      simpa [key_below] using this
  · intro hright
    have hcond : L.blockno < p.blockno ∨ (p = L ∧ off ≤ i) := by
      rcases hright with ⟨n, hn, hfr⟩ | hx
      · have := (sample_follow_right n L hL p hfr).2
        exact Or.inl (by omega)
      · exact Or.inr hx
    have := s2 hcond
    cases nk
    · rw [pf] at this
      simpa [meets_target] using this
    · rw [pt] at this
      simpa [meets_target] using this

theorem sample_global_boundary_witness :
    ∃ stack L off, _bt_search 11 create_sample_tree ⟨72, true⟩ = Except.ok (stack, L, off) ∧
      is_leaf L = true ∧ L ∈ create_sample_tree.pages ∧
      ∀ p ∈ create_sample_tree.pages, is_leaf p = true → ∀ i : Nat, (i : Int) < p.num_keys →
        ((left_of create_sample_tree p L ∨ (p = L ∧ i < off)) → key_below ⟨72, true⟩ p i) ∧
        ((left_of create_sample_tree L p ∨ (p = L ∧ off ≤ i)) → meets_target ⟨72, true⟩ p i) :=
  sample_global_boundary 72 (by decide) true 11 (le_refl 11)

/-! ## Termination of the bisect loop -/

/-- Once the budget covers `high - low`, the iteration reaches a state in
which the loop condition `high > low` is false. -/
theorem binsrch_iterate_exits (key : BTScanInsert) (page : BTPage) :
    ∀ (k : Nat) (s : Nat × Nat), s.1 ≤ s.2 → s.2 ≤ 65535 → s.2 - s.1 ≤ k →
      ¬ (binsrch_iterate key page k s).2 > (binsrch_iterate key page k s).1 := by
  intro k
  induction k with
  | zero =>
    intro s h1 _ h3
    simp only [binsrch_iterate]
    omega
  | succ k ih =>
    intro s h1 h2 h3
    rw [binsrch_iterate]
    split_ifs with hlt
    · obtain ⟨_, b2, b3, b4⟩ := binsrch_step_bounds key page s.1 s.2 hlt h2
      exact ih _ b2 (by omega) (by omega)
    · exact hlt

/-- Two budgets that both cover `high - low` give the same result. -/
theorem binsrch_loop_fuel_eq (key : BTScanInsert) (page : BTPage) :
    ∀ (f1 f2 low high : Nat), low ≤ high → high ≤ 65535 → high - low ≤ f1 →
      high - low ≤ f2 →
      binsrch_loop key page f1 low high = binsrch_loop key page f2 low high := by
  intro f1
  induction f1 with
  | zero =>
    intro f2 low high h1 _ h3 _
    have hle : ¬ high > low := by omega
    cases f2 with
    | zero => rfl
    | succ g => simp only [binsrch_loop, hle, if_false]
  | succ f ih =>
    intro f2 low high h1 h2 h3 h4
    by_cases hlt : high > low
    · obtain ⟨g, rfl⟩ : ∃ g, f2 = g + 1 := ⟨f2 - 1, by omega⟩
      obtain ⟨_, b2, b3, b4⟩ := binsrch_step_bounds key page low high hlt h2
      rw [binsrch_loop, binsrch_loop, if_pos hlt, if_pos hlt]
      exact ih g _ _ b2 (by omega) (by omega) (by omega)
    · cases f2 with
      | zero => simp only [binsrch_loop, hlt, if_false]
      | succ g => simp only [binsrch_loop, hlt, if_false]

/-- The result of the bisect loop does not depend on the budget once it
covers `high - low`. -/
theorem binsrch_loop_fuel_irrelevant (key : BTScanInsert) (page : BTPage)
    (fuel low high : Nat) (h1 : low ≤ high) (h2 : high ≤ 65535) (h3 : high - low ≤ fuel) :
    binsrch_loop key page fuel low high = binsrch_loop key page (high - low) low high :=
  binsrch_loop_fuel_eq key page fuel (high - low) low high h1 h2 h3 (le_refl _)

/-- C36: on every page with `0 ≤ num_keys ≤ MAX_KEYS_PER_PAGE`, whatever its
keys, in every state `(low, high)` the bisect loop of `_bt_binsrch` reaches
with `low < high`, the probe satisfies `low ≤ mid < high`, the iteration sets
either `low := mid + 1` or `high := mid`, and `high - low` strictly decreases;
after at most `num_keys + 1` iterations the loop condition is false, and the
result of the loop is the same for every budget of at least `num_keys + 1`. -/
theorem binsrch_loop_terminates (key : BTScanInsert) (page : BTPage)
    (h0 : 0 ≤ page.num_keys) (h7 : page.num_keys ≤ MAX_KEYS_PER_PAGE) :
    (∀ k low high, binsrch_iterate key page k (binsrch_init page) = (low, high) → low < high →
      low ≤ binsrch_mid low high ∧ binsrch_mid low high < high ∧
      (binsrch_step key page low high = (binsrch_mid low high + 1, high) ∨
        binsrch_step key page low high = (low, binsrch_mid low high)) ∧
      (binsrch_step key page low high).2 - (binsrch_step key page low high).1 < high - low) ∧
    ¬ (binsrch_iterate key page (page.num_keys.toNat + 1) (binsrch_init page)).2 >
      (binsrch_iterate key page (page.num_keys.toNat + 1) (binsrch_init page)).1 ∧
    (∀ fuel, page.num_keys.toNat + 1 ≤ fuel →
      binsrch_loop key page fuel (binsrch_init page).1 (binsrch_init page).2 =
        binsrch_loop key page (page.num_keys.toNat + 1) (binsrch_init page).1
          (binsrch_init page).2) := by
  obtain ⟨h1, h2⟩ := int_to_u16_of_bounds page ⟨h0, h7⟩
  have hinit : binsrch_init page = (0, page.num_keys.toNat + 1) := by
    unfold binsrch_init
    rw [h1]
    unfold u16
    congr 1
    omega
  refine ⟨?_, ?_, ?_⟩
  · intro k low high hs hlt
    obtain ⟨_, _, b3⟩ := binsrch_iterate_bounds key page k (binsrch_init page)
      (by rw [hinit]; simp) (by rw [hinit]; simp; omega)
    rw [hs, hinit] at b3
    simp only at b3
    have hh : high ≤ 65535 := by omega
    obtain ⟨m1, m2, m3⟩ := binsrch_mid_bounds low high hlt hh
    obtain ⟨_, _, _, b4⟩ := binsrch_step_bounds key page low high hlt hh
    refine ⟨m2, m3, ?_, b4⟩
    unfold binsrch_step
    simp only
    split_ifs
    · left
      have : u16 (binsrch_mid low high + 1) = binsrch_mid low high + 1 := by
        unfold u16; omega
      rw [this]
    · right; rfl
  · rw [hinit]
    exact binsrch_iterate_exits key page _ _ (by simp) (by simp; omega) (by simp)
  · intro fuel hf
    rw [hinit]
    simp only
    rw [binsrch_loop_fuel_irrelevant key page fuel 0 _ (by omega) (by omega) (by omega)]
    simp

theorem binsrch_loop_terminates_witness :
    (∀ k low high,
      binsrch_iterate ⟨75, false⟩ sample_leaf8 k (binsrch_init sample_leaf8) = (low, high) →
      low < high →
      low ≤ binsrch_mid low high ∧ binsrch_mid low high < high ∧
      (binsrch_step ⟨75, false⟩ sample_leaf8 low high = (binsrch_mid low high + 1, high) ∨
        binsrch_step ⟨75, false⟩ sample_leaf8 low high = (low, binsrch_mid low high)) ∧
      (binsrch_step ⟨75, false⟩ sample_leaf8 low high).2 -
        (binsrch_step ⟨75, false⟩ sample_leaf8 low high).1 < high - low) ∧
    ¬ (binsrch_iterate ⟨75, false⟩ sample_leaf8 (sample_leaf8.num_keys.toNat + 1)
        (binsrch_init sample_leaf8)).2 >
      (binsrch_iterate ⟨75, false⟩ sample_leaf8 (sample_leaf8.num_keys.toNat + 1)
        (binsrch_init sample_leaf8)).1 ∧
    (∀ fuel, sample_leaf8.num_keys.toNat + 1 ≤ fuel →
      binsrch_loop ⟨75, false⟩ sample_leaf8 fuel (binsrch_init sample_leaf8).1
          (binsrch_init sample_leaf8).2 =
        binsrch_loop ⟨75, false⟩ sample_leaf8 (sample_leaf8.num_keys.toNat + 1)
          (binsrch_init sample_leaf8).1 (binsrch_init sample_leaf8).2) :=
  binsrch_loop_terminates ⟨75, false⟩ sample_leaf8 (by decide) (by decide)

/-! ## The last child pointer -/

/-- On an internal page with at least one key, whatever the keys, the bisect
loop keeps `low ≤ num_keys` and `1 ≤ high`, and ends with `1 ≤ low ≤ num_keys`. -/
theorem binsrch_loop_internal_range (key : BTScanInsert) (page : BTPage)
    (hl : is_leaf page = false) (h1 : 1 ≤ page.num_keys.toNat)
    (hn : page.num_keys.toNat + 1 ≤ 65535) :
    ∀ (fuel low high : Nat), high - low ≤ fuel → low ≤ high →
      high ≤ page.num_keys.toNat + 1 → low ≤ page.num_keys.toNat → 1 ≤ high →
      1 ≤ binsrch_loop key page fuel low high ∧
        binsrch_loop key page fuel low high ≤ page.num_keys.toNat := by
  have hc := cmpval_of_cases key
  intro fuel
  induction fuel with
  | zero =>
    intro low high hf hlh _ hlo hhi
    simp only [binsrch_loop]
    omega
  | succ f ih =>
    intro low high hf hlh hhn hlo hhi
    rw [binsrch_loop]
    split_ifs with hlt
    · obtain ⟨m1, m2, m3⟩ := binsrch_mid_bounds low high hlt (by omega)
      obtain ⟨_, b2, b3, b4⟩ := binsrch_step_bounds key page low high hlt (by omega)
      apply ih _ _ (by omega) b2 (by omega)
      · unfold binsrch_step
        simp only
        split_ifs with hp
        · simp only [u16]
          have hne : binsrch_mid low high ≠ page.num_keys.toNat := by
            intro heq
            rw [heq, compare_out_of_range key page _ (by omega) (Or.inr (by omega))] at hp
            omega
          omega
        · exact hlo
      · unfold binsrch_step
        simp only
        split_ifs with hp
        · exact hhi
        · simp only
          by_contra hz
          have h0 : binsrch_mid low high = 0 := by omega
          rw [h0, compare_internal_zero key page hl] at hp
          omega
    · omega

/-- C32: on an internal page with `1 ≤ num_keys ≤ MAX_KEYS_PER_PAGE`, whatever
its keys, the bisect loop of `_bt_binsrch` ends with `1 ≤ low ≤ num_keys`, the
result is `low - 1`, it lies in `[0, num_keys - 1]` and is never `num_keys`;
so when the descent of `_bt_search` works on this page, the child pointer it
follows, `children[_bt_binsrch]`, is not the last one, `children[num_keys]`. -/
theorem binsrch_internal_never_last (key : BTScanInsert) (page : BTPage)
    (hint : page.type = PageType.PAGE_INTERNAL) (h1 : 1 ≤ page.num_keys)
    (h7 : page.num_keys ≤ MAX_KEYS_PER_PAGE) :
    1 ≤ binsrch_loop key page (page.num_keys.toNat + 1) (binsrch_init page).1
      (binsrch_init page).2 ∧
    (binsrch_loop key page (page.num_keys.toNat + 1) (binsrch_init page).1
      (binsrch_init page).2 : Int) ≤ page.num_keys ∧
    _bt_binsrch key page = binsrch_loop key page (page.num_keys.toNat + 1)
      (binsrch_init page).1 (binsrch_init page).2 - 1 ∧
    (_bt_binsrch key page : Int) ≤ page.num_keys - 1 ∧
    (_bt_binsrch key page : Int) ≠ page.num_keys ∧
    (∀ (tree : BTree) (mfuel fuel : Nat) (start : BTPage) (stack : BTStack),
      _bt_moveright mfuel tree key start = Except.ok page →
      _bt_search_loop tree key mfuel (fuel + 1) start stack =
        match get_page tree (page.children.getD (_bt_binsrch key page) INVALID_BLOCK) with
        | none => Except.error SearchError.null_page
        | some child =>
          _bt_search_loop tree key mfuel fuel child
            ((page.blockno, _bt_binsrch key page) :: stack)) := by
  have hb : page_in_bounds page := ⟨by omega, h7⟩
  have hl : is_leaf page = false := by simp [is_leaf, hint]
  obtain ⟨hu, hN⟩ := int_to_u16_of_bounds page hb
  have hinit : binsrch_init page = (0, page.num_keys.toNat + 1) := by
    unfold binsrch_init
    rw [hu]
    unfold u16
    congr 1
    omega
  obtain ⟨r1, r2⟩ := binsrch_loop_internal_range key page hl (by omega) (by omega)
    (page.num_keys.toNat + 1) 0 (page.num_keys.toNat + 1) (by omega) (by omega) (by omega)
    (by omega) (by omega)
  have hres : _bt_binsrch key page =
      binsrch_loop key page (page.num_keys.toNat + 1) 0 (page.num_keys.toNat + 1) - 1 := by
    rw [binsrch_unfold key page hb]
    simp only [hl, Bool.false_eq_true, if_false]
    rw [if_pos (by omega)]
  rw [hinit]
  simp only
  refine ⟨r1, by omega, hres, by omega, by omega, ?_⟩
  intro tree mfuel fuel start stack hm
  rw [_bt_search_loop, hm]
  simp only [hl, Bool.false_eq_true, if_false, create_stack_node]

theorem binsrch_internal_never_last_witness :
    1 ≤ binsrch_loop ⟨110, false⟩ sample_root (sample_root.num_keys.toNat + 1)
      (binsrch_init sample_root).1 (binsrch_init sample_root).2 ∧
    (binsrch_loop ⟨110, false⟩ sample_root (sample_root.num_keys.toNat + 1)
      (binsrch_init sample_root).1 (binsrch_init sample_root).2 : Int) ≤ sample_root.num_keys ∧
    _bt_binsrch ⟨110, false⟩ sample_root =
      binsrch_loop ⟨110, false⟩ sample_root (sample_root.num_keys.toNat + 1)
        (binsrch_init sample_root).1 (binsrch_init sample_root).2 - 1 ∧
    (_bt_binsrch ⟨110, false⟩ sample_root : Int) ≤ sample_root.num_keys - 1 ∧
    (_bt_binsrch ⟨110, false⟩ sample_root : Int) ≠ sample_root.num_keys ∧
    (∀ (tree : BTree) (mfuel fuel : Nat) (start : BTPage) (stack : BTStack),
      _bt_moveright mfuel tree ⟨110, false⟩ start = Except.ok sample_root →
      _bt_search_loop tree ⟨110, false⟩ mfuel (fuel + 1) start stack =
        match get_page tree
          (sample_root.children.getD (_bt_binsrch ⟨110, false⟩ sample_root) INVALID_BLOCK) with
        | none => Except.error SearchError.null_page
        | some child =>
          _bt_search_loop tree ⟨110, false⟩ mfuel fuel child
            ((sample_root.blockno, _bt_binsrch ⟨110, false⟩ sample_root) :: stack)) :=
  binsrch_internal_never_last ⟨110, false⟩ sample_root (by decide) (by decide) (by decide)

/-! ## The two tie-break modes and monotonicity -/

/-- C34: on a leaf page (header in bounds) with strictly ascending keys and
no overflowing difference `K - keys[i]`: if `K` is stored on the page, then
`_bt_binsrch(K, nextkey = true) = _bt_binsrch(K, nextkey = false) + 1` and the
`nextkey = false` result is the position of `K`; if `K` is not stored on the
page, the two results are equal. -/
theorem binsrch_modes_differ_by_presence (K : Int) (page : BTPage)
    (hleaf : page.type = PageType.PAGE_LEAF) (hb : page_in_bounds page)
    (hasc : keys_strictly_ascending page) (hov : no_overflow ⟨K, false⟩ page) :
    ((∃ i : Nat, (i : Int) < page.num_keys ∧ page.keys.getD i 0 = K) →
      _bt_binsrch ⟨K, true⟩ page = _bt_binsrch ⟨K, false⟩ page + 1 ∧
      (_bt_binsrch ⟨K, false⟩ page : Int) < page.num_keys ∧
      page.keys.getD (_bt_binsrch ⟨K, false⟩ page) 0 = K) ∧
    ((¬ ∃ i : Nat, (i : Int) < page.num_keys ∧ page.keys.getD i 0 = K) →
      _bt_binsrch ⟨K, true⟩ page = _bt_binsrch ⟨K, false⟩ page) := by
  have hl : is_leaf page = true := by simp [is_leaf, hleaf]
  have h0 : 0 ≤ page.num_keys := hb.1
  have hov2 : no_overflow ⟨K, true⟩ page := hov
  obtain ⟨fle, flo, fhi⟩ := binsrch_leaf_partition ⟨K, false⟩ page hl hb
    (probed_of_strictly_ascending page hasc) (probe_of_no_overflow _ page hov)
  obtain ⟨tle, tlo, thi⟩ := binsrch_leaf_partition ⟨K, true⟩ page hl hb
    (probed_of_strictly_ascending page hasc) (probe_of_no_overflow _ page hov2)
  have hcf : cmpval_of ⟨K, false⟩ = 1 := by simp [cmpval_of]
  have hct : cmpval_of ⟨K, true⟩ = 0 := by simp [cmpval_of]
  rw [hcf] at flo fhi
  rw [hct] at tlo thi
  simp only at flo fhi tlo thi
  generalize _bt_binsrch ⟨K, false⟩ page = rf at fle flo fhi ⊢
  generalize _bt_binsrch ⟨K, true⟩ page = rt at tle tlo thi ⊢
  have hft : rf ≤ rt := by
    by_contra hgt
    have a := flo rt (by omega)
    have b := thi rt (le_refl _) (by omega)
    omega
  have htf : rt ≤ rf + 1 := by
    by_contra hgt
    have a1 := tlo rf (by omega)
    have a2 := tlo (rf + 1) (by omega)
    have b1 := fhi rf (le_refl _) (by omega)
    have b2 := fhi (rf + 1) (by omega) (by omega)
    have := hasc (rf + 1) (by omega) rf (by omega)
    omega
  constructor
  · rintro ⟨i, hi, hk⟩
    have hiN : i < page.num_keys.toNat := by omega
    have h1 : rf ≤ i := by
      by_contra hlt
      have := flo i (by omega)
      omega
    have h2 : i < rt := by
      by_contra hge
      have := thi i (by omega) hiN
      omega
    have hirf : i = rf := by omega
    subst hirf
    exact ⟨by omega, by omega, hk⟩
  · intro hnone
    by_contra hne
    have hlt : rf < rt := by omega
    have a := tlo rf hlt
    have b := fhi rf (le_refl _) (by omega)
    exact hnone ⟨rf, by omega, by omega⟩

theorem binsrch_modes_differ_by_presence_witness :
    ((∃ i : Nat, (i : Int) < sample_leaf8.num_keys ∧ sample_leaf8.keys.getD i 0 = 75) →
      _bt_binsrch ⟨75, true⟩ sample_leaf8 = _bt_binsrch ⟨75, false⟩ sample_leaf8 + 1 ∧
      (_bt_binsrch ⟨75, false⟩ sample_leaf8 : Int) < sample_leaf8.num_keys ∧
      sample_leaf8.keys.getD (_bt_binsrch ⟨75, false⟩ sample_leaf8) 0 = 75) ∧
    ((¬ ∃ i : Nat, (i : Int) < sample_leaf8.num_keys ∧ sample_leaf8.keys.getD i 0 = 75) →
      _bt_binsrch ⟨75, true⟩ sample_leaf8 = _bt_binsrch ⟨75, false⟩ sample_leaf8) :=
  binsrch_modes_differ_by_presence 75 sample_leaf8 (by decide) (by decide) (by decide)
    (by decide)

/-- C35: on a page, leaf or internal (header in bounds), with ascending keys,
for a fixed `nextkey` value and keys `K1 ≤ K2` whose differences with the keys
of the page do not overflow, the offset `_bt_binsrch` returns for `K1` is at
most the offset it returns for `K2`. -/
theorem binsrch_monotone (K1 K2 : Int) (nk : Bool) (page : BTPage) (hb : page_in_bounds page)
    (hasc : keys_ascending page) (hov1 : no_overflow ⟨K1, nk⟩ page)
    (hov2 : no_overflow ⟨K2, nk⟩ page) (hle : K1 ≤ K2) :
    _bt_binsrch ⟨K1, nk⟩ page ≤ _bt_binsrch ⟨K2, nk⟩ page := by
  have hc : cmpval_of ⟨K1, nk⟩ = cmpval_of ⟨K2, nk⟩ := rfl
  cases hl : is_leaf page
  · obtain ⟨a1, a2, a3, _⟩ := binsrch_internal_partition ⟨K1, nk⟩ page hl hb
      (probed_of_ascending page hasc) (probe_of_no_overflow _ page hov1)
    obtain ⟨_, _, _, b4⟩ := binsrch_internal_partition ⟨K2, nk⟩ page hl hb
      (probed_of_ascending page hasc) (probe_of_no_overflow _ page hov2)
    by_contra hgt
    have hpos : 0 < _bt_binsrch ⟨K1, nk⟩ page := by omega
    have hN : _bt_binsrch ⟨K1, nk⟩ page < page.num_keys.toNat := a2 (by omega)
    have x := a3 _ hpos (le_refl _)
    have y := b4 _ (by omega) hN
    rw [← hc] at y
    simp only at x y
    omega
  · obtain ⟨a1, a2, _⟩ := binsrch_leaf_partition ⟨K1, nk⟩ page hl hb
      (probed_of_ascending page hasc) (probe_of_no_overflow _ page hov1)
    obtain ⟨_, _, b3⟩ := binsrch_leaf_partition ⟨K2, nk⟩ page hl hb
      (probed_of_ascending page hasc) (probe_of_no_overflow _ page hov2)
    by_contra hgt
    have x := a2 (_bt_binsrch ⟨K2, nk⟩ page) (by omega)
    have y := b3 _ (le_refl _) (by omega)
    rw [← hc] at y
    simp only at x y
    omega

theorem binsrch_monotone_witness :
    (72 : Int) ≤ 90 ∧ _bt_binsrch ⟨72, false⟩ sample_page2 ≤ _bt_binsrch ⟨90, false⟩ sample_page2 :=
  ⟨by decide, binsrch_monotone 72 90 false sample_page2 (by decide) (by decide) (by decide)
    (by decide) (by decide)⟩

/-! ## Linkage of the descent -/

/-- A page returned by `_bt_moveright` is returned unchanged when
`_bt_moveright` is run on it. -/
theorem moveright_fixed_of_result (fuel : Nat) (tree : BTree) (key : BTScanInsert)
    (start p : BTPage) (h : _bt_moveright fuel tree key start = Except.ok p) (f : Nat) :
    _bt_moveright (f + 1) tree key p = Except.ok p := by
  obtain ⟨n, hn⟩ := (moveright_ok_iff fuel tree key start p).1 h
  have hstop := moveright_loop_stops tree key fuel start 0 p n hn
  apply (moveright_ok_iff _ tree key p p).2
  refine ⟨0, ?_⟩
  rw [moveright_loop_succ]
  rcases hstop with h1 | h2
  · simp [h1]
  · simp [h2]

/-- The page `_bt_moveright` returns is reached from the start page by
following right-links. -/
theorem passes_over_follow_right (tree : BTree) (key : BTScanInsert) :
    ∀ (passed : List BTPage) (page p : BTPage), passes_over tree key page passed p →
      follow_right tree passed.length page = some p := by
  intro passed
  induction passed with
  | nil =>
    intro page p h
    simp only [passes_over] at h
    simp [follow_right, h]
  | cons q rest ih =>
    intro page p h
    simp only [passes_over] at h
    obtain ⟨_, h1, _, _, next, h2, h3⟩ := h
    simp only [List.length_cons, follow_right, h1, Bool.false_eq_true, if_false, h2]
    exact ih next p h3

theorem moveright_follow_right (fuel : Nat) (tree : BTree) (key : BTScanInsert)
    (page p : BTPage) (h : _bt_moveright fuel tree key page = Except.ok p) :
    ∃ n, follow_right tree n page = some p := by
  obtain ⟨n, hn⟩ := (moveright_ok_iff fuel tree key page p).1 h
  obtain ⟨passed, hp, _⟩ := moveright_loop_passes tree key fuel page 0 p n hn
  exact ⟨passed.length, passes_over_follow_right tree key passed page p hp⟩

/-- The first page of a descent path is the result of `_bt_moveright` on the
start page. -/
theorem descent_path_head (tree : BTree) (key : BTScanInsert) (mfuel : Nat)
    (ps : List BTPage) (page L : BTPage) (h : descent_path tree key mfuel page ps L) :
    ∃ first, (ps ++ [L]).get? 0 = some first ∧
      _bt_moveright mfuel tree key page = Except.ok first := by
  cases ps with
  | nil =>
    simp only [descent_path] at h
    exact ⟨L, rfl, h.1⟩
  | cons a rest =>
    simp only [descent_path] at h
    exact ⟨a, rfl, h.1⟩

/-- Every page of a descent path, the leaf included, is a result of
`_bt_moveright`. -/
theorem descent_path_results (tree : BTree) (key : BTScanInsert) (mfuel : Nat) :
    ∀ (ps : List BTPage) (page L : BTPage), descent_path tree key mfuel page ps L →
      ∀ p ∈ ps ++ [L], ∃ start, _bt_moveright mfuel tree key start = Except.ok p := by
  intro ps
  induction ps with
  | nil =>
    intro page L h p hp
    simp only [descent_path] at h
    simp only [List.nil_append, List.mem_singleton] at hp
    subst hp
    exact ⟨page, h.1⟩
  | cons a rest ih =>
    intro page L h p hp
    simp only [descent_path] at h
    obtain ⟨h1, _, child, _, h4⟩ := h
    simp only [List.cons_append, List.mem_cons] at hp
    rcases hp with rfl | hp
    · exact ⟨page, h1⟩
    · exact ih child L h4 p hp

/-- Consecutive pages of a descent path are linked: the lower one is the
result of `_bt_moveright` on the page fetched through the child pointer that
`_bt_binsrch` selects on the upper one. -/
theorem descent_path_links (tree : BTree) (key : BTScanInsert) (mfuel : Nat) :
    ∀ (ps : List BTPage) (page L : BTPage), descent_path tree key mfuel page ps L →
      ∀ (i : Nat) (p q : BTPage), (ps ++ [L]).get? i = some p →
        (ps ++ [L]).get? (i + 1) = some q →
        is_leaf p = false ∧
        ∃ child, get_page tree (p.children.getD (_bt_binsrch key p) INVALID_BLOCK) = some child ∧
          _bt_moveright mfuel tree key child = Except.ok q := by
  intro ps
  induction ps with
  | nil =>
    intro page L _ i p q _ hq
    simp at hq
  | cons a rest ih =>
    intro page L h i p q hp hq
    simp only [descent_path] at h
    obtain ⟨_, h2, child, h3, h4⟩ := h
    cases i with
    | zero =>
      simp only [List.cons_append, List.get?_cons_zero, Option.some.injEq] at hp
      subst hp
      simp only [List.cons_append, zero_add, List.get?_cons_succ] at hq
      obtain ⟨first, hf, hm⟩ := descent_path_head tree key mfuel rest child L h4
      rw [hq] at hf
      simp only [Option.some.injEq] at hf
      subst hf
      exact ⟨h2, child, h3, hm⟩
    | succ j =>
      simp only [List.cons_append, List.get?_cons_succ] at hp hq
      exact ih child L h4 j p q hp hq

/-- C31: for every successful search there are a root page and the list `ps`
of the pages of the stack entries, root level first (the stack is the reversed
list of their entries `(blockno, _bt_binsrch offset)`), such that every page on
which `_bt_binsrch` is run, the pages of `ps` and the returned leaf, is
returned unchanged by `_bt_moveright`; the first of them is `_bt_moveright` of
the root page; and for each stack entry the page used at the next level down is
`_bt_moveright` applied to the page fetched from `children[o]` of the entry's
page, hence reachable from that child by zero or more right-links. -/
theorem descent_linkage (fuel : Nat) (tree : BTree) (key : BTScanInsert) (stack : BTStack)
    (L : BTPage) (off : Nat) (h : _bt_search fuel tree key = Except.ok (stack, L, off)) :
    ∃ root ps, get_page tree tree.root = some root ∧
      stack = (ps.map fun p => (p.blockno, _bt_binsrch key p)).reverse ∧
      (∀ p ∈ ps ++ [L], ∀ f, _bt_moveright (f + 1) tree key p = Except.ok p) ∧
      (∃ first, (ps ++ [L]).get? 0 = some first ∧
        _bt_moveright fuel tree key root = Except.ok first) ∧
      (∀ (i : Nat) (p q : BTPage), (ps ++ [L]).get? i = some p →
        (ps ++ [L]).get? (i + 1) = some q →
        is_leaf p = false ∧
        ∃ child, get_page tree (p.children.getD (_bt_binsrch key p) INVALID_BLOCK) = some child ∧
          _bt_moveright fuel tree key child = Except.ok q ∧
          ∃ n, follow_right tree n child = some q) := by
  obtain ⟨root, ps, hr, hp, hs, _⟩ := search_path fuel tree key stack L off h
  refine ⟨root, ps, hr, hs, ?_, descent_path_head tree key fuel ps root L hp, ?_⟩
  · intro p hmem f
    obtain ⟨start, hst⟩ := descent_path_results tree key fuel ps root L hp p hmem
    exact moveright_fixed_of_result fuel tree key start p hst f
  · intro i p q hpi hqi
    obtain ⟨hl, child, hc, hm⟩ := descent_path_links tree key fuel ps root L hp i p q hpi hqi
    exact ⟨hl, child, hc, hm, moveright_follow_right fuel tree key child q hm⟩

theorem descent_linkage_witness :
    ∃ root ps, get_page create_sample_tree create_sample_tree.root = some root ∧
      [(2, 0), (0, 0)] = (ps.map fun p => (p.blockno, _bt_binsrch ⟨75, false⟩ p)).reverse ∧
      (∀ p ∈ ps ++ [sample_leaf8], ∀ f,
        _bt_moveright (f + 1) create_sample_tree ⟨75, false⟩ p = Except.ok p) ∧
      (∃ first, (ps ++ [sample_leaf8]).get? 0 = some first ∧
        _bt_moveright 11 create_sample_tree ⟨75, false⟩ root = Except.ok first) ∧
      (∀ (i : Nat) (p q : BTPage), (ps ++ [sample_leaf8]).get? i = some p →
        (ps ++ [sample_leaf8]).get? (i + 1) = some q →
        is_leaf p = false ∧
        ∃ child, get_page create_sample_tree
            (p.children.getD (_bt_binsrch ⟨75, false⟩ p) INVALID_BLOCK) = some child ∧
          _bt_moveright 11 create_sample_tree ⟨75, false⟩ child = Except.ok q ∧
          ∃ n, follow_right create_sample_tree n child = some q) :=
  descent_linkage 11 create_sample_tree ⟨75, false⟩ [(2, 0), (0, 0)] sample_leaf8 1 (by decide)

/-! ## The `nextkey` flag as a shift of the key -/

/-- When neither `K - c` nor `K + 1 - c` overflows, the probe of `(K, nextkey
= true)` against `c` is the probe of `(K + 1, nextkey = false)`. -/
theorem probe_shift (K c : Int) (h1 : int_range (K - c)) (h2 : int_range (K + 1 - c)) :
    probe ⟨K, true⟩ c = probe ⟨K + 1, false⟩ c := by
  simp only [probe, cmpval_of, wrap32_of_int_range _ h1, wrap32_of_int_range _ h2, if_true,
    Bool.false_eq_true, if_false, decide_eq_decide]
  omega

/-- In the absence of overflow `_bt_binsrch` and `_bt_moveright` on a page,
and `_bt_search` on a tree, give the same results for `(K, nextkey = true)` and
`(K + 1, nextkey = false)`. -/
theorem nextkey_shift_of_no_overflow (K : Int) (tree : BTree)
    (hov : ∀ p ∈ tree.pages,
      (∀ i < p.num_keys.toNat,
        int_range (K - p.keys.getD i 0) ∧ int_range (K + 1 - p.keys.getD i 0)) ∧
      (p.has_high_key = true →
        int_range (K - p.high_key) ∧ int_range (K + 1 - p.high_key))) :
    (∀ p ∈ tree.pages, _bt_binsrch ⟨K, true⟩ p = _bt_binsrch ⟨K + 1, false⟩ p) ∧
    (∀ p ∈ tree.pages, ∀ fuel,
      _bt_moveright fuel tree ⟨K, true⟩ p = _bt_moveright fuel tree ⟨K + 1, false⟩ p) ∧
    (∀ fuel, _bt_search fuel tree ⟨K, true⟩ = _bt_search fuel tree ⟨K + 1, false⟩) := by
  have hsame : ∀ p ∈ tree.pages, same_probes ⟨K, true⟩ ⟨K + 1, false⟩ p := by
    intro p hp
    obtain ⟨h1, h2⟩ := hov p hp
    exact ⟨fun i hi => probe_shift K _ (h1 i hi).1 (h1 i hi).2,
      fun hh => probe_shift K _ (h2 hh).1 (h2 hh).2⟩
  have hall : ∀ b q, get_page tree b = some q → same_probes ⟨K, true⟩ ⟨K + 1, false⟩ q :=
    fun b q hq => hsame q (get_page_some tree b q hq).2
  exact ⟨fun p hp => binsrch_congr _ _ p (hsame p hp),
    fun p hp fuel => moveright_congr fuel tree _ _ hall p (hsame p hp),
    fun fuel => search_congr fuel tree _ _ hsame⟩

/-- C33, failing input: `shift_edge_tree` is well formed, every key and high
key in it has absolute value at most `2^30`, and so have `K = 2^30 - 1` and `K + 1 = 2^30`;
yet on the root leaf `_bt_binsrch` returns 1 for `(K, nextkey = true)` and 0
for `(K + 1, nextkey = false)`, `_bt_moveright` moves to the right sibling for
the first and stays for the second, and `_bt_search` returns block 1 with
offset 1 for the first and block 0 with offset 0 for the second. The cause is
the wrapped subtraction `(K + 1) - (-2^30) = 2^31`. -/
theorem nextkey_shift_overflow :
    well_formed shift_edge_tree ∧
    (∀ p ∈ shift_edge_tree.pages,
      (∀ i < 7, -1073741824 ≤ p.keys.getD i 0 ∧ p.keys.getD i 0 ≤ 1073741824) ∧
      -1073741824 ≤ p.high_key ∧ p.high_key ≤ 1073741824) ∧
    _bt_binsrch ⟨1073741823, true⟩ shift_edge_page0 = 1 ∧
    _bt_binsrch ⟨1073741823 + 1, false⟩ shift_edge_page0 = 0 ∧
    _bt_moveright 2 shift_edge_tree ⟨1073741823, true⟩ shift_edge_page0
      = Except.ok shift_edge_page1 ∧
    _bt_moveright 2 shift_edge_tree ⟨1073741823 + 1, false⟩ shift_edge_page0
      = Except.ok shift_edge_page0 ∧
    _bt_search 2 shift_edge_tree ⟨1073741823, true⟩ = Except.ok ([], shift_edge_page1, 1) ∧
    _bt_search 2 shift_edge_tree ⟨1073741823 + 1, false⟩
      = Except.ok ([], shift_edge_page0, 0) :=
  ⟨⟨fun _ => 0, fun b => 1 - b, by decide⟩, by decide⟩

end BTreeSearch
